import Mathlib

/-!
Verification development for the `pchain-world-state` crate.

The development shallowly embeds the crate's data model and operations:

* `KeyInstrumentedDB` (src/db.rs): the in-memory write-collecting overlay with its
  version-dependent physical-key layout (`build_key`).
* `Mpt` (src/mpt.rs): the Merkle-Patricia-Trie front end.  The external
  `trie_db`/`reference_trie` engine (declared out of scope by the specification,
  §1) is modelled as an authenticated single-node content-addressed store: a trie
  whose logical content is the association list `m` is persisted as one node
  whose body is `encodeMap m` and whose digest (the root hash) is the atom
  `hashOf (encodeMap m)`.  The crate-level logic layered on top of the engine
  (the overlay, the sentinel handling in `HashDB::remove`, `deinit`,
  `batch_remove`'s error handling, `close`) is translated from the source.
* `TrieKey` (src/trie_key.rs), `AccountsTrie` (src/accounts_trie.rs),
  `StorageTrie` (src/storage_trie.rs), `WorldState` (src/world_state.rs).
* `IndexMap` / `IndexHeap` (src/network/index_map.rs, src/network/index_heap.rs).

Byte strings are modelled as `List Nat`.  Physical keys and node bodies live in
`List PByte`, where `PByte.b n` is a literal byte and the digest atoms stand for the
32-byte hash outputs of the external hasher (collision-free by construction, the
standing cryptographic assumption of the crate).
-/

set_option linter.unusedVariables false

/-- Logical byte strings (user keys, addresses, raw values). -/
abbrev Bytes := List Nat

/-- Logical content of a storage trie: association list from trie keys to raw values. -/
abbrev SKV := List (Bytes × Bytes)

/-- Digest of a storage-trie node: either the canonical empty-trie digest
(`RefHasher::hash([0u8])`) or the digest of the node holding content `m`. -/
inductive SRoot where
  | empty : SRoot
  | node : SKV → SRoot
deriving DecidableEq, Repr

/-- A value stored in the accounts trie: raw bytes (nonce, balance, code,
cbi_version encodings) or the 32 raw bytes of a storage-root digest
(written by `AccountsTrie::set_storage_hash`). -/
inductive AVal where
  | raw : Bytes → AVal
  | root : SRoot → AVal
deriving DecidableEq, Repr

/-- Logical content of the accounts trie. -/
abbrev AKV := List (Bytes × AVal)

/-- Digest of an accounts-trie node. -/
inductive ARoot where
  | empty : ARoot
  | node : AKV → ARoot
deriving DecidableEq, Repr

/-- The physical alphabet of backend keys and values: literal bytes plus the
opaque 32-byte digests and node bodies produced by the external codec. -/
inductive PByte where
  | b : Nat → PByte
  | sd : SRoot → PByte
  | ad : ARoot → PByte
  | sEnc : SKV → PByte
  | aEnc : AKV → PByte
deriving DecidableEq, Repr

/-- Physical byte strings: backend keys, backend values, hash outputs. -/
abbrev PKey := List PByte

/-- Embed a logical byte string into the physical alphabet. -/
def liftB (bs : Bytes) : PKey := bs.map PByte.b

/- ### Association-list models of `HashMap` and `HashSet` -/

/-- Lookup in an association list (model of `HashMap::get`). -/
def aGet {κ α : Type} [DecidableEq κ] : List (κ × α) → κ → Option α
  | [], _ => none
  | (k, v) :: rest, key => if k = key then some v else aGet rest key

/-- Insert-or-overwrite (model of `HashMap::insert`). -/
def aPut {κ α : Type} [DecidableEq κ] (m : List (κ × α)) (key : κ) (v : α) :
    List (κ × α) :=
  (key, v) :: m.filter (fun p => decide (¬ p.1 = key))

/-- Key removal (model of `HashMap::remove`). -/
def aDel {κ α : Type} [DecidableEq κ] (m : List (κ × α)) (key : κ) : List (κ × α) :=
  m.filter (fun p => decide (¬ p.1 = key))

/-- Overwriting union, second argument wins (model of `HashMap::extend`). -/
def aExtend {κ α : Type} [DecidableEq κ] (m m' : List (κ × α)) : List (κ × α) :=
  m'.foldl (fun acc p => aPut acc p.1 p.2) m

/-- Membership test in a list-modelled set (model of `HashSet::contains`). -/
def sMem {κ : Type} [DecidableEq κ] : List κ → κ → Bool
  | [], _ => false
  | x :: xs, k => if x = k then true else sMem xs k

/-- Deduplicating insertion (model of `HashSet::insert`). -/
def sAdd {κ : Type} [DecidableEq κ] (s : List κ) (k : κ) : List κ :=
  if sMem s k then s else k :: s

/-- Removal (model of `HashSet::remove`). -/
def sDel {κ : Type} [DecidableEq κ] (s : List κ) (k : κ) : List κ :=
  s.filter (fun x => decide (¬ x = k))

/-- Union (model of `HashSet::extend`). -/
def sUnion {κ : Type} [DecidableEq κ] (s t : List κ) : List κ :=
  t.foldl sAdd s

/- ### Versions (src/version.rs) -/

/-- `Version` distinguishes the old (V1) and new (V2) world-state layouts. -/
inductive Version where
  | V1 : Version
  | V2 : Version
deriving DecidableEq, Repr

/- ### The key-instrumented overlay (src/db.rs) -/

/-- `KeyInstrumentedDB`: buffers writes (`inserts`) and deletions (`deletes`)
in memory and prefixes every physical access with a version-dependent keyspace
prefix.  `domain` is empty for the accounts trie and the 32-byte account
address for a storage trie.  The phantom version parameter of the source is
carried as the field `ver`. -/
structure KIDB where
  ver : Version
  inserts : List (PKey × PKey)
  deletes : List PKey
  domain : Bytes
deriving DecidableEq, Repr

/-- `KeyInstrumentedDB::new`: empty caches. -/
def KIDB.init (ver : Version) (domain : Bytes) : KIDB :=
  ⟨ver, [], [], domain⟩

/-- `KeyInstrumentedDB::build_key` (src/db.rs lines 100–123): the physical key.
V1: `domain ++ key` (just `key` when the domain is empty).
V2: byte `0` then `key` when the domain is empty, byte `1` then `domain ++ key`
otherwise. -/
def KIDB.build_key (db : KIDB) (key : PKey) : PKey :=
  match db.ver with
  | .V1 => if db.domain.isEmpty then key else liftB db.domain ++ key
  | .V2 =>
    if db.domain.isEmpty then PByte.b 0 :: key
    else PByte.b 1 :: (liftB db.domain ++ key)

/-- `KeyInstrumentedDB::get` (src/db.rs lines 60–74): consult `inserts` first,
then report deletion, then fall back to the backend. -/
def KIDB.get (db : KIDB) (backend : List (PKey × PKey)) (key : PKey) : Option PKey :=
  let searchKey := db.build_key key
  match aGet db.inserts searchKey with
  | some value => some value
  | none =>
    if sMem db.deletes searchKey then none
    else
      match aGet backend searchKey with
      | some value => some value
      | none => none

/-- `KeyInstrumentedDB::put` (src/db.rs lines 77–81). -/
def KIDB.put (db : KIDB) (key value : PKey) : KIDB :=
  let insertKey := db.build_key key
  { db with
    deletes := sDel db.deletes insertKey
    inserts := aPut db.inserts insertKey value }

/-- `KeyInstrumentedDB::delete` (src/db.rs lines 84–88). -/
def KIDB.delete (db : KIDB) (key : PKey) : KIDB :=
  let deleteKey := db.build_key key
  { db with
    inserts := aDel db.inserts deleteKey
    deletes := sAdd db.deletes deleteKey }

/-- `DbChanges` (src/db.rs): the pair returned by `close`. -/
structure DbChanges where
  inserts : List (PKey × PKey)
  deletes : List PKey
deriving DecidableEq, Repr

/-- `KeyInstrumentedDB::close` (src/db.rs lines 91–97): return both caches and
clear them. -/
def KIDB.close (db : KIDB) : DbChanges × KIDB :=
  (⟨db.inserts, db.deletes⟩, { db with inserts := [], deletes := [] })

/- ### Basic association-list lemmas -/

theorem aGet_aPut {κ α : Type} [DecidableEq κ] (m : List (κ × α)) (k k' : κ) (v : α) :
    aGet (aPut m k v) k' = if k = k' then some v else aGet m k' := by
  unfold aPut
  induction m with
  | nil => simp [aGet]
  | cons p rest ih =>
    by_cases hp : p.1 = k
    · by_cases hk : k = k' <;>
        simp_all [aGet, List.filter]
    · by_cases hk : k = k' <;> by_cases hpk : p.1 = k' <;>
        simp_all [aGet, List.filter]

theorem aGet_aDel {κ α : Type} [DecidableEq κ] (m : List (κ × α)) (k k' : κ) :
    aGet (aDel m k) k' = if k = k' then none else aGet m k' := by
  unfold aDel
  induction m with
  | nil => simp [aGet]
  | cons p rest ih =>
    by_cases hp : p.1 = k
    · by_cases hk : k = k' <;> simp_all [aGet, List.filter]
    · by_cases hk : k = k' <;> by_cases hpk : p.1 = k' <;>
        simp_all [aGet, List.filter]

theorem sMem_sAdd {κ : Type} [DecidableEq κ] (s : List κ) (k k' : κ) :
    sMem (sAdd s k) k' = (k = k' || sMem s k') := by
  unfold sAdd
  by_cases hm : sMem s k
  · by_cases hk : k = k'
    · subst hk; simp [hm]
    · simp [hm, hk]
  · by_cases hk : k = k' <;> simp_all [sMem]

theorem sMem_sDel {κ : Type} [DecidableEq κ] (s : List κ) (k k' : κ) :
    sMem (sDel s k) k' = (!(k = k') && sMem s k') := by
  unfold sDel
  induction s with
  | nil => simp [sMem]
  | cons x xs ih =>
    by_cases hx : x = k
    · by_cases hk : k = k' <;> simp_all [sMem, List.filter]
    · by_cases hk : k = k' <;> by_cases hxk : x = k' <;>
        simp_all [sMem, List.filter]

/- ### Claim C4: physical-key layout -/

/-- C4.  For every raw key accessed through the overlay the physical key is:
under V1, `domain ++ key` (and `key` itself when the domain prefix is empty);
under V2, byte `0x00` followed by `key` when the domain is empty and byte
`0x01` followed by `domain ++ key` when it is non-empty — and `get`, `put`
and `delete` all address exactly this physical key. -/
theorem c4_build_key_layout (ver : Version) (dom : Bytes) (k v : PKey)
    (backend : List (PKey × PKey)) (db : KIDB) (hdb : db.domain = dom)
    (hver : db.ver = ver) :
    (ver = .V1 → db.build_key k = liftB dom ++ k) ∧
    (ver = .V1 → dom = [] → db.build_key k = k) ∧
    (ver = .V2 → dom = [] → db.build_key k = PByte.b 0 :: k) ∧
    (ver = .V2 → dom ≠ [] → db.build_key k = PByte.b 1 :: (liftB dom ++ k)) ∧
    (db.get backend k =
      match aGet db.inserts (db.build_key k) with
      | some value => some value
      | none =>
        if sMem db.deletes (db.build_key k) then none
        else match aGet backend (db.build_key k) with
             | some value => some value
             | none => none) ∧
    ((db.put k v).inserts = aPut db.inserts (db.build_key k) v) ∧
    ((db.delete k).deletes = sAdd db.deletes (db.build_key k)) := by
  subst hdb hver
  refine ⟨?_, ?_, ?_, ?_, rfl, rfl, rfl⟩
  · intro h1
    unfold KIDB.build_key
    rw [h1]
    by_cases hd : db.domain = []
    · simp [hd, liftB]
    · simp [List.isEmpty_iff, hd]
  · intro h1 h2
    unfold KIDB.build_key
    rw [h1]
    simp [List.isEmpty_iff, h2]
  · intro h1 h2
    unfold KIDB.build_key
    rw [h1]
    simp [List.isEmpty_iff, h2]
  · intro h1 h2
    unfold KIDB.build_key
    rw [h1]
    simp [List.isEmpty_iff, h2]

/-- Witness for C4 at a concrete overlay. -/
theorem c4_build_key_layout_witness :
    ((KIDB.init .V2 [5, 6]).build_key [PByte.b 9] =
      PByte.b 1 :: (liftB [5, 6] ++ [PByte.b 9])) ∧
    ((KIDB.init .V2 [5, 6]).delete [PByte.b 9]).deletes =
      sAdd (KIDB.init .V2 [5, 6]).deletes ((KIDB.init .V2 [5, 6]).build_key [PByte.b 9]) := by
  have h := c4_build_key_layout .V2 [5, 6] [PByte.b 9] [] [] (KIDB.init .V2 [5, 6])
    rfl rfl
  exact ⟨h.2.2.2.1 rfl (by decide), h.2.2.2.2.2.2⟩

/- ### Claim C3: overlay put/delete/get/close behaviour -/

/-- C3.  `put(k,v)` removes the prefixed key from `deletes` and records it in
`inserts` with value `v`; `delete(k)` removes the prefixed key from `inserts`
and adds it to `deletes`; `get(k)` returns `inserts[k]` when present, otherwise
`none` when the prefixed key is deleted, otherwise the backend's answer; and
`close` returns the accumulated `(inserts, deletes)` pair and clears both
collections.  Stated pointwise over all physical keys `p`. -/
theorem c3_overlay_semantics (db : KIDB) (backend : List (PKey × PKey))
    (k v : PKey) (p : PKey) :
    (aGet (db.put k v).inserts p =
      (if db.build_key k = p then some v else aGet db.inserts p)) ∧
    (sMem (db.put k v).deletes p =
      (!(db.build_key k = p) && sMem db.deletes p)) ∧
    (aGet (db.delete k).inserts p =
      (if db.build_key k = p then none else aGet db.inserts p)) ∧
    (sMem (db.delete k).deletes p =
      (db.build_key k = p || sMem db.deletes p)) ∧
    (∀ w, aGet db.inserts (db.build_key k) = some w → db.get backend k = some w) ∧
    (aGet db.inserts (db.build_key k) = none →
      sMem db.deletes (db.build_key k) = true → db.get backend k = none) ∧
    (aGet db.inserts (db.build_key k) = none →
      sMem db.deletes (db.build_key k) = false →
      db.get backend k = aGet backend (db.build_key k)) ∧
    ((db.close).1.inserts = db.inserts ∧ (db.close).1.deletes = db.deletes ∧
      (db.close).2.inserts = [] ∧ (db.close).2.deletes = []) := by
  refine ⟨?_, ?_, ?_, ?_, ?_, ?_, ?_, rfl, rfl, rfl, rfl⟩
  · exact aGet_aPut db.inserts (db.build_key k) p v
  · exact sMem_sDel db.deletes (db.build_key k) p
  · exact aGet_aDel db.inserts (db.build_key k) p
  · exact sMem_sAdd db.deletes (db.build_key k) p
  · intro w hw
    unfold KIDB.get
    simp only [hw]
  · intro h1 h2
    unfold KIDB.get
    simp only [h1, h2, if_true]
  · intro h1 h2
    unfold KIDB.get
    simp only [h1, h2, Bool.false_eq_true, if_false]
    cases aGet backend (db.build_key k) <;> rfl

/- ### Errors (src/error.rs) -/

/-- `MptError` (src/error.rs): errors surfaced from the trie engine. -/
inductive MptError where
  | InvalidStateRoot : MptError
  | IncompleteDatabase : MptError
  | ValueAtIncompleteKey : MptError
  | DecoderError : MptError
  | InvalidHash : MptError
  | EmptyTrie : MptError
deriving DecidableEq, Repr

/-- `TrieKeyBuildError` (src/error.rs). -/
inductive TrieKeyBuildError where
  | InvalidAccountField : TrieKeyBuildError
  | InvalidPublicAddress : TrieKeyBuildError
  | Other : TrieKeyBuildError
deriving DecidableEq, Repr

/-- `DecodeOrEncodeError` (src/error.rs). -/
inductive DecodeOrEncodeError where
  | DecodeError : DecodeOrEncodeError
  | EncodeError : DecodeOrEncodeError
deriving DecidableEq, Repr

/-- `WorldStateError` (src/error.rs). -/
inductive WorldStateError where
  | MptError : MptError → WorldStateError
  | TrieKeyBuildError : TrieKeyBuildError → WorldStateError
  | DecodeOrEncodeError : DecodeOrEncodeError → WorldStateError
deriving DecidableEq, Repr

/- ### Node codecs

Modelled from the spec (§1, §4.4): the external MPT codec and hasher are out of
scope for the crate; the spec fixes only their contract — a node body binds the
trie content below it, the digest of a node is the hash of its body, and the
canonical empty node has body `0x00` with the empty root `hash(0x00)`.  A trie
holding logical content `m` is modelled as the single node with body `enc m`
and digest `hash (enc m)`. -/

/-- Storage-trie node bodies.  `[0]` is `NULL_NODE_VALUE`. -/
def sEncode : SKV → PKey
  | [] => [PByte.b 0]
  | m => [PByte.b 1, PByte.sEnc m]

/-- Inverse of `sEncode`. -/
def sDecode : PKey → Option SKV
  | [PByte.b 0] => some []
  | [PByte.b 1, PByte.sEnc m] => if m.isEmpty then none else some m
  | _ => none

/-- The external hasher on storage-trie node bodies (collision-free digests). -/
def sHash : PKey → PKey
  | [PByte.b 0] => [PByte.sd .empty]
  | [PByte.b 1, PByte.sEnc m] => [PByte.sd (.node m)]
  | _ => [PByte.sd .empty]

/-- Accounts-trie node bodies. -/
def aEncode : AKV → PKey
  | [] => [PByte.b 0]
  | m => [PByte.b 1, PByte.aEnc m]

/-- Inverse of `aEncode`. -/
def aDecode : PKey → Option AKV
  | [PByte.b 0] => some []
  | [PByte.b 1, PByte.aEnc m] => if m.isEmpty then none else some m
  | _ => none

/-- The external hasher on accounts-trie node bodies. -/
def aHash : PKey → PKey
  | [PByte.b 0] => [PByte.ad .empty]
  | [PByte.b 1, PByte.aEnc m] => [PByte.ad (.node m)]
  | _ => [PByte.ad .empty]

/-- A node codec: how one kind of trie serializes, deserializes and hashes
its node bodies. -/
structure Codec (V : Type) where
  enc : List (Bytes × V) → PKey
  dec : PKey → Option (List (Bytes × V))
  hash : PKey → PKey

/-- The storage-trie codec. -/
def sCodec : Codec Bytes := ⟨sEncode, sDecode, sHash⟩

/-- The accounts-trie codec. -/
def aCodec : Codec AVal := ⟨aEncode, aDecode, aHash⟩

/- ### The MPT front end (src/mpt.rs) -/

/-- `Mpt` (src/mpt.rs): an overlay plus the current root hash. -/
structure Mpt where
  storage : KIDB
  root_hash : PKey
deriving DecidableEq, Repr

/-- `MptChanges` (src/mpt.rs): inserts, deletes and the root returned by `close`. -/
structure MptChanges where
  inserts : List (PKey × PKey)
  deletes : List PKey
  root_hash : PKey
deriving DecidableEq, Repr

/-- `Mpt::new` (src/mpt.rs lines 51–83): store the sentinel
`(hash(0x00) → 0x00)` through the overlay and start at the canonical empty
root. -/
def Mpt.init {V : Type} (c : Codec V) (storage : KIDB) : Mpt :=
  { storage := storage.put (c.hash [PByte.b 0]) [PByte.b 0]
    root_hash := c.hash (c.enc []) }

/-- `Mpt::open` (src/mpt.rs lines 116–119). -/
def Mpt.mopen (storage : KIDB) (root_hash : PKey) : Mpt :=
  ⟨storage, root_hash⟩

/-- `HashDB::get` for `Mpt` (src/mpt.rs lines 429–432).  The root node sits at
the empty nibble path, so `PrefixedTrieNodeKey` is the digest itself; the
lookup goes through the overlay. -/
def Mpt.hashdbGet (m : Mpt) (backend : List (PKey × PKey)) (key : PKey) : Option PKey :=
  m.storage.get backend key

/-- `HashDB::insert` for `Mpt` (src/mpt.rs lines 441–445): key the value by its
hash and `put` it through the overlay. -/
def Mpt.hashdbInsert {V : Type} (c : Codec V) (m : Mpt) (value : PKey) : Mpt :=
  { m with storage := m.storage.put (c.hash value) value }

/-- `HashDB::remove` for `Mpt` (src/mpt.rs lines 454–460): node removal
explicitly skips the canonical empty-node digest `hash(0x00)`. -/
def Mpt.hashdbRemove {V : Type} (c : Codec V) (m : Mpt) (key : PKey) : Mpt :=
  if key = c.hash [PByte.b 0] then m
  else { m with storage := m.storage.delete key }

/-- Modelled from the spec (§4.4): opening the trie view at the current root
and reading the full logical content.  Fails `InvalidStateRoot` when the root
node cannot be resolved, `DecoderError` on a corrupt body. -/
def Mpt.readMap {V : Type} (c : Codec V) (m : Mpt) (backend : List (PKey × PKey)) :
    Except MptError (List (Bytes × V)) :=
  match m.hashdbGet backend m.root_hash with
  | none => .error .InvalidStateRoot
  | some content =>
    match c.dec content with
    | none => .error .DecoderError
    | some mp => .ok mp

/-- `Mpt::get` (src/mpt.rs lines 126–139). -/
def Mpt.get {V : Type} (c : Codec V) (m : Mpt) (backend : List (PKey × PKey))
    (key : Bytes) : Except MptError (Option V) :=
  (m.readMap c backend).map (fun mp => aGet mp key)

/-- `Mpt::contains` (src/mpt.rs lines 186–199). -/
def Mpt.containsKey {V : Type} (c : Codec V) (m : Mpt) (backend : List (PKey × PKey))
    (key : Bytes) : Except MptError Bool :=
  (m.readMap c backend).map (fun mp => (aGet mp key).isSome)

/-- The commit step of a mutation (`TrieDBMut::commit`): the engine removes the
stale root node through `HashDB::remove` and inserts the node holding the new
content through `HashDB::insert`, then the new root is recorded.  Modelled from
the spec (§4.4). -/
def Mpt.reroot {V : Type} (c : Codec V) (m : Mpt) (newMp : List (Bytes × V)) : Mpt :=
  let m1 := Mpt.hashdbRemove c m m.root_hash
  let m2 := Mpt.hashdbInsert c m1 (c.enc newMp)
  { m2 with root_hash := c.hash (c.enc newMp) }

/-- `Mpt::set` (src/mpt.rs lines 234–267). -/
def Mpt.set {V : Type} (c : Codec V) (m : Mpt) (backend : List (PKey × PKey))
    (key : Bytes) (value : V) : Except MptError Mpt :=
  match m.readMap c backend with
  | .error e => .error e
  | .ok mp => .ok (m.reroot c (aPut mp key value))

/-- `Mpt::remove` (src/mpt.rs lines 315–346): no-op when the key is absent
(the `contains` pre-check), otherwise remove and commit. -/
def Mpt.removeKey {V : Type} (c : Codec V) (m : Mpt) (backend : List (PKey × PKey))
    (key : Bytes) : Except MptError Mpt :=
  match m.readMap c backend with
  | .error e => .error e
  | .ok mp =>
    if (aGet mp key).isSome then .ok (m.reroot c (aDel mp key)) else .ok m

/-- `Mpt::batch_set` (src/mpt.rs lines 273–309): insert every pair, one commit;
a per-key error is propagated with `?`.  With no data the builder commits
nothing and the call succeeds without touching the trie. -/
def Mpt.batch_set {V : Type} (c : Codec V) (m : Mpt) (backend : List (PKey × PKey))
    (data : List (Bytes × V)) : Except MptError Mpt :=
  if data.isEmpty then .ok m
  else
    match m.readMap c backend with
    | .error e => .error e
    | .ok mp => .ok (m.reroot c (data.foldl (fun acc p => aPut acc p.1 p.2) mp))

/-- `Mpt::batch_remove` (src/mpt.rs lines 352–384): each per-key removal error
is discarded — the source reads `let _ = trie.remove(key).map_err(..)` with no
`?` — so the function always returns `Ok`, keeping whatever state the failed
step left behind. -/
def Mpt.batch_remove {V : Type} (c : Codec V) (m : Mpt) (backend : List (PKey × PKey))
    (key_set : List Bytes) : Except MptError Mpt :=
  .ok (key_set.foldl (fun acc k =>
    match acc.readMap c backend with
    | .error _ => acc
    | .ok mp => if (aGet mp k).isSome then acc.reroot c (aDel mp k) else acc) m)

/-- `Mpt::deinit` (src/mpt.rs lines 86–113): only the canonical empty root may
be deinit-ed; when the (empty) trie still resolves, the sentinel key
`hash(0x00)` is deleted through the overlay. -/
def Mpt.deinit {V : Type} (c : Codec V) (m : Mpt) (backend : List (PKey × PKey)) :
    Except MptError Mpt :=
  if m.root_hash ≠ c.hash [PByte.b 0] then .error .InvalidStateRoot
  else if (m.hashdbGet backend m.root_hash).isSome then
    .ok { m with storage := m.storage.delete (c.hash [PByte.b 0]) }
  else .ok m

/-- `Mpt::close` (src/mpt.rs lines 387–390). -/
def Mpt.close (m : Mpt) : MptChanges × Mpt :=
  let (chg, db) := m.storage.close
  (⟨chg.inserts, chg.deletes, m.root_hash⟩, { m with storage := db })

/-- `Mpt::all` / trie iteration collected into a map (used by
`AccountsTrie::all`, `StorageTrie::all`, `StorageTrie::remove_trie`). -/
def Mpt.all {V : Type} (c : Codec V) (m : Mpt) (backend : List (PKey × PKey)) :
    Except MptError (List (Bytes × V)) :=
  m.readMap c backend

/- ### Structural lemmas about the overlay and the trie front end -/

theorem liftB_inj (a b : Bytes) (h : liftB a = liftB b) : a = b := by
  induction a generalizing b with
  | nil => cases b <;> simp_all [liftB]
  | cons x xs ih =>
    cases b with
    | nil => simp_all [liftB]
    | cons y ys =>
      simp only [liftB, List.map_cons, List.cons.injEq, PByte.b.injEq] at h
      simp [h.1, ih ys h.2]

theorem KIDB.build_key_inj (db : KIDB) (k k' : PKey)
    (h : db.build_key k = db.build_key k') : k = k' := by
  unfold KIDB.build_key at h
  cases hv : db.ver <;> rw [hv] at h <;> by_cases hd : db.domain.isEmpty <;>
    simp only [hd, if_true, if_false, Bool.false_eq_true, List.cons.injEq] at h
  · exact h
  · exact List.append_cancel_left h
  · exact h.2
  · exact List.append_cancel_left h.2

theorem KIDB.build_key_put (db : KIDB) (k v p : PKey) :
    (db.put k v).build_key p = db.build_key p := rfl

theorem KIDB.build_key_delete (db : KIDB) (k p : PKey) :
    (db.delete k).build_key p = db.build_key p := rfl

/-- A mutation commit never adds the physical sentinel key to the delete set:
`HashDB::remove` skips the digest `hash(0x00)` and `put` only shrinks
`deletes`. -/
theorem sentinel_not_deleted_reroot {V : Type} (c : Codec V) (m : Mpt)
    (mp : List (Bytes × V))
    (h : sMem m.storage.deletes (m.storage.build_key (c.hash [PByte.b 0])) = false) :
    sMem (m.reroot c mp).storage.deletes
      ((m.reroot c mp).storage.build_key (c.hash [PByte.b 0])) = false := by
  unfold Mpt.reroot Mpt.hashdbRemove Mpt.hashdbInsert
  by_cases hr : m.root_hash = c.hash [PByte.b 0]
  · rw [if_pos hr]
    show sMem ((m.storage.put (c.hash (c.enc mp)) (c.enc mp)).deletes)
      ((m.storage.put (c.hash (c.enc mp)) (c.enc mp)).build_key (c.hash [PByte.b 0]))
      = false
    rw [KIDB.build_key_put]
    unfold KIDB.put
    simp [sMem_sDel, h]
  · rw [if_neg hr]
    show sMem (((m.storage.delete m.root_hash).put (c.hash (c.enc mp)) (c.enc mp)).deletes)
      (((m.storage.delete m.root_hash).put (c.hash (c.enc mp)) (c.enc mp)).build_key
        (c.hash [PByte.b 0])) = false
    rw [KIDB.build_key_put, KIDB.build_key_delete]
    have hne : decide (m.storage.build_key m.root_hash
        = m.storage.build_key (c.hash [PByte.b 0])) = false := by
      simp only [decide_eq_false_iff_not]
      intro heq
      exact hr (KIDB.build_key_inj m.storage _ _ heq)
    unfold KIDB.put KIDB.delete
    simp only [sMem_sDel, sMem_sAdd]
    simp [h, hne]

/- ### Claim C6: batch_remove silently discards per-key trie errors -/

/-- C6.  Evaluation at a failing input: with the trie opened at a root hash
absent from the backend, `get` and `remove` fail with `InvalidStateRoot`, but
`batch_remove` on a non-empty key set returns `Ok` with the trie unchanged,
because the source discards each per-key error instead of propagating it. -/
theorem c6_batch_remove_swallows_errors :
    (Mpt.get aCodec
        (Mpt.mopen (KIDB.init .V1 []) [PByte.ad (.node [([5], .raw [6])])]) [] [5]
      = .error .InvalidStateRoot) ∧
    (Mpt.removeKey aCodec
        (Mpt.mopen (KIDB.init .V1 []) [PByte.ad (.node [([5], .raw [6])])]) [] [5]
      = .error .InvalidStateRoot) ∧
    (Mpt.batch_remove aCodec
        (Mpt.mopen (KIDB.init .V1 []) [PByte.ad (.node [([5], .raw [6])])]) [] [[5]]
      = .ok (Mpt.mopen (KIDB.init .V1 []) [PByte.ad (.node [([5], .raw [6])])])) :=
  ⟨rfl, rfl, rfl⟩

/- ### Claim C7: deinit -/

/-- C7.  `deinit` on a trie whose root hash is not the canonical empty root
fails with `InvalidStateRoot` (leaving the trie untouched — the source returns
before any mutation); on a trie at the empty root whose sentinel node is still
reachable it succeeds, deleting exactly the sentinel key `hash(0x00)` through
the overlay while the root hash is kept. -/
theorem c7_deinit_empty_root_only {V : Type} (c : Codec V) (m : Mpt)
    (backend : List (PKey × PKey)) :
    (m.root_hash ≠ c.hash [PByte.b 0] →
      Mpt.deinit c m backend = .error .InvalidStateRoot) ∧
    (m.root_hash = c.hash [PByte.b 0] →
      (m.hashdbGet backend m.root_hash).isSome = true →
      Mpt.deinit c m backend =
        .ok { m with storage := m.storage.delete (c.hash [PByte.b 0]) } ∧
      sMem (m.storage.delete (c.hash [PByte.b 0])).deletes
        (m.storage.build_key (c.hash [PByte.b 0])) = true ∧
      ({ m with storage := m.storage.delete (c.hash [PByte.b 0]) } : Mpt).root_hash
        = m.root_hash) := by
  constructor
  · intro h
    simp [Mpt.deinit, h]
  · intro h1 h2
    refine ⟨?_, ?_, rfl⟩
    · have hne : ¬ m.root_hash ≠ c.hash [PByte.b 0] := by simp [h1]
      simp [Mpt.deinit, hne, h2]
    · unfold KIDB.delete
      simp [sMem_sAdd]

/-- Witness for C7: a populated root is rejected; a fresh empty trie is
deinit-ed with the sentinel going into the delete set. -/
theorem c7_deinit_empty_root_only_witness :
    (Mpt.deinit sCodec (Mpt.mopen (KIDB.init .V1 []) [PByte.sd (.node [([5], [6])])]) []
      = .error .InvalidStateRoot) ∧
    (Mpt.deinit sCodec (Mpt.init sCodec (KIDB.init .V1 [])) []
      = .ok { Mpt.init sCodec (KIDB.init .V1 []) with
              storage := (Mpt.init sCodec (KIDB.init .V1 [])).storage.delete
                (sCodec.hash [PByte.b 0]) }) := by
  constructor
  · exact (c7_deinit_empty_root_only sCodec
      (Mpt.mopen (KIDB.init .V1 []) [PByte.sd (.node [([5], [6])])]) []).1 (by decide)
  · exact ((c7_deinit_empty_root_only sCodec
      (Mpt.init sCodec (KIDB.init .V1 [])) []).2 (by decide) (by decide)).1

/- ### Claim C10: the sentinel is never deleted by ordinary mutations -/

/-- Operations on one trie, for stating mutation-sequence invariants. -/
inductive MptOp (V : Type) where
  | setOp : Bytes → V → MptOp V
  | removeOp : Bytes → MptOp V
  | batchSetOp : List (Bytes × V) → MptOp V
  | batchRemoveOp : List Bytes → MptOp V

/-- Dispatch one operation. -/
def Mpt.applyOp {V : Type} (c : Codec V) (backend : List (PKey × PKey)) (m : Mpt) :
    MptOp V → Except MptError Mpt
  | .setOp k v => m.set c backend k v
  | .removeOp k => m.removeKey c backend k
  | .batchSetOp d => m.batch_set c backend d
  | .batchRemoveOp ks => m.batch_remove c backend ks

/-- Run a sequence of `set`/`remove`/`batch_set`/`batch_remove` calls. -/
def Mpt.runOps {V : Type} (c : Codec V) (backend : List (PKey × PKey)) :
    Mpt → List (MptOp V) → Except MptError Mpt
  | m, [] => .ok m
  | m, op :: rest =>
    match Mpt.applyOp c backend m op with
    | .error e => .error e
    | .ok m2 => Mpt.runOps c backend m2 rest

theorem sentinel_not_deleted_applyOp {V : Type} (c : Codec V) (m m' : Mpt)
    (backend : List (PKey × PKey)) (op : MptOp V)
    (hok : Mpt.applyOp c backend m op = .ok m')
    (h : sMem m.storage.deletes (m.storage.build_key (c.hash [PByte.b 0])) = false) :
    sMem m'.storage.deletes (m'.storage.build_key (c.hash [PByte.b 0])) = false := by
  cases op with
  | setOp k v =>
    simp only [Mpt.applyOp] at hok
    unfold Mpt.set at hok
    cases hmp : m.readMap c backend with
    | error e => rw [hmp] at hok; exact Except.noConfusion hok
    | ok mp =>
      rw [hmp] at hok
      cases hok
      exact sentinel_not_deleted_reroot c m _ h
  | removeOp k =>
    simp only [Mpt.applyOp] at hok
    unfold Mpt.removeKey at hok
    cases hmp : m.readMap c backend with
    | error e => rw [hmp] at hok; exact Except.noConfusion hok
    | ok mp =>
      rw [hmp] at hok
      by_cases hc : (aGet mp k).isSome
      · simp only [hc, if_true] at hok
        cases hok
        exact sentinel_not_deleted_reroot c m _ h
      · simp only [hc, Bool.false_eq_true, if_false] at hok
        cases hok
        exact h
  | batchSetOp d =>
    simp only [Mpt.applyOp] at hok
    unfold Mpt.batch_set at hok
    by_cases hd : d.isEmpty
    · rw [if_pos hd] at hok; cases hok; exact h
    · rw [if_neg hd] at hok
      cases hmp : m.readMap c backend with
      | error e => rw [hmp] at hok; exact Except.noConfusion hok
      | ok mp =>
        rw [hmp] at hok
        cases hok
        exact sentinel_not_deleted_reroot c m _ h
  | batchRemoveOp ks =>
    simp only [Mpt.applyOp] at hok
    unfold Mpt.batch_remove at hok
    cases hok
    induction ks generalizing m with
    | nil => exact h
    | cons k rest ih =>
      simp only [List.foldl_cons]
      apply ih
      cases hmp : m.readMap c backend with
      | error e => simpa [hmp] using h
      | ok mp =>
        by_cases hc : (aGet mp k).isSome
        · simp only [hmp, hc, if_true]
          exact sentinel_not_deleted_reroot c m _ h
        · simpa [hmp, hc] using h

/-- C10.  Over any sequence of `set`, `batch_set`, `remove` and `batch_remove`
operations, the physical key of the empty-trie sentinel (`hash(0x00)` under the
trie's keyspace prefix) is never added to the overlay's delete set: trie-node
removal explicitly skips that digest, so only `deinit` ever deletes the
sentinel and a trie emptied by removing all of its keys can still be reopened
at the empty root. -/
theorem c10_sentinel_survives_mutations {V : Type} (c : Codec V)
    (backend : List (PKey × PKey)) (ops : List (MptOp V)) (m m' : Mpt)
    (hrun : Mpt.runOps c backend m ops = .ok m')
    (h0 : sMem m.storage.deletes (m.storage.build_key (c.hash [PByte.b 0])) = false) :
    sMem m'.storage.deletes (m'.storage.build_key (c.hash [PByte.b 0])) = false := by
  induction ops generalizing m with
  | nil =>
    unfold Mpt.runOps at hrun
    cases hrun
    exact h0
  | cons op rest ih =>
    unfold Mpt.runOps at hrun
    cases hstep : Mpt.applyOp c backend m op with
    | error e => rw [hstep] at hrun; exact Except.noConfusion hrun
    | ok m2 =>
      rw [hstep] at hrun
      exact ih m2 hrun (sentinel_not_deleted_applyOp c m m2 backend op hstep h0)

/-- Auxiliary: the run the C10 witness instantiates — fill a fresh trie, then
empty it again. -/
def c10wRun : Except MptError Mpt :=
  Mpt.runOps sCodec [] (Mpt.init sCodec (KIDB.init .V1 []))
    [.setOp [5] [6], .removeOp [5]]

/-- Auxiliary: the resulting trie of the C10 witness run. -/
def c10wM : Mpt :=
  match c10wRun with
  | .ok m => m
  | .error _ => Mpt.mopen (KIDB.init .V1 []) []

/-- Witness for C10: after setting and removing a key on a fresh V1 trie the
sentinel's physical key is still not in the delete set. -/
theorem c10_sentinel_survives_mutations_witness :
    c10wRun = .ok c10wM ∧
    sMem c10wM.storage.deletes (c10wM.storage.build_key (sCodec.hash [PByte.b 0]))
      = false :=
  ⟨rfl, c10_sentinel_survives_mutations sCodec [] [.setOp [5] [6], .removeOp [5]]
    (Mpt.init sCodec (KIDB.init .V1 [])) c10wM rfl rfl⟩

/-- Witness for C3 at concrete overlays: a buffered insert wins, a buffered
delete masks the backend, and an untouched key falls through to the backend. -/
theorem c3_overlay_semantics_witness :
    (((KIDB.init .V1 []).put [PByte.b 1] [PByte.b 2]).get [] [PByte.b 1]
      = some [PByte.b 2]) ∧
    (((KIDB.init .V1 []).delete [PByte.b 1]).get
      [([PByte.b 1], [PByte.b 9])] [PByte.b 1] = none) ∧
    ((KIDB.init .V1 []).get [([PByte.b 1], [PByte.b 9])] [PByte.b 1]
      = some [PByte.b 9]) := by
  refine ⟨?_, ?_, ?_⟩
  · exact (c3_overlay_semantics ((KIDB.init .V1 []).put [PByte.b 1] [PByte.b 2])
      [] [PByte.b 1] [] []).2.2.2.2.1 [PByte.b 2] (by decide)
  · exact (c3_overlay_semantics ((KIDB.init .V1 []).delete [PByte.b 1])
      [([PByte.b 1], [PByte.b 9])] [PByte.b 1] [] []).2.2.2.2.2.1
      (by decide) (by decide)
  · rw [(c3_overlay_semantics (KIDB.init .V1 [])
      [([PByte.b 1], [PByte.b 9])] [PByte.b 1] [] []).2.2.2.2.2.2.1
      (by decide) (by decide)]
    decide

/- ### Trie-key schema (src/trie_key.rs) -/

/-- `AccountField` (src/accounts_trie.rs lines 83–90). -/
inductive AccountField where
  | Nonce : AccountField
  | Balance : AccountField
  | ContractCode : AccountField
  | CbiVersion : AccountField
  | StorageHash : AccountField
deriving DecidableEq, Repr

/-- The tag byte of each field. -/
def AccountField.toByte : AccountField → Nat
  | .Nonce => 0
  | .Balance => 1
  | .ContractCode => 2
  | .CbiVersion => 3
  | .StorageHash => 4

/-- The `TryInto<AccountField> for u8` conversion (src/accounts_trie.rs
lines 92–105). -/
def AccountField.ofByte : Nat → Except TrieKeyBuildError AccountField
  | 0 => .ok .Nonce
  | 1 => .ok .Balance
  | 2 => .ok .ContractCode
  | 3 => .ok .CbiVersion
  | 4 => .ok .StorageHash
  | _ => .error .InvalidAccountField

/-- `TrieKey::account_key` (src/trie_key.rs lines 36–55): V1 appends the
Protected visibility byte `0x01` and the field tag after the 32-byte address;
V2 appends only the field tag. -/
def TrieKey.account_key (ver : Version) (address : Bytes) (f : AccountField) : Bytes :=
  match ver with
  | .V1 => address ++ [1, f.toByte]
  | .V2 => address ++ [f.toByte]

/-- `TrieKey::storage_key` (src/trie_key.rs lines 62–76): V1 pushes the Public
visibility byte `0x00` in front of the caller key; V2 uses it unchanged. -/
def TrieKey.storage_key (ver : Version) (key : Bytes) : Bytes :=
  match ver with
  | .V1 => 0 :: key
  | .V2 => key

/-- `TrieKey::account_field` (src/trie_key.rs lines 79–90): the field tag sits
at offset 33 (V1) or 32 (V2). -/
def TrieKey.account_field (ver : Version) (key : Bytes) :
    Except TrieKeyBuildError AccountField :=
  let idx : Nat := match ver with | .V1 => 33 | .V2 => 32
  if key.length ≤ idx then .error .InvalidAccountField
  else AccountField.ofByte (key.getD idx 0)

/-- `TrieKey::account_address` (src/trie_key.rs lines 93–101): the first
32 bytes. -/
def TrieKey.account_address (key : Bytes) : Except TrieKeyBuildError Bytes :=
  if key.length < 32 then .error .InvalidPublicAddress else .ok (key.take 32)

/-- `TrieKey::drop_visibility_type` (src/trie_key.rs lines 104–110) as written
in the source: it drops the leading byte for *both* versions — unlike
`account_key` and `storage_key` it contains no match on the version — and
fails `Other` only on the empty key. -/
def TrieKey.drop_visibility_type (key : Bytes) : Except TrieKeyBuildError Bytes :=
  if key.length < 1 then .error .Other else .ok (key.drop 1)

/-- Following the spec's words (§4.5), for comparison with the source:
`strip_visibility(key)` drops the leading byte under V1 and is the identity
under V2, failing `Other` only for an empty V1 input. -/
def stripVisibilitySpec (ver : Version) (key : Bytes) :
    Except TrieKeyBuildError Bytes :=
  match ver with
  | .V1 => if key.length < 1 then .error .Other else .ok (key.drop 1)
  | .V2 => .ok key

/-- The stripped key as the storage-trie call sites consume it
(storage_trie.rs lines 89, 195, 218 bind the result directly as a byte
vector): the tail of the trie key. -/
def stripVis (key : Bytes) : Bytes := key.drop 1

/- ### Little-endian integer encodings (§6 of the spec) -/

/-- `n.to_le_bytes()` for a `w`-byte integer. -/
def leBytes (w n : Nat) : Bytes := (List.range w).map (fun i => n / 256 ^ i % 256)

/-- `from_le_bytes(value.try_into()?)`: decodes exactly `w` bytes. -/
def leDecode (w : Nat) (v : Bytes) : Option Nat :=
  if v.length = w then some (v.foldr (fun b acc => b + 256 * acc) 0) else none

/-- `u64::from_le_bytes(value.try_into().unwrap())` on an accounts-trie value:
the reachable values under the nonce/balance keys are 8 raw bytes; the default
covers the unreachable panicking branch. -/
def AVal.u64 (v : AVal) : Nat :=
  match v with
  | .raw bs => (leDecode 8 bs).getD 0
  | .root _ => 0

/-- `u32::from_le_bytes` on an accounts-trie value. -/
def AVal.u32 (v : AVal) : Nat :=
  match v with
  | .raw bs => (leDecode 4 bs).getD 0
  | .root _ => 0

/-- The raw bytes of an accounts-trie value (code field). -/
def AVal.rawBytes (v : AVal) : Bytes :=
  match v with
  | .raw bs => bs
  | .root _ => []

/-- The storage-root digest carried by an accounts-trie value
(`hash_value.try_into().unwrap()` in `storage_hash`); reachable values under
the StorageHash key are roots. -/
def AVal.asRoot (v : AVal) : SRoot :=
  match v with
  | .root r => r
  | .raw _ => .empty

/-- The checked `u64` decode used by `destroy`/`all`
(`value.try_into().map_err(.. DecodeError)`). -/
def AVal.u64Checked (v : AVal) : Option Nat :=
  match v with
  | .raw bs => leDecode 8 bs
  | .root _ => none

/-- The checked `u32` decode used by `destroy`/`all`. -/
def AVal.u32Checked (v : AVal) : Option Nat :=
  match v with
  | .raw bs => leDecode 4 bs
  | .root _ => none

/-- A 32-byte digest value as an `SRoot` (the model keeps digests opaque).
`Account::set_storage_hash` stores the value bytes; an empty vector means "no
storage". -/
def AVal.asRootOpt (v : AVal) : Option SRoot :=
  match v with
  | .root r => some r
  | .raw bs => if bs.isEmpty then none else some .empty

/-- A storage root digest as the `Sha256Hash` it denotes. -/
def hashOfSRoot (r : SRoot) : PKey := [PByte.sd r]

/-- A `Sha256Hash` read back as the digest it denotes (reachable storage-hash
values are `sd` digests). -/
def srootOfHash : PKey → SRoot
  | [PByte.sd r] => r
  | _ => .empty

/- ### Accounts trie (src/accounts_trie.rs) -/

/-- `AccountsTrie`: an `Mpt` with the empty keyspace prefix. -/
structure AccountsTrie where
  trie : Mpt
deriving DecidableEq, Repr

/-- `WorldStateChanges` (src/world_state.rs lines 27–31). -/
structure WorldStateChanges where
  inserts : List (PKey × PKey)
  deletes : List PKey
  new_root_hash : PKey
deriving DecidableEq, Repr

/-- The version of the accounts trie's overlay. -/
def AccountsTrie.ver (t : AccountsTrie) : Version := t.trie.storage.ver

/-- `AccountsTrie::new` (src/accounts_trie.rs lines 385–389): empty prefix. -/
def AccountsTrie.init (ver : Version) : AccountsTrie :=
  ⟨Mpt.init aCodec (KIDB.init ver [])⟩

/-- `AccountsTrie::open` (src/accounts_trie.rs lines 392–396). -/
def AccountsTrie.aopen (ver : Version) (state_hash : PKey) : AccountsTrie :=
  ⟨Mpt.mopen (KIDB.init ver []) state_hash⟩

/-- `AccountsTrie::root_hash`. -/
def AccountsTrie.root_hash (t : AccountsTrie) : PKey := t.trie.root_hash

/-- `AccountsTrie::nonce` (lines 116–123): 0 when absent. -/
def AccountsTrie.nonce (t : AccountsTrie) (backend : List (PKey × PKey))
    (address : Bytes) : Except MptError Nat :=
  match Mpt.get aCodec t.trie backend (TrieKey.account_key t.ver address .Nonce) with
  | .error e => .error e
  | .ok (some v) => .ok v.u64
  | .ok none => .ok 0

/-- `AccountsTrie::balance` (lines 152–160): 0 when absent. -/
def AccountsTrie.balance (t : AccountsTrie) (backend : List (PKey × PKey))
    (address : Bytes) : Except MptError Nat :=
  match Mpt.get aCodec t.trie backend (TrieKey.account_key t.ver address .Balance) with
  | .error e => .error e
  | .ok (some v) => .ok v.u64
  | .ok none => .ok 0

/-- `AccountsTrie::code` (lines 189–193): `None` when absent. -/
def AccountsTrie.code (t : AccountsTrie) (backend : List (PKey × PKey))
    (address : Bytes) : Except MptError (Option Bytes) :=
  match Mpt.get aCodec t.trie backend
      (TrieKey.account_key t.ver address .ContractCode) with
  | .error e => .error e
  | .ok v => .ok (v.map AVal.rawBytes)

/-- `AccountsTrie::cbi_version` (lines 218–226): 0 when absent. -/
def AccountsTrie.cbi_version (t : AccountsTrie) (backend : List (PKey × PKey))
    (address : Bytes) : Except MptError Nat :=
  match Mpt.get aCodec t.trie backend
      (TrieKey.account_key t.ver address .CbiVersion) with
  | .error e => .error e
  | .ok (some v) => .ok v.u32
  | .ok none => .ok 0

/-- `AccountsTrie::storage_hash` (lines 258–263): `None` when absent. -/
def AccountsTrie.storage_hash (t : AccountsTrie) (backend : List (PKey × PKey))
    (address : Bytes) : Except MptError (Option PKey) :=
  match Mpt.get aCodec t.trie backend
      (TrieKey.account_key t.ver address .StorageHash) with
  | .error e => .error e
  | .ok v => .ok (v.map (fun h => hashOfSRoot h.asRoot))

/-- `AccountsTrie::contains` (lines 332–340). -/
def AccountsTrie.containsField (t : AccountsTrie) (backend : List (PKey × PKey))
    (address : Bytes) (f : AccountField) : Except MptError Bool :=
  Mpt.containsKey aCodec t.trie backend (TrieKey.account_key t.ver address f)

/-- `AccountsTrie::set_nonce` (lines 343–348). -/
def AccountsTrie.set_nonce (t : AccountsTrie) (backend : List (PKey × PKey))
    (address : Bytes) (nonce : Nat) : Except MptError AccountsTrie :=
  match Mpt.set aCodec t.trie backend (TrieKey.account_key t.ver address .Nonce)
      (.raw (leBytes 8 nonce)) with
  | .error e => .error e
  | .ok m => .ok ⟨m⟩

/-- `AccountsTrie::set_balance` (lines 351–356). -/
def AccountsTrie.set_balance (t : AccountsTrie) (backend : List (PKey × PKey))
    (address : Bytes) (balance : Nat) : Except MptError AccountsTrie :=
  match Mpt.set aCodec t.trie backend (TrieKey.account_key t.ver address .Balance)
      (.raw (leBytes 8 balance)) with
  | .error e => .error e
  | .ok m => .ok ⟨m⟩

/-- `AccountsTrie::set_code` (lines 359–363). -/
def AccountsTrie.set_code (t : AccountsTrie) (backend : List (PKey × PKey))
    (address : Bytes) (code : Bytes) : Except MptError AccountsTrie :=
  match Mpt.set aCodec t.trie backend
      (TrieKey.account_key t.ver address .ContractCode) (.raw code) with
  | .error e => .error e
  | .ok m => .ok ⟨m⟩

/-- `AccountsTrie::set_cbi_version` (lines 366–375). -/
def AccountsTrie.set_cbi_version (t : AccountsTrie) (backend : List (PKey × PKey))
    (address : Bytes) (cbi : Nat) : Except MptError AccountsTrie :=
  match Mpt.set aCodec t.trie backend
      (TrieKey.account_key t.ver address .CbiVersion) (.raw (leBytes 4 cbi)) with
  | .error e => .error e
  | .ok m => .ok ⟨m⟩

/-- `AccountsTrie::set_storage_hash` (lines 404–414): writes the 32 root-hash
bytes under `(address, StorageHash)`. -/
def AccountsTrie.set_storage_hash (t : AccountsTrie) (backend : List (PKey × PKey))
    (address : Bytes) (storage_hash : PKey) : Except MptError AccountsTrie :=
  match Mpt.set aCodec t.trie backend
      (TrieKey.account_key t.ver address .StorageHash)
      (.root (srootOfHash storage_hash)) with
  | .error e => .error e
  | .ok m => .ok ⟨m⟩

/-- `AccountsTrie::close` (lines 417–424). -/
def AccountsTrie.close (t : AccountsTrie) : WorldStateChanges × AccountsTrie :=
  let (chg, m) := t.trie.close
  (⟨chg.inserts, chg.deletes, chg.root_hash⟩, ⟨m⟩)

/- ### Accounts (src/accounts_trie.rs lines 34–80) -/

/-- `Account`: the per-address record assembled by iteration/destroy. -/
structure Account where
  nonce : Nat
  balance : Nat
  code : Bytes
  cbi_version : Nat
  storage_hash : Option SRoot
  storages : SKV
deriving DecidableEq, Repr

/-- `Account::default`. -/
def Account.default : Account := ⟨0, 0, [], 0, none, []⟩

/-- `Account::set_storages` (lines 74–79): ignores an empty map. -/
def Account.set_storages (a : Account) (s : SKV) : Account :=
  if s.isEmpty then a else { a with storages := s }

/-- `DestroyWorldStateChanges` (src/world_state.rs lines 41–45). -/
structure DestroyWorldStateChanges where
  inserts : List (PKey × PKey)
  deletes : List PKey
  accounts : List (Bytes × Account)
deriving DecidableEq, Repr

/-- One iteration step of `AccountsTrie::destroy` (lines 441–486): parse the
address and field from the key, decode the value, update the per-address
`Account`. -/
def destroyStep (ver : Version) (dm : List (Bytes × Account)) (kv : Bytes × AVal) :
    Except WorldStateError (List (Bytes × Account)) :=
  match TrieKey.account_address kv.1 with
  | .error e => .error (.TrieKeyBuildError e)
  | .ok addr =>
    let acc := (aGet dm addr).getD Account.default
    match TrieKey.account_field ver kv.1 with
    | .error e => .error (.TrieKeyBuildError e)
    | .ok f =>
      match f with
      | .Nonce =>
        match kv.2.u64Checked with
        | none => .error (.DecodeOrEncodeError .DecodeError)
        | some n => .ok (aPut dm addr { acc with nonce := n })
      | .Balance =>
        match kv.2.u64Checked with
        | none => .error (.DecodeOrEncodeError .DecodeError)
        | some n => .ok (aPut dm addr { acc with balance := n })
      | .ContractCode => .ok (aPut dm addr { acc with code := kv.2.rawBytes })
      | .CbiVersion =>
        match kv.2.u32Checked with
        | none => .error (.DecodeOrEncodeError .DecodeError)
        | some n => .ok (aPut dm addr { acc with cbi_version := n })
      | .StorageHash => .ok (aPut dm addr { acc with storage_hash := kv.2.asRootOpt })

/-- The iteration loop of `AccountsTrie::destroy`. -/
def foldDestroy (ver : Version) : List (Bytes × AVal) → List (Bytes × Account) →
    Except WorldStateError (List (Bytes × Account))
  | [], dm => .ok dm
  | kv :: rest, dm =>
    match destroyStep ver dm kv with
    | .error e => .error e
    | .ok dm2 => foldDestroy ver rest dm2

/-- `AccountsTrie::destroy` (lines 429–568): collect every account by
iterating the trie, batch-remove all keys, deinit the now-empty trie and
close. -/
def AccountsTrie.destroy (t : AccountsTrie) (backend : List (PKey × PKey)) :
    Except WorldStateError (DestroyWorldStateChanges × AccountsTrie) :=
  match t.trie.readMap aCodec backend with
  | .error e => .error (.MptError e)
  | .ok mp =>
    match foldDestroy t.ver mp [] with
    | .error e => .error e
    | .ok dm =>
      match t.trie.batch_remove aCodec backend (mp.map (·.1)) with
      | .error e => .error (.MptError e)
      | .ok m1 =>
        match m1.deinit aCodec backend with
        | .error e => .error (.MptError e)
        | .ok m2 =>
          let (chg, m3) := m2.close
          .ok (⟨chg.inserts, chg.deletes, dm⟩, ⟨m3⟩)

/- ### Storage trie (src/storage_trie.rs) -/

/-- `StorageTrie`: an `Mpt` whose keyspace prefix is the owner address. -/
structure StorageTrie where
  trie : Mpt
deriving DecidableEq, Repr

/-- The version of this storage trie's overlay. -/
def StorageTrie.ver (t : StorageTrie) : Version := t.trie.storage.ver

/-- `StorageTrie::new` (lines 134–138). -/
def StorageTrie.init (ver : Version) (address : Bytes) : StorageTrie :=
  ⟨Mpt.init sCodec (KIDB.init ver address)⟩

/-- `StorageTrie::open` (lines 141–145). -/
def StorageTrie.sopen (ver : Version) (storage_hash : PKey) (address : Bytes) :
    StorageTrie :=
  ⟨Mpt.mopen (KIDB.init ver address) storage_hash⟩

/-- `StorageTrie::root_hash`. -/
def StorageTrie.root_hash (t : StorageTrie) : PKey := t.trie.root_hash

/-- `StorageTrie::get` (lines 59–63). -/
def StorageTrie.get (t : StorageTrie) (backend : List (PKey × PKey)) (key : Bytes) :
    Except MptError (Option Bytes) :=
  Mpt.get sCodec t.trie backend (TrieKey.storage_key t.ver key)

/-- `StorageTrie::contains` (lines 98–102). -/
def StorageTrie.containsKey (t : StorageTrie) (backend : List (PKey × PKey))
    (key : Bytes) : Except MptError Bool :=
  Mpt.containsKey sCodec t.trie backend (TrieKey.storage_key t.ver key)

/-- `StorageTrie::set` (lines 105–109). -/
def StorageTrie.set (t : StorageTrie) (backend : List (PKey × PKey))
    (key value : Bytes) : Except MptError StorageTrie :=
  match Mpt.set sCodec t.trie backend (TrieKey.storage_key t.ver key) value with
  | .error e => .error e
  | .ok m => .ok ⟨m⟩

/-- `StorageTrie::remove` (lines 112–116). -/
def StorageTrie.removeKey (t : StorageTrie) (backend : List (PKey × PKey))
    (key : Bytes) : Except MptError StorageTrie :=
  match Mpt.removeKey sCodec t.trie backend (TrieKey.storage_key t.ver key) with
  | .error e => .error e
  | .ok m => .ok ⟨m⟩

/-- `StorageTrie::batch_set` (lines 153–161): re-key every pair through
`storage_key` and batch-set. -/
def StorageTrie.batch_set (t : StorageTrie) (backend : List (PKey × PKey))
    (data : SKV) : Except MptError StorageTrie :=
  match Mpt.batch_set sCodec t.trie backend
      (data.map (fun p => (TrieKey.storage_key t.ver p.1, p.2))) with
  | .error e => .error e
  | .ok m => .ok ⟨m⟩

/-- The key-stripping loop of `StorageTrie::all` (lines 85–93), applying
`drop_visibility_type` to every iterated trie key. -/
def stripAll : SKV → Except WorldStateError SKV
  | [] => .ok []
  | (k, v) :: rest =>
    match TrieKey.drop_visibility_type k with
    | .error e => .error (.TrieKeyBuildError e)
    | .ok k2 =>
      match stripAll rest with
      | .error e => .error e
      | .ok rest2 => .ok ((k2, v) :: rest2)

/-- `StorageTrie::all` (lines 85–93). -/
def StorageTrie.all (t : StorageTrie) (backend : List (PKey × PKey)) :
    Except WorldStateError SKV :=
  match t.trie.all sCodec backend with
  | .error e => .error (.MptError e)
  | .ok mp => stripAll mp

/-- `StorageTrie::close` (lines 164–171). -/
def StorageTrie.close (t : StorageTrie) : WorldStateChanges × StorageTrie :=
  let (chg, m) := t.trie.close
  (⟨chg.inserts, chg.deletes, chg.root_hash⟩, ⟨m⟩)

/-- `DestroyStorageChanges` (src/storage_trie.rs lines 44–48). -/
structure DestroyStorageChanges where
  inserts : List (PKey × PKey)
  deletes : List PKey
  data_map : SKV
deriving DecidableEq, Repr

/-- `StorageTrie::destroy` (lines 174–234): an empty trie is just deinit-ed;
otherwise iterate, strip the visibility byte from every key, batch-remove all
raw keys, deinit the emptied trie and close. -/
def StorageTrie.destroy (t : StorageTrie) (backend : List (PKey × PKey)) :
    Except MptError (DestroyStorageChanges × StorageTrie) :=
  if t.trie.root_hash = sHash [PByte.b 0] then
    match t.trie.deinit sCodec backend with
    | .error e => .error e
    | .ok m1 =>
      let (chg, m2) := m1.close
      .ok (⟨chg.inserts, chg.deletes, []⟩, ⟨m2⟩)
  else
    match t.trie.readMap sCodec backend with
    | .error e => .error e
    | .ok mp =>
      let data_map := mp.map (fun p => (stripVis p.1, p.2))
      match t.trie.batch_remove sCodec backend (mp.map (·.1)) with
      | .error e => .error e
      | .ok m1 =>
        match m1.deinit sCodec backend with
        | .error e => .error e
        | .ok m2 =>
          let (chg, m3) := m2.close
          .ok (⟨chg.inserts, chg.deletes, data_map⟩, ⟨m3⟩)

/- ### World state (src/world_state.rs) -/

/-- `WorldState`: the accounts trie plus the working set of storage tries. -/
structure WorldState where
  accounts_trie : AccountsTrie
  storage_trie_map : List (Bytes × StorageTrie)
deriving DecidableEq, Repr

/-- The version of this world state. -/
def WorldState.ver (ws : WorldState) : Version := ws.accounts_trie.ver

/-- `WorldState::new` (lines 71–78). -/
def WorldState.init (ver : Version) : WorldState := ⟨AccountsTrie.init ver, []⟩

/-- `WorldState::open` (lines 83–90). -/
def WorldState.wopen (ver : Version) (state_hash : PKey) : WorldState :=
  ⟨AccountsTrie.aopen ver state_hash, []⟩

/-- `WorldState::storage_trie_mut` (lines 113–140): return the cached trie, or
open it at the recorded storage hash, or create a fresh one — writing the
fresh empty root back into the accounts trie — caching it in every case. -/
def WorldState.storage_trie_mut (ws : WorldState) (backend : List (PKey × PKey))
    (address : Bytes) : Except MptError (StorageTrie × WorldState) :=
  match aGet ws.storage_trie_map address with
  | some st => .ok (st, ws)
  | none =>
    match ws.accounts_trie.storage_hash backend address with
    | .error e => .error e
    | .ok (some h) =>
      let st := StorageTrie.sopen ws.ver h address
      .ok (st, { ws with storage_trie_map := aPut ws.storage_trie_map address st })
    | .ok none =>
      let st := StorageTrie.init ws.ver address
      match ws.accounts_trie.set_storage_hash backend address st.root_hash with
      | .error e => .error e
      | .ok at2 =>
        .ok (st, { accounts_trie := at2
                   storage_trie_map := aPut ws.storage_trie_map address st })

/-- One iteration of the close loop (src/world_state.rs lines 240–249): close
a clone of the cached storage trie, write its new root into the accounts trie
under `(address, StorageRoot)`, and merge its inserts and deletes. -/
def WorldState.closeStep (backend : List (PKey × PKey))
    (acc : List (PKey × PKey) × List PKey × AccountsTrie)
    (entry : Bytes × StorageTrie) :
    Except WorldStateError (List (PKey × PKey) × List PKey × AccountsTrie) :=
  let (chg, _) := entry.2.close
  match acc.2.2.set_storage_hash backend entry.1 chg.new_root_hash with
  | .error e => .error (.MptError e)
  | .ok at2 => .ok (aExtend acc.1 chg.inserts, sUnion acc.2.1 chg.deletes, at2)

/-- The close loop over the cached storage tries. -/
def foldClose (backend : List (PKey × PKey)) :
    List (Bytes × StorageTrie) →
    (List (PKey × PKey) × List PKey × AccountsTrie) →
    Except WorldStateError (List (PKey × PKey) × List PKey × AccountsTrie)
  | [], acc => .ok acc
  | e :: rest, acc =>
    match WorldState.closeStep backend acc e with
    | .error er => .error er
    | .ok acc2 => foldClose backend rest acc2

/-- `WorldState::close` (lines 236–260): seal every cached storage trie first
(feeding each new storage root into the accounts trie), then seal the accounts
trie, merging all inserts and deletes; the new state root is the accounts
trie's root.  The source iterates a clone of `storage_trie_map`, so the cached
tries keep their buffers. -/
def WorldState.close (ws : WorldState) (backend : List (PKey × PKey)) :
    Except WorldStateError (WorldStateChanges × WorldState) :=
  match foldClose backend ws.storage_trie_map ([], [], ws.accounts_trie) with
  | .error e => .error e
  | .ok (ins, dels, at1) =>
    let (achg, at2) := at1.close
    .ok (⟨aExtend ins achg.inserts, sUnion dels achg.deletes, achg.new_root_hash⟩,
         { accounts_trie := at2, storage_trie_map := ws.storage_trie_map })

/-- One iteration of `WorldState::destroy` (lines 185–199): for an account
holding a storage root, open and destroy that storage trie, merge its physical
changes and attach its data to the account. -/
def wsDestroyStep (ver : Version) (backend : List (PKey × PKey))
    (acc : List (PKey × PKey) × List PKey × List (Bytes × Account))
    (entry : Bytes × Account) :
    Except WorldStateError (List (PKey × PKey) × List PKey × List (Bytes × Account)) :=
  match entry.2.storage_hash with
  | none => .ok (acc.1, acc.2.1, acc.2.2 ++ [entry])
  | some r =>
    let st := StorageTrie.sopen ver (hashOfSRoot r) entry.1
    match st.destroy backend with
    | .error e => .error (.MptError e)
    | .ok (sd, _) =>
      .ok (aExtend acc.1 sd.inserts, sUnion acc.2.1 sd.deletes,
           acc.2.2 ++ [(entry.1, entry.2.set_storages sd.data_map)])

/-- The account loop of `WorldState::destroy`. -/
def foldWsDestroy (ver : Version) (backend : List (PKey × PKey)) :
    List (Bytes × Account) →
    (List (PKey × PKey) × List PKey × List (Bytes × Account)) →
    Except WorldStateError (List (PKey × PKey) × List PKey × List (Bytes × Account))
  | [], acc => .ok acc
  | e :: rest, acc =>
    match wsDestroyStep ver backend acc e with
    | .error er => .error er
    | .ok acc2 => foldWsDestroy ver backend rest acc2

/-- `WorldState::destroy` (lines 182–201): destroy the accounts trie, then
every referenced storage trie, merging all physical changes. -/
def WorldState.destroy (ws : WorldState) (backend : List (PKey × PKey)) :
    Except WorldStateError (DestroyWorldStateChanges × WorldState) :=
  match ws.accounts_trie.destroy backend with
  | .error e => .error e
  | .ok (adc, at2) =>
    match foldWsDestroy ws.ver backend adc.accounts (adc.inserts, adc.deletes, []) with
    | .error e => .error e
    | .ok (ins, dels, accounts) =>
      .ok (⟨ins, dels, accounts⟩,
           { accounts_trie := at2, storage_trie_map := ws.storage_trie_map })

/-- One iteration of `WorldState::build` (lines 208–230): write the four
account fields, then batch-set the account's storage entries (when any)
through a freshly obtained storage trie. -/
def buildStep (backend : List (PKey × PKey)) (ws : WorldState)
    (entry : Bytes × Account) : Except WorldStateError WorldState :=
  match ws.accounts_trie.set_nonce backend entry.1 entry.2.nonce with
  | .error e => .error (.MptError e)
  | .ok at1 =>
  match at1.set_balance backend entry.1 entry.2.balance with
  | .error e => .error (.MptError e)
  | .ok at2 =>
  match at2.set_cbi_version backend entry.1 entry.2.cbi_version with
  | .error e => .error (.MptError e)
  | .ok at3 =>
  match at3.set_code backend entry.1 entry.2.code with
  | .error e => .error (.MptError e)
  | .ok at4 =>
  let ws1 : WorldState := { ws with accounts_trie := at4 }
  if entry.2.storages.isEmpty then .ok ws1
  else
    match ws1.storage_trie_mut backend entry.1 with
    | .error e => .error (.MptError e)
    | .ok (st, ws2) =>
      match st.batch_set backend entry.2.storages with
      | .error e => .error (.MptError e)
      | .ok st2 =>
        .ok { ws2 with storage_trie_map := aPut ws2.storage_trie_map entry.1 st2 }

/-- The account loop of `WorldState::build`. -/
def foldBuild (backend : List (PKey × PKey)) :
    WorldState → List (Bytes × Account) → Except WorldStateError WorldState
  | ws, [] => .ok ws
  | ws, e :: rest =>
    match buildStep backend ws e with
    | .error er => .error er
    | .ok ws2 => foldBuild backend ws2 rest

/-- `WorldState::build` (lines 204–233): write every account, then `close`
(which also writes the storage hashes). -/
def WorldState.build (ws : WorldState) (backend : List (PKey × PKey))
    (accounts : List (Bytes × Account)) :
    Except WorldStateError (WorldStateChanges × WorldState) :=
  match foldBuild backend ws accounts with
  | .error e => .error e
  | .ok ws2 => ws2.close backend

/- ### Sessions of world-state operations and read-only observations -/

/-- The mutations a caller can issue on a session. -/
inductive WsOp where
  | setNonce : Bytes → Nat → WsOp
  | setBalance : Bytes → Nat → WsOp
  | setCode : Bytes → Bytes → WsOp
  | setCbi : Bytes → Nat → WsOp
  | stSet : Bytes → Bytes → Bytes → WsOp
  | stRemove : Bytes → Bytes → WsOp

/-- Apply one mutation; storage mutations go through `storage_trie_mut` (lazy
creation with the empty-root write-back) with the updated trie re-cached. -/
def WorldState.applyWsOp (backend : List (PKey × PKey)) (ws : WorldState) :
    WsOp → Except WorldStateError WorldState
  | .setNonce a n =>
    match ws.accounts_trie.set_nonce backend a n with
    | .error e => .error (.MptError e)
    | .ok t => .ok { ws with accounts_trie := t }
  | .setBalance a n =>
    match ws.accounts_trie.set_balance backend a n with
    | .error e => .error (.MptError e)
    | .ok t => .ok { ws with accounts_trie := t }
  | .setCode a cbytes =>
    match ws.accounts_trie.set_code backend a cbytes with
    | .error e => .error (.MptError e)
    | .ok t => .ok { ws with accounts_trie := t }
  | .setCbi a n =>
    match ws.accounts_trie.set_cbi_version backend a n with
    | .error e => .error (.MptError e)
    | .ok t => .ok { ws with accounts_trie := t }
  | .stSet a k v =>
    match ws.storage_trie_mut backend a with
    | .error e => .error (.MptError e)
    | .ok (st, ws1) =>
      match st.set backend k v with
      | .error e => .error (.MptError e)
      | .ok st2 =>
        .ok { ws1 with storage_trie_map := aPut ws1.storage_trie_map a st2 }
  | .stRemove a k =>
    match ws.storage_trie_mut backend a with
    | .error e => .error (.MptError e)
    | .ok (st, ws1) =>
      match st.removeKey backend k with
      | .error e => .error (.MptError e)
      | .ok st2 =>
        .ok { ws1 with storage_trie_map := aPut ws1.storage_trie_map a st2 }

/-- Run a session. -/
def WorldState.runWs (backend : List (PKey × PKey)) :
    WorldState → List WsOp → Except WorldStateError WorldState
  | ws, [] => .ok ws
  | ws, op :: rest =>
    match ws.applyWsOp backend op with
    | .error e => .error e
    | .ok ws2 => WorldState.runWs backend ws2 rest

/-- The read `storage_trie(a).get(k)` performs, without persisting the lazy
write-back (its value is identical): the cached trie when present, otherwise
the trie opened at the recorded storage hash, otherwise a fresh empty trie. -/
def WorldState.readStorage (ws : WorldState) (backend : List (PKey × PKey))
    (a k : Bytes) : Except MptError (Option Bytes) :=
  match aGet ws.storage_trie_map a with
  | some st => st.get backend k
  | none =>
    match ws.accounts_trie.storage_hash backend a with
    | .error e => .error e
    | .ok (some h) => (StorageTrie.sopen ws.ver h a).get backend k
    | .ok none => (StorageTrie.init ws.ver a).get backend k

/-- Applying a close-batch to the backend, inserts first (overwriting), then
deletes (spec §6, and `apply_changes` in the crate's tests). -/
def applyChanges (backend : List (PKey × PKey)) (chg : WorldStateChanges) :
    List (PKey × PKey) :=
  chg.deletes.foldl aDel (aExtend backend chg.inserts)

/- ### Claim C8: drop_visibility_type is not version-aware -/

/-- C8.  Evaluation at the failing input: under V2 `storage_key` stores the
caller key `[7, 8]` unchanged, yet `drop_visibility_type` — which contains no
version match — strips the first byte, so V2 storage-trie iteration (`all`)
returns `[8]` where the claim (and the spec) require the caller key unchanged;
a V2 `all` over a trie holding `[7, 8] ↦ [9]` returns `[([8], [9])]`.  The V1
half of the claim (drop the leading visibility byte, `Other` on empty input)
does hold. -/
theorem c8_drop_visibility_not_version_aware :
    (TrieKey.storage_key .V2 [7, 8] = [7, 8]) ∧
    (TrieKey.drop_visibility_type [7, 8] = .ok [8]) ∧
    (stripVisibilitySpec .V2 [7, 8] = .ok [7, 8]) ∧
    (StorageTrie.all
      ⟨Mpt.mopen (KIDB.init .V2 (List.replicate 32 3)) (sHash (sEncode [([7, 8], [9])]))⟩
      [((KIDB.init .V2 (List.replicate 32 3)).build_key (sHash (sEncode [([7, 8], [9])])),
        sEncode [([7, 8], [9])])]
      = .ok [([8], [9])]) ∧
    (TrieKey.drop_visibility_type (TrieKey.storage_key .V1 [7, 8]) = .ok [7, 8]) ∧
    (TrieKey.drop_visibility_type [] = .error .Other) := by
  refine ⟨rfl, rfl, rfl, ?_, rfl, rfl⟩
  rfl

/- ### Codec properties and keyspace disjointness -/

/-- The contract both node codecs satisfy. -/
structure CodecOk {V : Type} (c : Codec V) : Prop where
  dec_enc : ∀ mp, c.dec (c.enc mp) = some mp
  hash_len : ∀ body, (c.hash body).length = 1
  hash_enc_inj : ∀ mp mp2, c.hash (c.enc mp) = c.hash (c.enc mp2) → mp = mp2
  enc_null : c.enc [] = [PByte.b 0]

theorem sCodecOk : CodecOk sCodec := by
  refine ⟨?_, ?_, ?_, rfl⟩
  · intro mp
    cases mp with
    | nil => rfl
    | cons e rest => simp [sCodec, sEncode, sDecode]
  · intro body
    unfold sCodec sHash
    rcases body with _ | ⟨s, rest⟩
    · rfl
    · cases s <;> cases rest <;> simp <;> split <;> rfl
  · intro mp mp2 h
    cases mp <;> cases mp2 <;> simp [sCodec, sEncode, sHash] at h ⊢
    exact h

theorem aCodecOk : CodecOk aCodec := by
  refine ⟨?_, ?_, ?_, rfl⟩
  · intro mp
    cases mp with
    | nil => rfl
    | cons e rest => simp [aCodec, aEncode, aDecode]
  · intro body
    unfold aCodec aHash
    rcases body with _ | ⟨s, rest⟩
    · rfl
    · cases s <;> cases rest <;> simp <;> split <;> rfl
  · intro mp mp2 h
    cases mp <;> cases mp2 <;> simp [aCodec, aEncode, aHash] at h ⊢
    exact h

/-- The physical key a trie with version `ver` and keyspace prefix `dom`
assigns to the node key `d`. -/
def physKey (ver : Version) (dom : Bytes) (d : PKey) : PKey :=
  (KIDB.init ver dom).build_key d

theorem build_key_eq_physKey (db : KIDB) (d : PKey) :
    db.build_key d = physKey db.ver db.domain d := rfl

theorem physKey_length (ver : Version) (dom : Bytes) (d : PKey) :
    (physKey ver dom d).length =
      match ver with
      | .V1 => if dom = [] then d.length else dom.length + d.length
      | .V2 => if dom = [] then d.length + 1 else dom.length + d.length + 1 := by
  unfold physKey KIDB.build_key KIDB.init
  cases ver <;> by_cases hd : dom = [] <;>
    simp [hd, List.isEmpty_iff, liftB, Nat.add_comm, Nat.add_assoc, Nat.add_left_comm]

theorem liftB_length (dom : Bytes) : (liftB dom).length = dom.length := by
  simp [liftB]

theorem physKey_v1_empty (d : PKey) : physKey .V1 [] d = d := by
  unfold physKey KIDB.build_key KIDB.init
  simp

theorem physKey_v1_dom (dom : Bytes) (d : PKey) (h : dom ≠ []) :
    physKey .V1 dom d = liftB dom ++ d := by
  unfold physKey KIDB.build_key KIDB.init
  simp [List.isEmpty_iff, h]

theorem physKey_v2_empty (d : PKey) : physKey .V2 [] d = PByte.b 0 :: d := by
  unfold physKey KIDB.build_key KIDB.init
  simp

theorem physKey_v2_dom (dom : Bytes) (d : PKey) (h : dom ≠ []) :
    physKey .V2 dom d = PByte.b 1 :: (liftB dom ++ d) := by
  unfold physKey KIDB.build_key KIDB.init
  simp [List.isEmpty_iff, h]

/-- Distinct tries — different version or different (empty-or-32-byte) domain —
have disjoint physical node-key spaces, and within one trie the physical key
determines the node key. -/
theorem physKey_disjoint (v1 v2 : Version) (dom1 dom2 : Bytes) (d1 d2 : PKey)
    (h1 : dom1 = [] ∨ dom1.length = 32) (h2 : dom2 = [] ∨ dom2.length = 32)
    (hd1 : d1.length = 1) (hd2 : d2.length = 1)
    (heq : physKey v1 dom1 d1 = physKey v2 dom2 d2) :
    v1 = v2 ∧ dom1 = dom2 ∧ d1 = d2 := by
  have hlen := congrArg List.length heq
  rw [physKey_length, physKey_length] at hlen
  rcases h1 with h1 | h1 <;> rcases h2 with h2 | h2
  · subst h1
    subst h2
    cases v1 <;> cases v2
    · rw [physKey_v1_empty, physKey_v1_empty] at heq
      exact ⟨rfl, rfl, heq⟩
    · rw [physKey_v1_empty, physKey_v2_empty] at heq
      have hl := congrArg List.length heq
      rw [hd1] at hl
      simp [hd2] at hl
    · rw [physKey_v2_empty, physKey_v1_empty] at heq
      have hl := congrArg List.length heq
      rw [congrArg List.length rfl] at hl
      simp [hd1, hd2] at hl
    · rw [physKey_v2_empty, physKey_v2_empty] at heq
      simp only [List.cons.injEq] at heq
      exact ⟨rfl, rfl, heq.2⟩
  · subst h1
    have hne2 : dom2 ≠ [] := by
      intro h
      rw [h] at h2
      simp at h2
    cases v1 <;> cases v2 <;> simp [hne2, hd1, hd2, h2] at hlen
  · subst h2
    have hne1 : dom1 ≠ [] := by
      intro h
      rw [h] at h1
      simp at h1
    cases v1 <;> cases v2 <;> simp [hne1, hd1, hd2, h1] at hlen
  · have hne1 : dom1 ≠ [] := by
      intro h
      rw [h] at h1
      simp at h1
    have hne2 : dom2 ≠ [] := by
      intro h
      rw [h] at h2
      simp at h2
    cases v1 <;> cases v2
    · rw [physKey_v1_dom dom1 d1 hne1, physKey_v1_dom dom2 d2 hne2] at heq
      have := List.append_inj heq (by rw [liftB_length, liftB_length, h1, h2])
      exact ⟨rfl, liftB_inj dom1 dom2 this.1, this.2⟩
    · simp [hne1, hne2, hd1, hd2, h1, h2] at hlen
    · simp [hne1, hne2, hd1, hd2, h1, h2] at hlen
    · rw [physKey_v2_dom dom1 d1 hne1, physKey_v2_dom dom2 d2 hne2] at heq
      simp only [List.cons.injEq] at heq
      have := List.append_inj heq.2 (by rw [liftB_length, liftB_length, h1, h2])
      exact ⟨rfl, liftB_inj dom1 dom2 this.1, this.2⟩

/- ### More association-list lemmas -/

theorem aGet_mem_keys {κ α : Type} [DecidableEq κ] (m : List (κ × α)) (pk : κ) (v : α)
    (h : aGet m pk = some v) : pk ∈ m.map Prod.fst := by
  induction m with
  | nil => simp [aGet] at h
  | cons p rest ih =>
    by_cases hp : p.1 = pk
    · simp [hp]
    · simp only [aGet, hp, if_false] at h
      simp [ih h]

theorem aPut_nodup {κ α : Type} [DecidableEq κ] (m : List (κ × α)) (k : κ) (v : α)
    (h : (m.map Prod.fst).Nodup) : ((aPut m k v).map Prod.fst).Nodup := by
  unfold aPut
  refine List.Nodup.cons ?_ ?_
  · intro hmem
    rcases List.mem_map.mp hmem with ⟨p, hp, hpk⟩
    have := (List.mem_filter.mp hp).2
    simp [hpk] at this
  · exact List.Nodup.sublist (List.Sublist.map Prod.fst (List.filter_sublist m)) h

theorem aDel_nodup {κ α : Type} [DecidableEq κ] (m : List (κ × α)) (k : κ)
    (h : (m.map Prod.fst).Nodup) : ((aDel m k).map Prod.fst).Nodup :=
  List.Nodup.sublist (List.Sublist.map Prod.fst (List.filter_sublist m)) h

theorem aExtend_nodup {κ α : Type} [DecidableEq κ] (m m' : List (κ × α))
    (h : (m.map Prod.fst).Nodup) : ((aExtend m m').map Prod.fst).Nodup := by
  induction m' generalizing m with
  | nil => exact h
  | cons p rest ih =>
    show ((aExtend (aPut m p.1 p.2) rest).map Prod.fst).Nodup
    exact ih _ (aPut_nodup m p.1 p.2 h)

theorem aGet_aExtend {κ α : Type} [DecidableEq κ] (m m' : List (κ × α)) (pk : κ)
    (hnd : (m'.map Prod.fst).Nodup) :
    aGet (aExtend m m') pk =
      match aGet m' pk with
      | some v => some v
      | none => aGet m pk := by
  induction m' generalizing m with
  | nil => simp [aExtend, aGet]
  | cons p rest ih =>
    have hnotin : p.1 ∉ rest.map Prod.fst := (List.nodup_cons.mp hnd).1
    have hndr : (rest.map Prod.fst).Nodup := (List.nodup_cons.mp hnd).2
    show aGet (aExtend (aPut m p.1 p.2) rest) pk = _
    rw [ih (aPut m p.1 p.2) hndr]
    cases hr : aGet rest pk with
    | some w =>
      have hmem := aGet_mem_keys rest pk w hr
      have hne : ¬ p.1 = pk := by
        intro he
        exact hnotin (he ▸ hmem)
      simp [aGet, hne, hr]
    | none =>
      rw [aGet_aPut]
      by_cases hp : p.1 = pk
      · simp [aGet, hp, hr]
      · simp [aGet, hp, hr]

theorem aGet_foldl_aDel {κ α : Type} [DecidableEq κ] (dels : List κ)
    (m : List (κ × α)) (pk : κ) :
    aGet (dels.foldl aDel m) pk = if sMem dels pk then none else aGet m pk := by
  induction dels generalizing m with
  | nil => simp [sMem]
  | cons k ks ih =>
    show aGet (ks.foldl aDel (aDel m k)) pk = _
    rw [ih (aDel m k)]
    by_cases hk : k = pk
    · subst hk
      simp [sMem, aGet_aDel]
    · simp only [sMem, hk, if_false, Bool.false_eq_true]
      rw [aGet_aDel]
      simp [hk]

theorem sMem_sUnion {κ : Type} [DecidableEq κ] (s t : List κ) (k : κ) :
    sMem (sUnion s t) k = (sMem s k || sMem t k) := by
  induction t generalizing s with
  | nil => simp [sUnion, sMem]
  | cons x xs ih =>
    show sMem (sUnion (sAdd s x) xs) k = _
    rw [ih (sAdd s x), sMem_sAdd]
    by_cases hx : x = k <;> simp [sMem, hx] <;> cases sMem s k <;> simp

theorem aDel_of_not_mem {κ α : Type} [DecidableEq κ] (m : List (κ × α)) (k : κ)
    (h : aGet m k = none) (hnd : (m.map Prod.fst).Nodup) : aDel m k = m := by
  induction m with
  | nil => rfl
  | cons p rest ih =>
    by_cases hp : p.1 = k
    · simp [aGet, hp] at h
    · simp only [aGet, hp, if_false] at h
      have hrest := ih h (List.nodup_cons.mp hnd).2
      show List.filter (fun q => decide (¬ q.1 = k)) (p :: rest) = p :: rest
      rw [List.filter_cons]
      have hpdec : (decide (¬ p.1 = k)) = true := by simp [hp]
      rw [hpdec]
      simp only [if_true]
      exact congrArg (List.cons p) hrest

/- ### The trie representation invariant -/

/-- `MptRepr c m backend mp`: the trie `m` faithfully represents the logical
content `mp` — the node holding `mp` resolves at the current root through the
overlay, the root is that node's digest, the overlay's caches are disjoint,
every overlay key is a prefixed digest of this trie's keyspace, and key lists
are duplicate-free. -/
structure MptRepr {V : Type} (c : Codec V) (m : Mpt) (backend : List (PKey × PKey))
    (mp : List (Bytes × V)) : Prop where
  read : m.storage.get backend m.root_hash = some (c.enc mp)
  root : m.root_hash = c.hash (c.enc mp)
  disj : ∀ pk, sMem m.storage.deletes pk = true → aGet m.storage.inserts pk = none
  insKeys : ∀ pk v, aGet m.storage.inserts pk = some v →
    ∃ d, d.length = 1 ∧ pk = physKey m.storage.ver m.storage.domain d
  delKeys : ∀ pk, sMem m.storage.deletes pk = true →
    ∃ d, d.length = 1 ∧ pk = physKey m.storage.ver m.storage.domain d
  insNoDup : (m.storage.inserts.map Prod.fst).Nodup
  mpNoDup : (mp.map Prod.fst).Nodup

theorem KIDB.build_key_fields (db : KIDB) (ins : List (PKey × PKey))
    (dels : List PKey) (p : PKey) :
    (KIDB.mk db.ver ins dels db.domain).build_key p = db.build_key p := rfl

theorem KIDB.get_put_same (db : KIDB) (backend : List (PKey × PKey)) (k v : PKey) :
    (db.put k v).get backend k = some v := by
  unfold KIDB.get
  simp [KIDB.put, KIDB.build_key_fields, aGet_aPut]

theorem MptRepr.readMap_eq {V : Type} {c : Codec V} (hc : CodecOk c) {m : Mpt}
    {backend : List (PKey × PKey)} {mp : List (Bytes × V)}
    (h : MptRepr c m backend mp) : m.readMap c backend = .ok mp := by
  unfold Mpt.readMap Mpt.hashdbGet
  rw [h.read]
  simp [hc.dec_enc]

theorem MptRepr.get_eq {V : Type} {c : Codec V} (hc : CodecOk c) {m : Mpt}
    {backend : List (PKey × PKey)} {mp : List (Bytes × V)}
    (h : MptRepr c m backend mp) (k : Bytes) :
    Mpt.get c m backend k = .ok (aGet mp k) := by
  unfold Mpt.get
  rw [h.readMap_eq hc]
  rfl

/-- Rerooting a represented trie onto any duplicate-free content keeps the
representation invariant. -/
theorem MptRepr.reroot {V : Type} {c : Codec V} (hc : CodecOk c) {m : Mpt}
    {backend : List (PKey × PKey)} {mp : List (Bytes × V)}
    (h : MptRepr c m backend mp) (mp2 : List (Bytes × V))
    (hnd2 : (mp2.map Prod.fst).Nodup) :
    MptRepr c (m.reroot c mp2) backend mp2 := by
  have hrootlen : m.root_hash.length = 1 := by rw [h.root]; exact hc.hash_len _
  have hnewlen : (c.hash (c.enc mp2)).length = 1 := hc.hash_len _
  unfold Mpt.reroot Mpt.hashdbRemove Mpt.hashdbInsert
  by_cases hr : m.root_hash = c.hash [PByte.b 0]
  · rw [if_pos hr]
    constructor
    · exact KIDB.get_put_same m.storage backend _ _
    · rfl
    · intro pk hpk
      have hpk' : sMem (sDel m.storage.deletes
          (m.storage.build_key (c.hash (c.enc mp2)))) pk = true := hpk
      rw [sMem_sDel, Bool.and_eq_true] at hpk'
      obtain ⟨hne, hold⟩ := hpk'
      show aGet (aPut m.storage.inserts (m.storage.build_key (c.hash (c.enc mp2))) _) pk
        = none
      rw [aGet_aPut]
      simp only [Bool.not_eq_eq_eq_not, Bool.not_true, decide_eq_false_iff_not] at hne
      rw [if_neg hne]
      exact h.disj pk hold
    · intro pk v hpk
      have hpk' : aGet (aPut m.storage.inserts
          (m.storage.build_key (c.hash (c.enc mp2))) (c.enc mp2)) pk = some v := hpk
      rw [aGet_aPut] at hpk'
      by_cases he : m.storage.build_key (c.hash (c.enc mp2)) = pk
      · exact ⟨c.hash (c.enc mp2), hnewlen, he.symm⟩
      · rw [if_neg he] at hpk'
        exact h.insKeys pk v hpk'
    · intro pk hpk
      have hpk' : sMem (sDel m.storage.deletes
          (m.storage.build_key (c.hash (c.enc mp2)))) pk = true := hpk
      rw [sMem_sDel, Bool.and_eq_true] at hpk'
      exact h.delKeys pk hpk'.2
    · exact aPut_nodup _ _ _ h.insNoDup
    · exact hnd2
  · rw [if_neg hr]
    constructor
    · exact KIDB.get_put_same _ backend _ _
    · rfl
    · intro pk hpk
      have hpk' : sMem (sDel (sAdd m.storage.deletes (m.storage.build_key m.root_hash))
          ((m.storage.delete m.root_hash).build_key (c.hash (c.enc mp2)))) pk
          = true := hpk
      rw [KIDB.build_key_delete, sMem_sDel, sMem_sAdd, Bool.and_eq_true] at hpk'
      obtain ⟨hne, hor⟩ := hpk'
      simp only [Bool.not_eq_eq_eq_not, Bool.not_true, decide_eq_false_iff_not] at hne
      show aGet (aPut (aDel m.storage.inserts (m.storage.build_key m.root_hash))
        ((m.storage.delete m.root_hash).build_key (c.hash (c.enc mp2)))
        (c.enc mp2)) pk = none
      rw [KIDB.build_key_delete, aGet_aPut, if_neg hne, aGet_aDel]
      rw [Bool.or_eq_true] at hor
      rcases hor with hroot | hold
      · rw [if_pos (of_decide_eq_true hroot)]
      · by_cases hx : m.storage.build_key m.root_hash = pk
        · rw [if_pos hx]
        · rw [if_neg hx]
          exact h.disj pk hold
    · intro pk v hpk
      have hpk' : aGet (aPut (aDel m.storage.inserts (m.storage.build_key m.root_hash))
          ((m.storage.delete m.root_hash).build_key (c.hash (c.enc mp2)))
          (c.enc mp2)) pk = some v := hpk
      rw [KIDB.build_key_delete, aGet_aPut] at hpk'
      by_cases he : m.storage.build_key (c.hash (c.enc mp2)) = pk
      · exact ⟨c.hash (c.enc mp2), hnewlen, he.symm⟩
      · rw [if_neg he, aGet_aDel] at hpk'
        by_cases hx : m.storage.build_key m.root_hash = pk
        · rw [if_pos hx] at hpk'
          exact absurd hpk' (by simp)
        · rw [if_neg hx] at hpk'
          exact h.insKeys pk v hpk'
    · intro pk hpk
      have hpk' : sMem (sDel (sAdd m.storage.deletes (m.storage.build_key m.root_hash))
          ((m.storage.delete m.root_hash).build_key (c.hash (c.enc mp2)))) pk
          = true := hpk
      rw [KIDB.build_key_delete, sMem_sDel, sMem_sAdd, Bool.and_eq_true,
        Bool.or_eq_true] at hpk'
      rcases hpk'.2 with hroot | hold
      · exact ⟨m.root_hash, hrootlen, (of_decide_eq_true hroot).symm⟩
      · exact h.delKeys pk hold
    · exact aPut_nodup _ _ _ (aDel_nodup _ _ h.insNoDup)
    · exact hnd2

theorem foldl_aPut_nodup {κ α : Type} [DecidableEq κ] (d : List (κ × α))
    (m : List (κ × α)) (h : (m.map Prod.fst).Nodup) :
    (((d.foldl (fun acc p => aPut acc p.1 p.2) m)).map Prod.fst).Nodup := by
  induction d generalizing m with
  | nil => exact h
  | cons p rest ih => exact ih _ (aPut_nodup m p.1 p.2 h)

theorem foldl_aDel_nodup {κ α : Type} [DecidableEq κ] (ks : List κ)
    (m : List (κ × α)) (h : (m.map Prod.fst).Nodup) :
    ((ks.foldl aDel m).map Prod.fst).Nodup := by
  induction ks generalizing m with
  | nil => exact h
  | cons k rest ih => exact ih _ (aDel_nodup m k h)

theorem reroot_fields {V : Type} (c : Codec V) (m : Mpt) (mp : List (Bytes × V)) :
    (m.reroot c mp).storage.ver = m.storage.ver ∧
    (m.reroot c mp).storage.domain = m.storage.domain := by
  unfold Mpt.reroot Mpt.hashdbRemove Mpt.hashdbInsert
  by_cases hr : m.root_hash = c.hash [PByte.b 0] <;> simp [hr] <;> exact ⟨rfl, rfl⟩

/-- `Mpt::set` on a represented trie: succeeds and reroots onto the updated
content. -/
theorem mpt_set_spec {V : Type} {c : Codec V} (hc : CodecOk c) {m : Mpt}
    {backend : List (PKey × PKey)} {mp : List (Bytes × V)}
    (h : MptRepr c m backend mp) (k : Bytes) (v : V) :
    m.set c backend k v = .ok (m.reroot c (aPut mp k v)) ∧
    MptRepr c (m.reroot c (aPut mp k v)) backend (aPut mp k v) := by
  constructor
  · unfold Mpt.set
    rw [h.readMap_eq hc]
  · exact h.reroot hc _ (aPut_nodup _ _ _ h.mpNoDup)

/-- `Mpt::remove` on a represented trie: succeeds; the content loses the key. -/
theorem mpt_remove_spec {V : Type} {c : Codec V} (hc : CodecOk c) {m : Mpt}
    {backend : List (PKey × PKey)} {mp : List (Bytes × V)}
    (h : MptRepr c m backend mp) (k : Bytes) :
    ∃ m2, m.removeKey c backend k = .ok m2 ∧ MptRepr c m2 backend (aDel mp k) ∧
      m2.storage.ver = m.storage.ver ∧ m2.storage.domain = m.storage.domain := by
  unfold Mpt.removeKey
  rw [h.readMap_eq hc]
  by_cases hk : (aGet mp k).isSome
  · refine ⟨m.reroot c (aDel mp k), by simp [hk], h.reroot hc _ (aDel_nodup _ _ h.mpNoDup), ?_, ?_⟩
    · exact (reroot_fields c m _).1
    · exact (reroot_fields c m _).2
  · have hnone : aGet mp k = none := by
      cases hh : aGet mp k
      · rfl
      · rw [hh] at hk
        simp at hk
    rw [aDel_of_not_mem mp k hnone h.mpNoDup]
    exact ⟨m, by simp [hk], h, rfl, rfl⟩

/-- `Mpt::batch_set` on a represented trie. -/
theorem mpt_batch_set_spec {V : Type} {c : Codec V} (hc : CodecOk c) {m : Mpt}
    {backend : List (PKey × PKey)} {mp : List (Bytes × V)}
    (h : MptRepr c m backend mp) (d : List (Bytes × V)) :
    ∃ m2, m.batch_set c backend d = .ok m2 ∧
      MptRepr c m2 backend (d.foldl (fun acc p => aPut acc p.1 p.2) mp) ∧
      m2.storage.ver = m.storage.ver ∧ m2.storage.domain = m.storage.domain := by
  unfold Mpt.batch_set
  by_cases hd : d.isEmpty
  · have : d = [] := by
      cases d
      · rfl
      · simp at hd
    subst this
    exact ⟨m, by simp, h, rfl, rfl⟩
  · rw [if_neg hd, h.readMap_eq hc]
    exact ⟨m.reroot c _, rfl,
      h.reroot hc _ (foldl_aPut_nodup d mp h.mpNoDup),
      (reroot_fields c m _).1, (reroot_fields c m _).2⟩

/-- `Mpt::batch_remove` on a represented trie: always succeeds; the content
loses every key of the set. -/
theorem mpt_batch_remove_spec {V : Type} {c : Codec V} (hc : CodecOk c) {m : Mpt}
    {backend : List (PKey × PKey)} {mp : List (Bytes × V)}
    (h : MptRepr c m backend mp) (ks : List Bytes) :
    ∃ m2, m.batch_remove c backend ks = .ok m2 ∧
      MptRepr c m2 backend (ks.foldl aDel mp) ∧
      m2.storage.ver = m.storage.ver ∧ m2.storage.domain = m.storage.domain := by
  unfold Mpt.batch_remove
  induction ks generalizing m mp with
  | nil => exact ⟨m, rfl, h, rfl, rfl⟩
  | cons k rest ih =>
    simp only [List.foldl_cons]
    rw [h.readMap_eq hc]
    by_cases hk : (aGet mp k).isSome
    · simp only [hk, if_true]
      have hstep := h.reroot hc (aDel mp k) (aDel_nodup _ _ h.mpNoDup)
      rcases ih hstep with ⟨m2, hrun, hrepr, hv, hd⟩
      refine ⟨m2, hrun, hrepr, ?_, ?_⟩
      · rw [hv]
        exact (reroot_fields c m _).1
      · rw [hd]
        exact (reroot_fields c m _).2
    · have hnone : aGet mp k = none := by
        cases hh : aGet mp k
        · rfl
        · rw [hh] at hk
          simp at hk
      simp only [hk, Bool.false_eq_true, if_false]
      rw [aDel_of_not_mem mp k hnone h.mpNoDup]
      exact ih h

/-- A fresh trie (`Mpt::new`) represents the empty content over any backend. -/
theorem mptRepr_init {V : Type} (c : Codec V) (hc : CodecOk c) (ver : Version)
    (dom : Bytes) (backend : List (PKey × PKey)) :
    MptRepr c (Mpt.init c (KIDB.init ver dom)) backend [] := by
  constructor
  · show ((KIDB.init ver dom).put (c.hash [PByte.b 0]) [PByte.b 0]).get backend
      (c.hash (c.enc [])) = some (c.enc [])
    rw [hc.enc_null]
    exact KIDB.get_put_same _ backend _ _
  · rfl
  · intro pk hpk
    have h2 : sMem (sDel ([] : List PKey)
        ((KIDB.init ver dom).build_key (c.hash [PByte.b 0]))) pk = true := hpk
    rw [sMem_sDel] at h2
    simp [sMem] at h2
  · intro pk v hpk
    have h2 : aGet (aPut ([] : List (PKey × PKey))
        ((KIDB.init ver dom).build_key (c.hash [PByte.b 0])) [PByte.b 0]) pk
        = some v := hpk
    rw [aGet_aPut] at h2
    by_cases he : (KIDB.init ver dom).build_key (c.hash [PByte.b 0]) = pk
    · exact ⟨c.hash [PByte.b 0], hc.hash_len _, he.symm⟩
    · rw [if_neg he] at h2
      simp [aGet] at h2
  · intro pk hpk
    have h2 : sMem (sDel ([] : List PKey)
        ((KIDB.init ver dom).build_key (c.hash [PByte.b 0]))) pk = true := hpk
    rw [sMem_sDel] at h2
    simp [sMem] at h2
  · exact aPut_nodup [] _ _ (by simp)
  · simp

theorem KIDB.get_eq_cases (db : KIDB) (backend : List (PKey × PKey)) (k : PKey) :
    db.get backend k =
      match aGet db.inserts (db.build_key k) with
      | some v => some v
      | none =>
        if sMem db.deletes (db.build_key k) then none
        else aGet backend (db.build_key k) := by
  unfold KIDB.get
  cases hi : aGet db.inserts (db.build_key k) with
  | some v => simp [hi]
  | none =>
    simp only [hi]
    by_cases hd : sMem db.deletes (db.build_key k)
    · simp [hd]
    · simp only [hd, Bool.false_eq_true, if_false]
      cases hb : aGet backend (db.build_key k) <;> simp [hb]

/-- A reopened trie (`Mpt::open` with a fresh overlay) represents `mp` over a
backend holding the node. -/
theorem mptRepr_reopen {V : Type} (c : Codec V) (hc : CodecOk c) (ver : Version)
    (dom : Bytes) (backend2 : List (PKey × PKey)) (mp : List (Bytes × V))
    (hnd : (mp.map Prod.fst).Nodup)
    (hb : aGet backend2 (physKey ver dom (c.hash (c.enc mp))) = some (c.enc mp)) :
    MptRepr c (Mpt.mopen (KIDB.init ver dom) (c.hash (c.enc mp))) backend2 mp := by
  constructor
  · show (KIDB.init ver dom).get backend2 (c.hash (c.enc mp)) = some (c.enc mp)
    rw [KIDB.get_eq_cases]
    have h1 : (KIDB.init ver dom).inserts = [] := rfl
    have h2 : (KIDB.init ver dom).deletes = [] := rfl
    rw [h1, h2]
    simp only [aGet, sMem, Bool.false_eq_true, if_false]
    exact hb
  · rfl
  · intro pk hpk
    have h2 : sMem ([] : List PKey) pk = true := hpk
    simp [sMem] at h2
  · intro pk v hpk
    have h2 : aGet ([] : List (PKey × PKey)) pk = some v := hpk
    simp [aGet] at h2
  · intro pk hpk
    have h2 : sMem ([] : List PKey) pk = true := hpk
    simp [sMem] at h2
  · exact List.nodup_nil
  · exact hnd

/-- The live root node of a represented trie is never in its own delete set. -/
theorem MptRepr.live_not_deleted {V : Type} {c : Codec V} {m : Mpt}
    {backend : List (PKey × PKey)} {mp : List (Bytes × V)}
    (h : MptRepr c m backend mp) :
    sMem m.storage.deletes (m.storage.build_key m.root_hash) = false := by
  cases hx : sMem m.storage.deletes (m.storage.build_key m.root_hash) with
  | false => rfl
  | true =>
    have hins := h.disj _ hx
    have hread := h.read
    rw [KIDB.get_eq_cases, hins, hx] at hread
    simp at hread

/-- After applying a merged close-batch that agrees with this trie's own
changes on its keyspace, the backend holds the trie's node at its live key. -/
theorem live_after_apply {V : Type} {c : Codec V} (hc : CodecOk c) {m : Mpt}
    {backend : List (PKey × PKey)} {mp : List (Bytes × V)}
    (h : MptRepr c m backend mp) (chg : WorldStateChanges)
    (hnd : (chg.inserts.map Prod.fst).Nodup)
    (hins : ∀ pk, (∃ d, d.length = 1 ∧ pk = physKey m.storage.ver m.storage.domain d) →
      aGet chg.inserts pk = aGet m.storage.inserts pk)
    (hdel : ∀ pk, (∃ d, d.length = 1 ∧ pk = physKey m.storage.ver m.storage.domain d) →
      sMem chg.deletes pk = sMem m.storage.deletes pk) :
    aGet (applyChanges backend chg) (m.storage.build_key m.root_hash)
      = some (c.enc mp) := by
  have hrootlen : m.root_hash.length = 1 := by rw [h.root]; exact hc.hash_len _
  have hspace : ∃ d, d.length = 1 ∧
      m.storage.build_key m.root_hash = physKey m.storage.ver m.storage.domain d :=
    ⟨m.root_hash, hrootlen, rfl⟩
  unfold applyChanges
  rw [aGet_foldl_aDel, hdel _ hspace, h.live_not_deleted]
  simp only [Bool.false_eq_true, if_false]
  rw [aGet_aExtend backend chg.inserts _ hnd, hins _ hspace]
  have hread := h.read
  rw [KIDB.get_eq_cases] at hread
  cases hi : aGet m.storage.inserts (m.storage.build_key m.root_hash) with
  | some w =>
    rw [hi] at hread
    simp only at hread
    rw [hread]
  | none =>
    rw [hi, h.live_not_deleted] at hread
    simp only [Bool.false_eq_true, if_false] at hread
    simp only [hread]

/- ### Account-key parsing and injectivity -/

theorem AccountField.toByte_inj (f f' : AccountField) (h : f.toByte = f'.toByte) :
    f = f' := by
  cases f <;> cases f' <;> first | rfl | (simp [AccountField.toByte] at h)

theorem account_key_inj (ver : Version) (a a' : Bytes) (f f' : AccountField)
    (h : TrieKey.account_key ver a f = TrieKey.account_key ver a' f') :
    a = a' ∧ f = f' := by
  have hlen := congrArg List.length h
  cases ver <;> unfold TrieKey.account_key at h hlen <;> simp at hlen
  · have := List.append_inj h (by simp [hlen])
    refine ⟨this.1, ?_⟩
    have h2 := this.2
    simp at h2
    exact AccountField.toByte_inj _ _ h2
  · have := List.append_inj h (by simp [hlen])
    refine ⟨this.1, ?_⟩
    have h2 := this.2
    simp at h2
    exact AccountField.toByte_inj _ _ h2

/- ### Accounts-trie operation lemmas -/

theorem at_fields_init (ver : Version) :
    (AccountsTrie.init ver).trie.storage.ver = ver ∧
    (AccountsTrie.init ver).trie.storage.domain = [] := ⟨rfl, rfl⟩

theorem at_nonce_eq {t : AccountsTrie} {backend : List (PKey × PKey)} {amp : AKV}
    (h : MptRepr aCodec t.trie backend amp) (a : Bytes) :
    t.nonce backend a = .ok (match aGet amp (TrieKey.account_key t.ver a .Nonce) with
      | some v => v.u64
      | none => 0) := by
  unfold AccountsTrie.nonce
  rw [h.get_eq aCodecOk]
  cases aGet amp (TrieKey.account_key t.ver a .Nonce) <;> rfl

theorem at_balance_eq {t : AccountsTrie} {backend : List (PKey × PKey)} {amp : AKV}
    (h : MptRepr aCodec t.trie backend amp) (a : Bytes) :
    t.balance backend a = .ok (match aGet amp (TrieKey.account_key t.ver a .Balance) with
      | some v => v.u64
      | none => 0) := by
  unfold AccountsTrie.balance
  rw [h.get_eq aCodecOk]
  cases aGet amp (TrieKey.account_key t.ver a .Balance) <;> rfl

theorem at_code_eq {t : AccountsTrie} {backend : List (PKey × PKey)} {amp : AKV}
    (h : MptRepr aCodec t.trie backend amp) (a : Bytes) :
    t.code backend a = .ok
      ((aGet amp (TrieKey.account_key t.ver a .ContractCode)).map AVal.rawBytes) := by
  unfold AccountsTrie.code
  rw [h.get_eq aCodecOk]

theorem at_cbi_eq {t : AccountsTrie} {backend : List (PKey × PKey)} {amp : AKV}
    (h : MptRepr aCodec t.trie backend amp) (a : Bytes) :
    t.cbi_version backend a = .ok
      (match aGet amp (TrieKey.account_key t.ver a .CbiVersion) with
      | some v => v.u32
      | none => 0) := by
  unfold AccountsTrie.cbi_version
  rw [h.get_eq aCodecOk]
  cases aGet amp (TrieKey.account_key t.ver a .CbiVersion) <;> rfl

theorem at_storage_hash_eq {t : AccountsTrie} {backend : List (PKey × PKey)} {amp : AKV}
    (h : MptRepr aCodec t.trie backend amp) (a : Bytes) :
    t.storage_hash backend a = .ok
      ((aGet amp (TrieKey.account_key t.ver a .StorageHash)).map
        (fun v => hashOfSRoot v.asRoot)) := by
  unfold AccountsTrie.storage_hash
  rw [h.get_eq aCodecOk]

/-- A generic accounts-trie field write: succeed and update the represented
content with the encoded value. -/
theorem at_set_spec {t : AccountsTrie} {backend : List (PKey × PKey)} {amp : AKV}
    (h : MptRepr aCodec t.trie backend amp) (key : Bytes) (v : AVal) :
    Mpt.set aCodec t.trie backend key v = .ok (t.trie.reroot aCodec (aPut amp key v)) ∧
    MptRepr aCodec (t.trie.reroot aCodec (aPut amp key v)) backend (aPut amp key v) ∧
    (t.trie.reroot aCodec (aPut amp key v)).storage.ver = t.trie.storage.ver ∧
    (t.trie.reroot aCodec (aPut amp key v)).storage.domain = t.trie.storage.domain := by
  refine ⟨(mpt_set_spec aCodecOk h key v).1, (mpt_set_spec aCodecOk h key v).2,
    (reroot_fields aCodec t.trie _).1, (reroot_fields aCodec t.trie _).2⟩

/- ### Storage-trie operation lemmas -/

theorem st_get_eq {t : StorageTrie} {backend : List (PKey × PKey)} {smp : SKV}
    (h : MptRepr sCodec t.trie backend smp) (k : Bytes) :
    t.get backend k = .ok (aGet smp (TrieKey.storage_key t.ver k)) := by
  unfold StorageTrie.get
  rw [h.get_eq sCodecOk]

theorem st_fields_init (ver : Version) (a : Bytes) :
    (StorageTrie.init ver a).trie.storage.ver = ver ∧
    (StorageTrie.init ver a).trie.storage.domain = a := ⟨rfl, rfl⟩

/-- `sHash` always yields an `sd` digest. -/
theorem sHash_shape (body : PKey) : ∃ r, sHash body = [PByte.sd r] := by
  unfold sHash
  split
  · exact ⟨_, rfl⟩
  · exact ⟨_, rfl⟩
  · exact ⟨_, rfl⟩

/-- `aHash` always yields an `ad` digest. -/
theorem aHash_shape (body : PKey) : ∃ r, aHash body = [PByte.ad r] := by
  unfold aHash
  split
  · exact ⟨_, rfl⟩
  · exact ⟨_, rfl⟩
  · exact ⟨_, rfl⟩

theorem hashOfSRoot_srootOfHash {body : PKey} : hashOfSRoot (srootOfHash (sHash body))
    = sHash body := by
  rcases sHash_shape body with ⟨r, hr⟩
  rw [hr]
  rfl

/- ### The world-state session invariant -/

theorem aPut_mem {κ α : Type} [DecidableEq κ] {m : List (κ × α)} {k : κ} {v : α}
    {e : κ × α} (h : e ∈ aPut m k v) : e = (k, v) ∨ e ∈ m := by
  unfold aPut at h
  rcases List.mem_cons.mp h with h | h
  · exact Or.inl h
  · exact Or.inr (List.mem_of_mem_filter h)

/-- The session invariant: the accounts trie represents `amp` whose keys are
all well-formed account keys; every cached storage trie represents
well-formed content under its own 32-byte address keyspace; cached addresses
are distinct; and a recorded storage hash implies a cached storage trie. -/
structure WSInv (ver : Version) (ws : WorldState) (backend : List (PKey × PKey))
    (amp : AKV) : Prop where
  hver : ws.accounts_trie.trie.storage.ver = ver
  accRepr : MptRepr aCodec ws.accounts_trie.trie backend amp
  accDom : ws.accounts_trie.trie.storage.domain = []
  ampKeys : ∀ e ∈ amp, ∃ a f, a.length = 32 ∧ e.1 = TrieKey.account_key ver a f
  stOk : ∀ a st, aGet ws.storage_trie_map a = some st →
    st.trie.storage.domain = a ∧ st.trie.storage.ver = ver ∧ a.length = 32 ∧
    ∃ smp, MptRepr sCodec st.trie backend smp ∧
      ∀ e ∈ smp, ∃ k, e.1 = TrieKey.storage_key ver k
  mapNoDup : (ws.storage_trie_map.map Prod.fst).Nodup
  shLink : ∀ a v, aGet amp (TrieKey.account_key ver a .StorageHash) = some v →
    ∃ st, aGet ws.storage_trie_map a = some st

/-- Genesis (`WorldState::new`) satisfies the invariant over any backend. -/
theorem wsInv_init (ver : Version) (backend : List (PKey × PKey)) :
    WSInv ver (WorldState.init ver) backend [] := by
  refine ⟨rfl, mptRepr_init aCodec aCodecOk ver [] backend, rfl, ?_, ?_, ?_, ?_⟩
  · intro e he
    simp at he
  · intro a st h
    have h2 : aGet ([] : List (Bytes × StorageTrie)) a = some st := h
    simp [aGet] at h2
  · exact List.nodup_nil
  · intro a v h
    simp [aGet] at h

/-- Writing a non-StorageHash account field preserves the invariant, updating
the accounts content pointwise. -/
theorem wsInv_account_set {ver : Version} {ws : WorldState}
    {backend : List (PKey × PKey)} {amp : AKV} (hinv : WSInv ver ws backend amp)
    (a : Bytes) (ha : a.length = 32) (f : AccountField) (v : AVal) :
    Mpt.set aCodec ws.accounts_trie.trie backend (TrieKey.account_key ver a f) v
      = .ok (ws.accounts_trie.trie.reroot aCodec
          (aPut amp (TrieKey.account_key ver a f) v)) ∧
    (f ≠ AccountField.StorageHash →
      WSInv ver { ws with accounts_trie :=
          ⟨ws.accounts_trie.trie.reroot aCodec
            (aPut amp (TrieKey.account_key ver a f) v)⟩ }
        backend (aPut amp (TrieKey.account_key ver a f) v)) := by
  have hset := mpt_set_spec aCodecOk hinv.accRepr (TrieKey.account_key ver a f) v
  refine ⟨hset.1, fun hf => ?_⟩
  refine ⟨?_, hset.2, ?_, ?_, ?_, ?_, ?_⟩
  · rw [(reroot_fields aCodec ws.accounts_trie.trie _).1]
    exact hinv.hver
  · rw [(reroot_fields aCodec ws.accounts_trie.trie _).2]
    exact hinv.accDom
  · intro e he
    rcases aPut_mem he with he | he
    · exact ⟨a, f, ha, by rw [he]⟩
    · exact hinv.ampKeys e he
  · exact hinv.stOk
  · exact hinv.mapNoDup
  · intro a2 v2 h2
    rw [aGet_aPut] at h2
    by_cases he : TrieKey.account_key ver a f = TrieKey.account_key ver a2 .StorageHash
    · exact absurd (account_key_inj ver a a2 f .StorageHash he).2 hf
    · rw [if_neg he] at h2
      exact hinv.shLink a2 v2 h2

/-- Replacing (or caching) one storage trie with a well-formed updated one
preserves the invariant. -/
theorem wsInv_update_cached {ver : Version} {ws : WorldState}
    {backend : List (PKey × PKey)} {amp : AKV} (hinv : WSInv ver ws backend amp)
    {a : Bytes} {st : StorageTrie} (hcache : aGet ws.storage_trie_map a = some st)
    (st2 : StorageTrie) (smp2 : SKV)
    (hdom2 : st2.trie.storage.domain = a) (hver2 : st2.trie.storage.ver = ver)
    (hrepr2 : MptRepr sCodec st2.trie backend smp2)
    (hkeys2 : ∀ e ∈ smp2, ∃ k, e.1 = TrieKey.storage_key ver k) :
    WSInv ver { ws with storage_trie_map := aPut ws.storage_trie_map a st2 }
      backend amp := by
  have ha32 : a.length = 32 := (hinv.stOk a st hcache).2.2.1
  refine ⟨hinv.hver, hinv.accRepr, hinv.accDom, hinv.ampKeys, ?_, ?_, ?_⟩
  · intro a2 stx hx
    have hx2 : aGet (aPut ws.storage_trie_map a st2) a2 = some stx := hx
    rw [aGet_aPut] at hx2
    by_cases he : a = a2
    · rw [if_pos he] at hx2
      cases hx2
      subst he
      exact ⟨hdom2, hver2, ha32, smp2, hrepr2, hkeys2⟩
    · rw [if_neg he] at hx2
      exact hinv.stOk a2 stx hx2
  · exact aPut_nodup _ _ _ hinv.mapNoDup
  · intro a2 v2 h2
    rcases hinv.shLink a2 v2 h2 with ⟨stx, hstx⟩
    show ∃ st2x, aGet (aPut ws.storage_trie_map a st2) a2 = some st2x
    rw [aGet_aPut]
    by_cases he : a = a2
    · exact ⟨st2, by rw [if_pos he]⟩
    · exact ⟨stx, by rw [if_neg he, hstx]⟩

/-- `storage_trie_mut` under the invariant: it succeeds, caches a trie under
`a`, and the invariant is preserved (with the empty root written back to the
accounts trie in the fresh case). -/
theorem ws_storage_trie_mut_spec {ver : Version} {ws : WorldState}
    {backend : List (PKey × PKey)} {amp : AKV} (hinv : WSInv ver ws backend amp)
    (a : Bytes) (ha : a.length = 32) :
    ∃ st ws1 amp1, ws.storage_trie_mut backend a = .ok (st, ws1) ∧
      WSInv ver ws1 backend amp1 ∧ aGet ws1.storage_trie_map a = some st := by
  unfold WorldState.storage_trie_mut
  cases hcache : aGet ws.storage_trie_map a with
  | some st => exact ⟨st, ws, amp, rfl, hinv, hcache⟩
  | none =>
    have hsh : aGet amp (TrieKey.account_key ver a .StorageHash) = none := by
      cases hv : aGet amp (TrieKey.account_key ver a .StorageHash) with
      | none => rfl
      | some v =>
        rcases hinv.shLink a v hv with ⟨st, hst⟩
        rw [hcache] at hst
        exact Option.noConfusion hst
    have hshr := at_storage_hash_eq hinv.accRepr a
    have hverAt : ws.accounts_trie.ver = ver := hinv.hver
    rw [hverAt, hsh] at hshr
    rw [hshr]
    simp only [Option.map_none']
    have hwv : ws.ver = ver := hinv.hver
    have hshset := wsInv_account_set hinv a ha .StorageHash
      (.root (srootOfHash (StorageTrie.init ws.ver a).root_hash))
    have hroot : srootOfHash (StorageTrie.init ws.ver a).root_hash = SRoot.empty := rfl
    unfold AccountsTrie.set_storage_hash
    have hverAt2 : ws.accounts_trie.ver = ver := hinv.hver
    rw [hverAt2, hshset.1]
    refine ⟨StorageTrie.init ws.ver a,
      _, aPut amp (TrieKey.account_key ver a .StorageHash)
        (.root (srootOfHash (StorageTrie.init ws.ver a).root_hash)), rfl, ?_, ?_⟩
    · -- invariant for the fresh-cached state
      have hset := hshset.1
      refine ⟨?_, (mpt_set_spec aCodecOk hinv.accRepr _ _).2, ?_, ?_, ?_, ?_, ?_⟩
      · rw [(reroot_fields aCodec ws.accounts_trie.trie _).1]
        exact hinv.hver
      · rw [(reroot_fields aCodec ws.accounts_trie.trie _).2]
        exact hinv.accDom
      · intro e he
        rcases aPut_mem he with he | he
        · exact ⟨a, .StorageHash, ha, by rw [he]⟩
        · exact hinv.ampKeys e he
      · intro a2 stx hx
        have hx2 : aGet (aPut ws.storage_trie_map a (StorageTrie.init ws.ver a)) a2
            = some stx := hx
        rw [aGet_aPut] at hx2
        by_cases he : a = a2
        · rw [if_pos he] at hx2
          cases hx2
          subst he
          refine ⟨rfl, ?_, ha, [], mptRepr_init sCodec sCodecOk _ _ backend, ?_⟩
          · rw [hwv]
            rfl
          · intro e he2
            simp at he2
        · rw [if_neg he] at hx2
          exact hinv.stOk a2 stx hx2
      · exact aPut_nodup _ _ _ hinv.mapNoDup
      · intro a2 v2 h2
        rw [aGet_aPut] at h2
        show ∃ st2x, aGet (aPut ws.storage_trie_map a (StorageTrie.init ws.ver a)) a2
          = some st2x
        rw [aGet_aPut]
        by_cases he : a = a2
        · have he2 : TrieKey.account_key ver a .StorageHash
              = TrieKey.account_key ver a2 .StorageHash := by rw [he]
          exact ⟨StorageTrie.init ws.ver a, by rw [if_pos he]⟩
        · have hne2 : TrieKey.account_key ver a .StorageHash
              ≠ TrieKey.account_key ver a2 .StorageHash := by
            intro hx
            exact he (account_key_inj ver a a2 _ _ hx).1
          rw [if_neg hne2] at h2
          rcases hinv.shLink a2 v2 h2 with ⟨stx, hstx⟩
          refine ⟨stx, ?_⟩
          rw [if_neg he]
          exact hstx
    · show aGet (aPut ws.storage_trie_map a (StorageTrie.init ws.ver a)) a
        = some (StorageTrie.init ws.ver a)
      rw [aGet_aPut, if_pos rfl]

/-- The address an operation touches. -/
def WsOp.addr : WsOp → Bytes
  | .setNonce a _ => a
  | .setBalance a _ => a
  | .setCode a _ => a
  | .setCbi a _ => a
  | .stSet a _ _ => a
  | .stRemove a _ => a

/-- Every session operation on a 32-byte address succeeds and preserves the
invariant. -/
theorem wsInv_applyWsOp {ver : Version} {ws : WorldState}
    {backend : List (PKey × PKey)} {amp : AKV} (hinv : WSInv ver ws backend amp)
    (op : WsOp) (hwf : op.addr.length = 32) :
    ∃ ws2 amp2, ws.applyWsOp backend op = .ok ws2 ∧ WSInv ver ws2 backend amp2 := by
  have hverAt : ws.accounts_trie.ver = ver := hinv.hver
  cases op with
  | setNonce a n =>
    have h := wsInv_account_set hinv a hwf .Nonce (.raw (leBytes 8 n))
    refine ⟨_, _, ?_, h.2 (by intro hx; exact AccountField.noConfusion hx)⟩
    show (match ws.accounts_trie.set_nonce backend a n with
      | Except.error e => Except.error (WorldStateError.MptError e)
      | Except.ok t => Except.ok { ws with accounts_trie := t }) = _
    unfold AccountsTrie.set_nonce
    rw [hverAt, h.1]
  | setBalance a n =>
    have h := wsInv_account_set hinv a hwf .Balance (.raw (leBytes 8 n))
    refine ⟨_, _, ?_, h.2 (by intro hx; exact AccountField.noConfusion hx)⟩
    show (match ws.accounts_trie.set_balance backend a n with
      | Except.error e => Except.error (WorldStateError.MptError e)
      | Except.ok t => Except.ok { ws with accounts_trie := t }) = _
    unfold AccountsTrie.set_balance
    rw [hverAt, h.1]
  | setCode a cbytes =>
    have h := wsInv_account_set hinv a hwf .ContractCode (.raw cbytes)
    refine ⟨_, _, ?_, h.2 (by intro hx; exact AccountField.noConfusion hx)⟩
    show (match ws.accounts_trie.set_code backend a cbytes with
      | Except.error e => Except.error (WorldStateError.MptError e)
      | Except.ok t => Except.ok { ws with accounts_trie := t }) = _
    unfold AccountsTrie.set_code
    rw [hverAt, h.1]
  | setCbi a n =>
    have h := wsInv_account_set hinv a hwf .CbiVersion (.raw (leBytes 4 n))
    refine ⟨_, _, ?_, h.2 (by intro hx; exact AccountField.noConfusion hx)⟩
    show (match ws.accounts_trie.set_cbi_version backend a n with
      | Except.error e => Except.error (WorldStateError.MptError e)
      | Except.ok t => Except.ok { ws with accounts_trie := t }) = _
    unfold AccountsTrie.set_cbi_version
    rw [hverAt, h.1]
  | stSet a k v =>
    rcases ws_storage_trie_mut_spec hinv a hwf with ⟨st, ws1, amp1, hmut, hinv1, hcache⟩
    rcases hinv1.stOk a st hcache with ⟨hdom, hver2, _, smp, hsrepr, hskeys⟩
    have hset := mpt_set_spec sCodecOk hsrepr (TrieKey.storage_key ver k) v
    refine ⟨{ ws1 with storage_trie_map := (aPut ws1.storage_trie_map a
        (StorageTrie.mk (Mpt.reroot sCodec st.trie
          (aPut smp (TrieKey.storage_key ver k) v)))) },
      amp1, ?_, ?_⟩
    · show (match ws.storage_trie_mut backend a with
        | Except.error e => Except.error (WorldStateError.MptError e)
        | Except.ok (st, ws1) =>
          match st.set backend k v with
          | Except.error e => Except.error (WorldStateError.MptError e)
          | Except.ok st2 => Except.ok { ws1 with storage_trie_map := aPut ws1.storage_trie_map a st2 }) = _
      rw [hmut]
      simp only [StorageTrie.set]
      rw [show st.ver = ver from hver2, hset.1]
    · refine wsInv_update_cached hinv1 hcache _ _ ?_ ?_ hset.2 ?_
      · rw [(reroot_fields sCodec st.trie _).2]
        exact hdom
      · rw [(reroot_fields sCodec st.trie _).1]
        exact hver2
      · intro e he
        rcases aPut_mem he with he | he
        · exact ⟨k, by rw [he]⟩
        · exact hskeys e he
  | stRemove a k =>
    rcases ws_storage_trie_mut_spec hinv a hwf with ⟨st, ws1, amp1, hmut, hinv1, hcache⟩
    rcases hinv1.stOk a st hcache with ⟨hdom, hver2, _, smp, hsrepr, hskeys⟩
    rcases mpt_remove_spec sCodecOk hsrepr (TrieKey.storage_key ver k) with
      ⟨m2, hrem, hrepr2, hv2, hd2⟩
    refine ⟨{ ws1 with storage_trie_map := (aPut ws1.storage_trie_map a
        (StorageTrie.mk m2)) }, amp1, ?_, ?_⟩
    · show (match ws.storage_trie_mut backend a with
        | Except.error e => Except.error (WorldStateError.MptError e)
        | Except.ok (st, ws1) =>
          match st.removeKey backend k with
          | Except.error e => Except.error (WorldStateError.MptError e)
          | Except.ok st2 => Except.ok { ws1 with storage_trie_map := aPut ws1.storage_trie_map a st2 }) = _
      rw [hmut]
      simp only [StorageTrie.removeKey]
      rw [show st.ver = ver from hver2, hrem]
    · refine wsInv_update_cached hinv1 hcache ⟨m2⟩ _ ?_ ?_ hrepr2 ?_
      · rw [show (⟨m2⟩ : StorageTrie).trie.storage.domain = m2.storage.domain from rfl, hd2]
        exact hdom
      · rw [show (⟨m2⟩ : StorageTrie).trie.storage.ver = m2.storage.ver from rfl, hv2]
        exact hver2
      · intro e he
        exact hskeys e (List.mem_of_mem_filter he)

/-- Running a session of well-addressed operations preserves the invariant. -/
theorem runWs_inv {ver : Version} {backend : List (PKey × PKey)} {ops : List WsOp}
    {ws ws2 : WorldState} {amp : AKV} (hinv : WSInv ver ws backend amp)
    (hwf : ∀ op ∈ ops, op.addr.length = 32)
    (hrun : WorldState.runWs backend ws ops = .ok ws2) :
    ∃ amp2, WSInv ver ws2 backend amp2 := by
  induction ops generalizing ws amp with
  | nil =>
    unfold WorldState.runWs at hrun
    cases hrun
    exact ⟨amp, hinv⟩
  | cons op rest ih =>
    unfold WorldState.runWs at hrun
    rcases wsInv_applyWsOp hinv op (hwf op (by simp)) with ⟨wsx, ampx, hstep, hinvx⟩
    rw [hstep] at hrun
    exact ih hinvx (fun o ho => hwf o (by simp [ho])) hrun

/- ### The close protocol: merged buffers and storage-root write-backs -/

/-- The storage-trie insert buffers merged by the close loop, in order. -/
def mergedIns (acc : List (PKey × PKey)) : List (Bytes × StorageTrie) →
    List (PKey × PKey)
  | [] => acc
  | e :: rest => mergedIns (aExtend acc e.2.trie.storage.inserts) rest

/-- The storage-trie delete buffers merged by the close loop, in order. -/
def mergedDels (acc : List PKey) : List (Bytes × StorageTrie) → List PKey
  | [] => acc
  | e :: rest => mergedDels (sUnion acc e.2.trie.storage.deletes) rest

/-- The storage-root write-backs the close loop performs on the accounts
content, in order. -/
def writeSH (ver : Version) (amp : AKV) : List (Bytes × StorageTrie) → AKV
  | [] => amp
  | e :: rest => writeSH ver
      (aPut amp (TrieKey.account_key ver e.1 .StorageHash)
        (.root (srootOfHash e.2.trie.root_hash))) rest

theorem aGet_aExtend_none {κ α : Type} [DecidableEq κ] (m m' : List (κ × α))
    (pk : κ) (h : aGet m' pk = none) : aGet (aExtend m m') pk = aGet m pk := by
  induction m' generalizing m with
  | nil => rfl
  | cons p rest ih =>
    have hp : ¬ p.1 = pk := by
      intro he
      simp [aGet, he] at h
    have hrest : aGet rest pk = none := by
      simpa [aGet, hp] using h
    show aGet (aExtend (aPut m p.1 p.2) rest) pk = _
    rw [ih _ hrest, aGet_aPut, if_neg hp]

theorem mem_keys_aGet {κ α : Type} [DecidableEq κ] {m : List (κ × α)} {k : κ}
    (h : k ∈ m.map Prod.fst) : ∃ v, aGet m k = some v := by
  induction m with
  | nil => simp at h
  | cons p rest ih =>
    by_cases hp : p.1 = k
    · exact ⟨p.2, by simp [aGet, hp]⟩
    · have : k ∈ rest.map Prod.fst := by
        rcases List.mem_map.mp h with ⟨q, hq, hqk⟩
        rcases List.mem_cons.mp hq with hq | hq
        · exact absurd (hq ▸ hqk) hp
        · exact List.mem_map.mpr ⟨q, hq, hqk⟩
      rcases ih this with ⟨v, hv⟩
      exact ⟨v, by simp [aGet, hp, hv]⟩

theorem mergedIns_nodup (entries : List (Bytes × StorageTrie))
    (acc : List (PKey × PKey)) (h : (acc.map Prod.fst).Nodup) :
    ((mergedIns acc entries).map Prod.fst).Nodup := by
  induction entries generalizing acc with
  | nil => exact h
  | cons e rest ih => exact ih _ (aExtend_nodup _ _ h)

theorem aGet_mergedIns_outside (entries : List (Bytes × StorageTrie))
    (acc : List (PKey × PKey)) (pk : PKey)
    (hout : ∀ e ∈ entries, aGet e.2.trie.storage.inserts pk = none) :
    aGet (mergedIns acc entries) pk = aGet acc pk := by
  induction entries generalizing acc with
  | nil => rfl
  | cons e rest ih =>
    show aGet (mergedIns (aExtend acc e.2.trie.storage.inserts) rest) pk = _
    rw [ih _ (fun e2 h2 => hout e2 (List.mem_cons_of_mem e h2)),
      aGet_aExtend_none _ _ _ (hout e (List.mem_cons_self e rest))]

theorem sMem_mergedDels_outside (entries : List (Bytes × StorageTrie))
    (acc : List PKey) (pk : PKey)
    (hout : ∀ e ∈ entries, sMem e.2.trie.storage.deletes pk = false) :
    sMem (mergedDels acc entries) pk = sMem acc pk := by
  induction entries generalizing acc with
  | nil => rfl
  | cons e rest ih =>
    show sMem (mergedDels (sUnion acc e.2.trie.storage.deletes) rest) pk = _
    rw [ih _ (fun e2 h2 => hout e2 (List.mem_cons_of_mem e h2)), sMem_sUnion,
      hout e (List.mem_cons_self e rest), Bool.or_false]

/-- Overlay physical keys depend only on the overlay's version and prefix. -/
theorem KIDB.build_key_physKey (db : KIDB) (d : PKey) :
    db.build_key d = physKey db.ver db.domain d := rfl

/-- Inside the keyspace of a cached trie, the merged inserts agree with that
trie's own insert buffer. -/
theorem aGet_mergedIns_at (ver : Version) (entries : List (Bytes × StorageTrie))
    (acc : List (PKey × PKey)) (a : Bytes) (st : StorageTrie) (d : PKey)
    (hmem : (a, st) ∈ entries) (hnd : (entries.map Prod.fst).Nodup)
    (hks : ∀ e ∈ entries, e.1.length = 32 ∧ e.2.trie.storage.ver = ver ∧
      e.2.trie.storage.domain = e.1 ∧
      (e.2.trie.storage.inserts.map Prod.fst).Nodup ∧
      (∀ pk v, aGet e.2.trie.storage.inserts pk = some v →
        ∃ d2, d2.length = 1 ∧ pk = physKey ver e.1 d2))
    (hd : d.length = 1) (ha : a.length = 32)
    (hacc : aGet acc (physKey ver a d) = none) :
    aGet (mergedIns acc entries) (physKey ver a d)
      = aGet st.trie.storage.inserts (physKey ver a d) := by
  induction entries generalizing acc with
  | nil => simp at hmem
  | cons e rest ih =>
    have hnotin : e.1 ∉ rest.map Prod.fst := (List.nodup_cons.mp hnd).1
    have hndr := (List.nodup_cons.mp hnd).2
    have hksr : ∀ e2 ∈ rest, e2.1.length = 32 ∧ e2.2.trie.storage.ver = ver ∧
        e2.2.trie.storage.domain = e2.1 ∧
        (e2.2.trie.storage.inserts.map Prod.fst).Nodup ∧
        (∀ pk v, aGet e2.2.trie.storage.inserts pk = some v →
          ∃ d2, d2.length = 1 ∧ pk = physKey ver e2.1 d2) :=
      fun e2 h2 => hks e2 (List.mem_cons_of_mem e h2)
    rcases List.mem_cons.mp hmem with hhead | htail
    · -- the entry for `a` is the head; the rest never touches its keyspace
      have he : e = (a, st) := hhead.symm
      subst he
      have hrest : ∀ e2 ∈ rest, aGet e2.2.trie.storage.inserts (physKey ver a d)
          = none := by
        intro e2 h2
        cases hv : aGet e2.2.trie.storage.inserts (physKey ver a d) with
        | none => rfl
        | some v =>
          rcases (hksr e2 h2).2.2.2.2 _ _ hv with ⟨d2, hd2, hpk⟩
          have := physKey_disjoint ver ver a e2.1 d d2 (Or.inr ha)
            (Or.inr (hksr e2 h2).1) hd hd2 hpk
          exact absurd (List.mem_map.mpr ⟨e2, h2, (this.2.1).symm⟩) hnotin
      show aGet (mergedIns (aExtend acc st.trie.storage.inserts) rest) _ = _
      rw [aGet_mergedIns_outside rest _ _ hrest,
        aGet_aExtend _ _ _ (hks (a, st) (List.mem_cons_self _ rest)).2.2.2.1]
      cases hv : aGet st.trie.storage.inserts (physKey ver a d) with
      | some v => rfl
      | none => exact hacc
    · -- the entry for `a` is in the tail; the head's keyspace is disjoint
      have hane : e.1 ≠ a := by
        intro he
        exact hnotin (he ▸ List.mem_map.mpr ⟨(a, st), htail, rfl⟩)
      have hheadnone : aGet e.2.trie.storage.inserts (physKey ver a d) = none := by
        cases hv : aGet e.2.trie.storage.inserts (physKey ver a d) with
        | none => rfl
        | some v =>
          rcases (hks e (List.mem_cons_self e rest)).2.2.2.2 _ _ hv with ⟨d2, hd2, hpk⟩
          have := physKey_disjoint ver ver a e.1 d d2 (Or.inr ha)
            (Or.inr (hks e (List.mem_cons_self e rest)).1) hd hd2 hpk
          exact absurd this.2.1.symm hane
      show aGet (mergedIns (aExtend acc e.2.trie.storage.inserts) rest) _ = _
      refine ih _ htail hndr hksr ?_
      rw [aGet_aExtend_none _ _ _ hheadnone]
      exact hacc

/-- Inside the keyspace of a cached trie, the merged deletes agree with that
trie's own delete buffer. -/
theorem sMem_mergedDels_at (ver : Version) (entries : List (Bytes × StorageTrie))
    (acc : List PKey) (a : Bytes) (st : StorageTrie) (d : PKey)
    (hmem : (a, st) ∈ entries) (hnd : (entries.map Prod.fst).Nodup)
    (hks : ∀ e ∈ entries, e.1.length = 32 ∧
      (∀ pk, sMem e.2.trie.storage.deletes pk = true →
        ∃ d2, d2.length = 1 ∧ pk = physKey ver e.1 d2))
    (hd : d.length = 1) (ha : a.length = 32)
    (hacc : sMem acc (physKey ver a d) = false) :
    sMem (mergedDels acc entries) (physKey ver a d)
      = sMem st.trie.storage.deletes (physKey ver a d) := by
  induction entries generalizing acc with
  | nil => simp at hmem
  | cons e rest ih =>
    have hnotin : e.1 ∉ rest.map Prod.fst := (List.nodup_cons.mp hnd).1
    have hndr := (List.nodup_cons.mp hnd).2
    have hksr : ∀ e2 ∈ rest, e2.1.length = 32 ∧
        (∀ pk, sMem e2.2.trie.storage.deletes pk = true →
          ∃ d2, d2.length = 1 ∧ pk = physKey ver e2.1 d2) :=
      fun e2 h2 => hks e2 (List.mem_cons_of_mem e h2)
    rcases List.mem_cons.mp hmem with hhead | htail
    · have he : e = (a, st) := hhead.symm
      subst he
      have hrest : ∀ e2 ∈ rest, sMem e2.2.trie.storage.deletes (physKey ver a d)
          = false := by
        intro e2 h2
        cases hv : sMem e2.2.trie.storage.deletes (physKey ver a d) with
        | false => rfl
        | true =>
          rcases (hksr e2 h2).2 _ hv with ⟨d2, hd2, hpk⟩
          have := physKey_disjoint ver ver a e2.1 d d2 (Or.inr ha)
            (Or.inr (hksr e2 h2).1) hd hd2 hpk
          exact absurd (List.mem_map.mpr ⟨e2, h2, (this.2.1).symm⟩) hnotin
      show sMem (mergedDels (sUnion acc st.trie.storage.deletes) rest) _ = _
      rw [sMem_mergedDels_outside rest _ _ hrest, sMem_sUnion, hacc, Bool.false_or]
    · have hane : e.1 ≠ a := by
        intro he
        exact hnotin (he ▸ List.mem_map.mpr ⟨(a, st), htail, rfl⟩)
      have hheadnone : sMem e.2.trie.storage.deletes (physKey ver a d) = false := by
        cases hv : sMem e.2.trie.storage.deletes (physKey ver a d) with
        | false => rfl
        | true =>
          rcases (hks e (List.mem_cons_self e rest)).2 _ hv with ⟨d2, hd2, hpk⟩
          have := physKey_disjoint ver ver a e.1 d d2 (Or.inr ha)
            (Or.inr (hks e (List.mem_cons_self e rest)).1) hd hd2 hpk
          exact absurd this.2.1.symm hane
      show sMem (mergedDels (sUnion acc e.2.trie.storage.deletes) rest) _ = _
      refine ih _ htail hndr hksr ?_
      rw [sMem_sUnion, hacc, hheadnone]
      rfl

/-- The close loop's write-backs leave non-StorageHash fields untouched. -/
theorem writeSH_ne (ver : Version) (entries : List (Bytes × StorageTrie))
    (amp : AKV) (a : Bytes) (f : AccountField) (hf : f ≠ .StorageHash) :
    aGet (writeSH ver amp entries) (TrieKey.account_key ver a f)
      = aGet amp (TrieKey.account_key ver a f) := by
  induction entries generalizing amp with
  | nil => rfl
  | cons e rest ih =>
    show aGet (writeSH ver (aPut amp _ _) rest) _ = _
    rw [ih, aGet_aPut, if_neg]
    intro he
    exact hf (account_key_inj ver e.1 a .StorageHash f he).2.symm

/-- The close loop's write-backs leave unvisited addresses untouched. -/
theorem writeSH_outside (ver : Version) (entries : List (Bytes × StorageTrie))
    (amp : AKV) (a : Bytes) (hout : a ∉ entries.map Prod.fst) :
    aGet (writeSH ver amp entries) (TrieKey.account_key ver a .StorageHash)
      = aGet amp (TrieKey.account_key ver a .StorageHash) := by
  induction entries generalizing amp with
  | nil => rfl
  | cons e rest ih =>
    have hne : e.1 ≠ a := fun he => hout (List.mem_cons.mpr (Or.inl he.symm))
    have houtr : a ∉ rest.map Prod.fst :=
      fun hmem => hout (List.mem_cons.mpr (Or.inr hmem))
    show aGet (writeSH ver (aPut amp _ _) rest) _ = _
    rw [ih _ houtr, aGet_aPut, if_neg]
    intro he
    exact hne (account_key_inj ver e.1 a .StorageHash .StorageHash he).1

/-- After the close loop, each visited address's StorageHash field holds its
cached trie's root digest. -/
theorem writeSH_at (ver : Version) (entries : List (Bytes × StorageTrie))
    (amp : AKV) (a : Bytes) (st : StorageTrie) (hmem : (a, st) ∈ entries)
    (hnd : (entries.map Prod.fst).Nodup) :
    aGet (writeSH ver amp entries) (TrieKey.account_key ver a .StorageHash)
      = some (.root (srootOfHash st.trie.root_hash)) := by
  induction entries generalizing amp with
  | nil => simp at hmem
  | cons e rest ih =>
    have hnotin : e.1 ∉ rest.map Prod.fst := (List.nodup_cons.mp hnd).1
    have hndr := (List.nodup_cons.mp hnd).2
    rcases List.mem_cons.mp hmem with hhead | htail
    · have he : e = (a, st) := hhead.symm
      subst he
      show aGet (writeSH ver (aPut amp _ _) rest) _ = _
      rw [writeSH_outside ver rest _ a hnotin, aGet_aPut, if_pos rfl]
    · show aGet (writeSH ver (aPut amp _ _) rest) _ = _
      exact ih _ htail hndr

/-- The close loop's write-backs keep every accounts key well-formed. -/
theorem writeSH_keys (ver : Version) (entries : List (Bytes × StorageTrie))
    (amp : AKV)
    (hamp : ∀ e ∈ amp, ∃ a f, a.length = 32 ∧ e.1 = TrieKey.account_key ver a f)
    (haddr : ∀ e ∈ entries, e.1.length = 32) :
    ∀ e ∈ writeSH ver amp entries,
      ∃ a f, a.length = 32 ∧ e.1 = TrieKey.account_key ver a f := by
  induction entries generalizing amp with
  | nil => exact hamp
  | cons e rest ih =>
    refine ih _ ?_ (fun e2 h2 => haddr e2 (List.mem_cons_of_mem e h2))
    intro e2 h2
    rcases aPut_mem h2 with h2 | h2
    · exact ⟨e.1, .StorageHash, haddr e (List.mem_cons_self e rest), by rw [h2]⟩
    · exact hamp e2 h2

/-- The close loop: it always succeeds, accumulates exactly the merged
storage buffers, and leaves the accounts trie representing the write-back
content. -/
theorem foldClose_spec (ver : Version) (backend : List (PKey × PKey))
    (entries : List (Bytes × StorageTrie)) (ins : List (PKey × PKey))
    (dels : List PKey) (t : AccountsTrie) (amp : AKV)
    (hrepr : MptRepr aCodec t.trie backend amp)
    (hver : t.trie.storage.ver = ver) (hdom : t.trie.storage.domain = []) :
    ∃ tF : AccountsTrie,
      foldClose backend entries (ins, dels, t)
        = .ok (mergedIns ins entries, mergedDels dels entries, tF) ∧
      MptRepr aCodec tF.trie backend (writeSH ver amp entries) ∧
      tF.trie.storage.ver = ver ∧ tF.trie.storage.domain = [] := by
  induction entries generalizing ins dels t amp with
  | nil => exact ⟨t, rfl, hrepr, hver, hdom⟩
  | cons e rest ih =>
    have hset := mpt_set_spec aCodecOk hrepr
      (TrieKey.account_key ver e.1 .StorageHash)
      (.root (srootOfHash e.2.trie.root_hash))
    have hstep : WorldState.closeStep backend (ins, dels, t) e
        = Except.ok (aExtend ins e.2.trie.storage.inserts,
            sUnion dels e.2.trie.storage.deletes,
            (⟨t.trie.reroot aCodec (aPut amp
              (TrieKey.account_key ver e.1 .StorageHash)
              (.root (srootOfHash e.2.trie.root_hash)))⟩ : AccountsTrie)) := by
      show (match t.set_storage_hash backend e.1 e.2.trie.root_hash with
        | Except.error er => Except.error (WorldStateError.MptError er)
        | Except.ok at2 => Except.ok (aExtend ins e.2.trie.storage.inserts,
            sUnion dels e.2.trie.storage.deletes, at2)) = _
      unfold AccountsTrie.set_storage_hash
      rw [show t.ver = ver from hver, hset.1]
    rcases ih (aExtend ins e.2.trie.storage.inserts)
      (sUnion dels e.2.trie.storage.deletes)
      ⟨t.trie.reroot aCodec (aPut amp (TrieKey.account_key ver e.1 .StorageHash)
        (.root (srootOfHash e.2.trie.root_hash)))⟩ _ hset.2
      (by rw [(reroot_fields aCodec t.trie _).1]; exact hver)
      (by rw [(reroot_fields aCodec t.trie _).2]; exact hdom) with
      ⟨tF, hrun, hreprF, hvF, hdF⟩
    refine ⟨tF, ?_, hreprF, hvF, hdF⟩
    show (match WorldState.closeStep backend (ins, dels, t) e with
      | Except.error er => Except.error er
      | Except.ok acc2 => foldClose backend rest acc2) = _
    simp only [hstep]
    exact hrun

theorem aGet_mem {κ α : Type} [DecidableEq κ] {m : List (κ × α)} {k : κ} {v : α}
    (h : aGet m k = some v) : (k, v) ∈ m := by
  induction m with
  | nil => simp [aGet] at h
  | cons p rest ih =>
    rcases p with ⟨pk, pv⟩
    by_cases hp : pk = k
    · have : pv = v := by simpa [aGet, hp] using h
      subst hp
      subst this
      exact List.mem_cons_self _ _
    · exact List.mem_cons.mpr (Or.inr (ih (by simpa [aGet, hp] using h)))

theorem mem_aGet_of_nodup {κ α : Type} [DecidableEq κ] {m : List (κ × α)}
    (hnd : (m.map Prod.fst).Nodup) {k : κ} {v : α} (h : (k, v) ∈ m) :
    aGet m k = some v := by
  induction m with
  | nil => simp at h
  | cons p rest ih =>
    rcases List.mem_cons.mp h with hh | hh
    · rw [← hh]
      simp [aGet]
    · have hne : ¬ p.1 = k := by
        intro he
        exact (List.nodup_cons.mp hnd).1 (he ▸ List.mem_map.mpr ⟨(k, v), hh, rfl⟩)
      rcases p with ⟨pk, pv⟩
      simp only [aGet, hne, if_false]
      exact ih (List.nodup_cons.mp hnd).2 hh

/-- The per-entry keyspace facts of the cached storage tries, packaged for the
merged-buffer lemmas. -/
theorem wsInv_entry_facts {ver : Version} {ws : WorldState}
    {backend : List (PKey × PKey)} {amp : AKV} (hinv : WSInv ver ws backend amp) :
    ∀ e ∈ ws.storage_trie_map, e.1.length = 32 ∧ e.2.trie.storage.ver = ver ∧
      e.2.trie.storage.domain = e.1 ∧
      (e.2.trie.storage.inserts.map Prod.fst).Nodup ∧
      (∀ pk v, aGet e.2.trie.storage.inserts pk = some v →
        ∃ d2, d2.length = 1 ∧ pk = physKey ver e.1 d2) ∧
      (∀ pk, sMem e.2.trie.storage.deletes pk = true →
        ∃ d2, d2.length = 1 ∧ pk = physKey ver e.1 d2) := by
  intro e he
  have hst : aGet ws.storage_trie_map e.1 = some e.2 :=
    mem_aGet_of_nodup hinv.mapNoDup (by rcases e with ⟨a, st⟩; exact he)
  rcases hinv.stOk e.1 e.2 hst with ⟨hdomE, hverE, ha32, smp, hsrepr, _⟩
  refine ⟨ha32, hverE, hdomE, hsrepr.insNoDup, ?_, ?_⟩
  · intro pk v hpk
    rcases hsrepr.insKeys pk v hpk with ⟨d2, hd2, hpk2⟩
    exact ⟨d2, hd2, by rw [hpk2, hverE, hdomE]⟩
  · intro pk hpk
    rcases hsrepr.delKeys pk hpk with ⟨d2, hd2, hpk2⟩
    exact ⟨d2, hd2, by rw [hpk2, hverE, hdomE]⟩

/-- On the accounts keyspace, the merged close batch agrees with the accounts
trie's own buffers. -/
theorem close_chg_accounts_agree {ver : Version} {ws : WorldState}
    {backend : List (PKey × PKey)} {amp : AKV} (hinv : WSInv ver ws backend amp)
    (tF : AccountsTrie) (hvF : tF.trie.storage.ver = ver)
    (hdF : tF.trie.storage.domain = [])
    (hreprF : MptRepr aCodec tF.trie backend (writeSH ver amp ws.storage_trie_map)) :
    (∀ pk, (∃ d, d.length = 1 ∧
        pk = physKey tF.trie.storage.ver tF.trie.storage.domain d) →
      aGet (aExtend (mergedIns [] ws.storage_trie_map) tF.trie.storage.inserts) pk
        = aGet tF.trie.storage.inserts pk) ∧
    (∀ pk, (∃ d, d.length = 1 ∧
        pk = physKey tF.trie.storage.ver tF.trie.storage.domain d) →
      sMem (sUnion (mergedDels [] ws.storage_trie_map) tF.trie.storage.deletes) pk
        = sMem tF.trie.storage.deletes pk) := by
  have hfacts := wsInv_entry_facts hinv
  constructor
  · intro pk hpk
    rcases hpk with ⟨d, hd, hpk⟩
    rw [hvF, hdF] at hpk
    rw [aGet_aExtend _ _ _ hreprF.insNoDup]
    cases hv : aGet tF.trie.storage.inserts pk with
    | some w => rfl
    | none =>
      have hout : ∀ e ∈ ws.storage_trie_map,
          aGet e.2.trie.storage.inserts pk = none := by
        intro e he
        cases hw : aGet e.2.trie.storage.inserts pk with
        | none => rfl
        | some w =>
          rcases (hfacts e he).2.2.2.2.1 pk w hw with ⟨d2, hd2, hpk2⟩
          have := physKey_disjoint ver ver [] e.1 d d2 (Or.inl rfl)
            (Or.inr (hfacts e he).1) hd hd2 (hpk ▸ hpk2)
          have hlen := congrArg List.length this.2.1
          rw [(hfacts e he).1] at hlen
          simp at hlen
      rw [aGet_mergedIns_outside _ _ _ hout]
      rfl
  · intro pk hpk
    rcases hpk with ⟨d, hd, hpk⟩
    rw [hvF, hdF] at hpk
    rw [sMem_sUnion]
    have hout : ∀ e ∈ ws.storage_trie_map,
        sMem e.2.trie.storage.deletes pk = false := by
      intro e he
      cases hw : sMem e.2.trie.storage.deletes pk with
      | false => rfl
      | true =>
        rcases (hfacts e he).2.2.2.2.2 pk hw with ⟨d2, hd2, hpk2⟩
        have := physKey_disjoint ver ver [] e.1 d d2 (Or.inl rfl)
          (Or.inr (hfacts e he).1) hd hd2 (hpk ▸ hpk2)
        have hlen := congrArg List.length this.2.1
        rw [(hfacts e he).1] at hlen
        simp at hlen
    rw [sMem_mergedDels_outside _ _ _ hout]
    rfl

/-- On a cached storage trie's keyspace, the merged close batch agrees with
that trie's own buffers. -/
theorem close_chg_storage_agree {ver : Version} {ws : WorldState}
    {backend : List (PKey × PKey)} {amp : AKV} (hinv : WSInv ver ws backend amp)
    (tF : AccountsTrie) (hvF : tF.trie.storage.ver = ver)
    (hdF : tF.trie.storage.domain = [])
    (hreprF : MptRepr aCodec tF.trie backend (writeSH ver amp ws.storage_trie_map))
    (a : Bytes) (st : StorageTrie)
    (hcache : aGet ws.storage_trie_map a = some st) :
    (∀ pk, (∃ d, d.length = 1 ∧
        pk = physKey st.trie.storage.ver st.trie.storage.domain d) →
      aGet (aExtend (mergedIns [] ws.storage_trie_map) tF.trie.storage.inserts) pk
        = aGet st.trie.storage.inserts pk) ∧
    (∀ pk, (∃ d, d.length = 1 ∧
        pk = physKey st.trie.storage.ver st.trie.storage.domain d) →
      sMem (sUnion (mergedDels [] ws.storage_trie_map) tF.trie.storage.deletes) pk
        = sMem st.trie.storage.deletes pk) := by
  have hfacts := wsInv_entry_facts hinv
  rcases hinv.stOk a st hcache with ⟨hdomS, hverS, ha32, _smp, _hsrepr, _⟩
  have hmem : (a, st) ∈ ws.storage_trie_map := aGet_mem hcache
  constructor
  · intro pk hpk
    rcases hpk with ⟨d, hd, hpk⟩
    rw [hverS, hdomS] at hpk
    rw [aGet_aExtend _ _ _ hreprF.insNoDup]
    cases hv : aGet tF.trie.storage.inserts pk with
    | some w =>
      exfalso
      rcases hreprF.insKeys pk w hv with ⟨d2, hd2, hpk2⟩
      rw [hvF, hdF] at hpk2
      have := physKey_disjoint ver ver a [] d d2 (Or.inr ha32) (Or.inl rfl)
        hd hd2 (hpk ▸ hpk2)
      have hlen := congrArg List.length this.2.1
      rw [ha32] at hlen
      simp at hlen
    | none =>
      subst hpk
      rw [aGet_mergedIns_at ver ws.storage_trie_map [] a st d hmem hinv.mapNoDup
        (fun e he => ⟨(hfacts e he).1, (hfacts e he).2.1, (hfacts e he).2.2.1,
          (hfacts e he).2.2.2.1, (hfacts e he).2.2.2.2.1⟩) hd ha32 rfl]
  · intro pk hpk
    rcases hpk with ⟨d, hd, hpk⟩
    rw [hverS, hdomS] at hpk
    rw [sMem_sUnion]
    have hnotF : sMem tF.trie.storage.deletes pk = false := by
      cases hv : sMem tF.trie.storage.deletes pk with
      | false => rfl
      | true =>
        exfalso
        rcases hreprF.delKeys pk hv with ⟨d2, hd2, hpk2⟩
        rw [hvF, hdF] at hpk2
        have := physKey_disjoint ver ver a [] d d2 (Or.inr ha32) (Or.inl rfl)
          hd hd2 (hpk ▸ hpk2)
        have hlen := congrArg List.length this.2.1
        rw [ha32] at hlen
        simp at hlen
    rw [hnotF, Bool.or_false]
    subst hpk
    exact sMem_mergedDels_at ver ws.storage_trie_map [] a st d hmem hinv.mapNoDup
      (fun e he => ⟨(hfacts e he).1, (hfacts e he).2.2.2.2.2⟩) hd ha32 rfl

/-- `WorldState::close` under the session invariant: it succeeds; the batch is
the merged storage buffers extended by the accounts buffers with the accounts
root as new root; the cached map is kept; and after applying the batch both
the accounts trie reopened at the new root (holding the storage-root
write-back content) and every cached storage trie reopened at its own root
resolve with their session content. -/
theorem ws_close_spec {ver : Version} {ws : WorldState}
    {backend : List (PKey × PKey)} {amp : AKV} (hinv : WSInv ver ws backend amp) :
    ∃ (tF : AccountsTrie) (chg : WorldStateChanges) (ws2 : WorldState),
      foldClose backend ws.storage_trie_map ([], [], ws.accounts_trie)
        = .ok (mergedIns [] ws.storage_trie_map,
               mergedDels [] ws.storage_trie_map, tF) ∧
      ws.close backend = .ok (chg, ws2) ∧
      ws2.storage_trie_map = ws.storage_trie_map ∧
      chg.inserts = aExtend (mergedIns [] ws.storage_trie_map)
          tF.trie.storage.inserts ∧
      chg.deletes = sUnion (mergedDels [] ws.storage_trie_map)
          tF.trie.storage.deletes ∧
      chg.new_root_hash = tF.trie.root_hash ∧
      MptRepr aCodec tF.trie backend (writeSH ver amp ws.storage_trie_map) ∧
      MptRepr aCodec (Mpt.mopen (KIDB.init ver []) chg.new_root_hash)
        (applyChanges backend chg) (writeSH ver amp ws.storage_trie_map) ∧
      (∀ a st, aGet ws.storage_trie_map a = some st →
        ∃ smp, MptRepr sCodec st.trie backend smp ∧
          (∀ e ∈ smp, ∃ k, e.1 = TrieKey.storage_key ver k) ∧
          st.trie.root_hash = sHash (sEncode smp) ∧
          MptRepr sCodec (Mpt.mopen (KIDB.init ver a) st.trie.root_hash)
            (applyChanges backend chg) smp) := by
  rcases foldClose_spec ver backend ws.storage_trie_map [] [] ws.accounts_trie amp
    hinv.accRepr hinv.hver hinv.accDom with ⟨tF, hrun, hreprF, hvF, hdF⟩
  refine ⟨tF,
    ⟨aExtend (mergedIns [] ws.storage_trie_map) tF.trie.storage.inserts,
     sUnion (mergedDels [] ws.storage_trie_map) tF.trie.storage.deletes,
     tF.trie.root_hash⟩,
    ⟨(AccountsTrie.close tF).2, ws.storage_trie_map⟩,
    hrun, ?_, rfl, rfl, rfl, rfl, hreprF, ?_, ?_⟩
  · simp only [WorldState.close, hrun, AccountsTrie.close, Mpt.close, KIDB.close]
  · -- the accounts trie reopened at the new root over the applied batch
    have hagree := close_chg_accounts_agree hinv tF hvF hdF hreprF
    have hnd : ((aExtend (mergedIns [] ws.storage_trie_map)
        tF.trie.storage.inserts).map Prod.fst).Nodup :=
      aExtend_nodup _ _ (mergedIns_nodup _ [] List.nodup_nil)
    have hb := live_after_apply aCodecOk hreprF
      ⟨aExtend (mergedIns [] ws.storage_trie_map) tF.trie.storage.inserts,
       sUnion (mergedDels [] ws.storage_trie_map) tF.trie.storage.deletes,
       tF.trie.root_hash⟩ hnd (fun pk hpk => hagree.1 pk hpk)
      (fun pk hpk => hagree.2 pk hpk)
    rw [KIDB.build_key_physKey, hvF, hdF] at hb
    have hroot : tF.trie.root_hash = aCodec.hash
        (aCodec.enc (writeSH ver amp ws.storage_trie_map)) := hreprF.root
    have := mptRepr_reopen aCodec aCodecOk ver []
      (applyChanges backend
        ⟨aExtend (mergedIns [] ws.storage_trie_map) tF.trie.storage.inserts,
         sUnion (mergedDels [] ws.storage_trie_map) tF.trie.storage.deletes,
         tF.trie.root_hash⟩)
      (writeSH ver amp ws.storage_trie_map) hreprF.mpNoDup (by rw [← hroot]; exact hb)
    rw [← hroot] at this
    exact this
  · -- every cached storage trie reopened at its own root over the applied batch
    intro a st hcache
    rcases hinv.stOk a st hcache with ⟨hdomS, hverS, _ha32, smp, hsrepr, hskeys⟩
    have hagree := close_chg_storage_agree hinv tF hvF hdF hreprF a st hcache
    have hnd : ((aExtend (mergedIns [] ws.storage_trie_map)
        tF.trie.storage.inserts).map Prod.fst).Nodup :=
      aExtend_nodup _ _ (mergedIns_nodup _ [] List.nodup_nil)
    have hb := live_after_apply sCodecOk hsrepr
      ⟨aExtend (mergedIns [] ws.storage_trie_map) tF.trie.storage.inserts,
       sUnion (mergedDels [] ws.storage_trie_map) tF.trie.storage.deletes,
       tF.trie.root_hash⟩ hnd (fun pk hpk => hagree.1 pk hpk)
      (fun pk hpk => hagree.2 pk hpk)
    rw [KIDB.build_key_physKey, hverS, hdomS] at hb
    have hroot : st.trie.root_hash = sCodec.hash (sCodec.enc smp) := hsrepr.root
    refine ⟨smp, hsrepr, hskeys, hroot, ?_⟩
    have := mptRepr_reopen sCodec sCodecOk ver a
      (applyChanges backend
        ⟨aExtend (mergedIns [] ws.storage_trie_map) tF.trie.storage.inserts,
         sUnion (mergedDels [] ws.storage_trie_map) tF.trie.storage.deletes,
         tF.trie.root_hash⟩)
      smp hsrepr.mpNoDup (by rw [← hroot]; exact hb)
    rw [← hroot] at this
    exact this

/-- Reading the StorageHash field of an accounts trie that represents the
write-back content, at an address whose trie was cached: the cached trie's
root. -/
theorem reopened_sh_cached {ver : Version} {t : AccountsTrie}
    {backend2 : List (PKey × PKey)} {amp : AKV}
    {entries : List (Bytes × StorageTrie)}
    (hrepr : MptRepr aCodec t.trie backend2 (writeSH ver amp entries))
    (hver : t.ver = ver) {a : Bytes} {st : StorageTrie}
    (hmem : (a, st) ∈ entries) (hnd : (entries.map Prod.fst).Nodup) {smp : SKV}
    (hroot : st.trie.root_hash = sHash (sEncode smp)) :
    t.storage_hash backend2 a = .ok (some st.trie.root_hash) := by
  have h := at_storage_hash_eq hrepr a
  simp only [hver] at h
  rw [h, writeSH_at ver entries amp a st hmem hnd]
  simp [AVal.asRoot, hroot, hashOfSRoot_srootOfHash]

/-- Reading the StorageHash field of an accounts trie that represents the
write-back content, at an address with no cached trie and no recorded hash:
none. -/
theorem reopened_sh_none {ver : Version} {t : AccountsTrie}
    {backend2 : List (PKey × PKey)} {amp : AKV}
    {entries : List (Bytes × StorageTrie)}
    (hrepr : MptRepr aCodec t.trie backend2 (writeSH ver amp entries))
    (hver : t.ver = ver) {a : Bytes} (hout : a ∉ entries.map Prod.fst)
    (hamp : aGet amp (TrieKey.account_key ver a .StorageHash) = none) :
    t.storage_hash backend2 a = .ok none := by
  have h := at_storage_hash_eq hrepr a
  simp only [hver] at h
  rw [h, writeSH_outside ver entries amp a hout, hamp]
  rfl

/-- After `close`, every read of the reopened state (over the applied batch)
equals the session's pre-close read — for the four plain account fields and
for every storage key of every address. -/
theorem close_reopen_reads {ver : Version} {ws : WorldState}
    {backend : List (PKey × PKey)} {amp : AKV} (hinv : WSInv ver ws backend amp)
    {chg : WorldStateChanges} {ws2 : WorldState}
    (hclose : ws.close backend = .ok (chg, ws2)) (a : Bytes) :
    ((WorldState.wopen ver chg.new_root_hash).accounts_trie.nonce
        (applyChanges backend chg) a = ws.accounts_trie.nonce backend a) ∧
    ((WorldState.wopen ver chg.new_root_hash).accounts_trie.balance
        (applyChanges backend chg) a = ws.accounts_trie.balance backend a) ∧
    ((WorldState.wopen ver chg.new_root_hash).accounts_trie.code
        (applyChanges backend chg) a = ws.accounts_trie.code backend a) ∧
    ((WorldState.wopen ver chg.new_root_hash).accounts_trie.cbi_version
        (applyChanges backend chg) a = ws.accounts_trie.cbi_version backend a) ∧
    (∀ k, (WorldState.wopen ver chg.new_root_hash).readStorage
        (applyChanges backend chg) a k = ws.readStorage backend a k) := by
  rcases ws_close_spec hinv with
    ⟨tF, chg2, ws22, hfold, hclose2, hmap, hins, hdels, hroot, hreprF, hreopA, hreopS⟩
  obtain ⟨h1, h2⟩ : chg = chg2 ∧ ws2 = ws22 := by
    have h := hclose2.symm.trans hclose
    simp only [Except.ok.injEq, Prod.mk.injEq] at h
    exact ⟨h.1.symm, h.2.symm⟩
  subst h1
  subst h2
  have hv1 : ws.accounts_trie.ver = ver := hinv.hver
  have hv3 : (WorldState.wopen ver chg.new_root_hash).accounts_trie.ver = ver := rfl
  refine ⟨?_, ?_, ?_, ?_, ?_⟩
  · have hpost := @at_nonce_eq (WorldState.wopen ver chg.new_root_hash).accounts_trie
      (applyChanges backend chg) (writeSH ver amp ws.storage_trie_map) hreopA a
    have hpre := @at_nonce_eq ws.accounts_trie backend amp hinv.accRepr a
    simp only [hv1] at hpre
    simp only [hv3] at hpost
    rw [hpost, hpre, writeSH_ne ver ws.storage_trie_map amp a .Nonce
      (fun hx => AccountField.noConfusion hx)]
  · have hpost := @at_balance_eq (WorldState.wopen ver chg.new_root_hash).accounts_trie
      (applyChanges backend chg) (writeSH ver amp ws.storage_trie_map) hreopA a
    have hpre := @at_balance_eq ws.accounts_trie backend amp hinv.accRepr a
    simp only [hv1] at hpre
    simp only [hv3] at hpost
    rw [hpost, hpre, writeSH_ne ver ws.storage_trie_map amp a .Balance
      (fun hx => AccountField.noConfusion hx)]
  · have hpost := @at_code_eq (WorldState.wopen ver chg.new_root_hash).accounts_trie
      (applyChanges backend chg) (writeSH ver amp ws.storage_trie_map) hreopA a
    have hpre := @at_code_eq ws.accounts_trie backend amp hinv.accRepr a
    simp only [hv1] at hpre
    simp only [hv3] at hpost
    rw [hpost, hpre, writeSH_ne ver ws.storage_trie_map amp a .ContractCode
      (fun hx => AccountField.noConfusion hx)]
  · have hpost := @at_cbi_eq (WorldState.wopen ver chg.new_root_hash).accounts_trie
      (applyChanges backend chg) (writeSH ver amp ws.storage_trie_map) hreopA a
    have hpre := @at_cbi_eq ws.accounts_trie backend amp hinv.accRepr a
    simp only [hv1] at hpre
    simp only [hv3] at hpost
    rw [hpost, hpre, writeSH_ne ver ws.storage_trie_map amp a .CbiVersion
      (fun hx => AccountField.noConfusion hx)]
  · intro k
    cases hcache : aGet ws.storage_trie_map a with
    | some st =>
      rcases hreopS a st hcache with ⟨smp, hsrepr, hskeys, hrootS, hreop⟩
      rcases hinv.stOk a st hcache with ⟨hdomS, hverS, ha32, smp2, hsrepr2, _⟩
      have hsh : (WorldState.wopen ver chg.new_root_hash).accounts_trie.storage_hash
          (applyChanges backend chg) a = .ok (some st.trie.root_hash) :=
        reopened_sh_cached hreopA rfl (aGet_mem hcache) hinv.mapNoDup hrootS
      have hpost : (WorldState.wopen ver chg.new_root_hash).readStorage
          (applyChanges backend chg) a k
          = (StorageTrie.sopen ver st.trie.root_hash a).get
              (applyChanges backend chg) k := by
        show (match (WorldState.wopen ver chg.new_root_hash).accounts_trie.storage_hash
            (applyChanges backend chg) a with
          | Except.error e => Except.error e
          | Except.ok (some hh) =>
            (StorageTrie.sopen ver hh a).get (applyChanges backend chg) k
          | Except.ok none =>
            (StorageTrie.init ver a).get (applyChanges backend chg) k) = _
        rw [hsh]
      have hpre : ws.readStorage backend a k = st.get backend k := by
        show (match aGet ws.storage_trie_map a with
          | some st2 => st2.get backend k
          | none =>
            match ws.accounts_trie.storage_hash backend a with
            | Except.error e => Except.error e
            | Except.ok (some hh) => (StorageTrie.sopen ws.ver hh a).get backend k
            | Except.ok none => (StorageTrie.init ws.ver a).get backend k) = _
        rw [hcache]
      rw [hpost, hpre,
        @st_get_eq (StorageTrie.sopen ver st.trie.root_hash a)
          (applyChanges backend chg) smp hreop k,
        @st_get_eq st backend smp hsrepr k,
        show (StorageTrie.sopen ver st.trie.root_hash a).ver = ver from rfl,
        show st.ver = ver from hverS]
    | none =>
      have hampSH : aGet amp (TrieKey.account_key ver a .StorageHash) = none := by
        cases hv : aGet amp (TrieKey.account_key ver a .StorageHash) with
        | none => rfl
        | some v =>
          rcases hinv.shLink a v hv with ⟨stx, hstx⟩
          rw [hcache] at hstx
          exact Option.noConfusion hstx
      have hout : a ∉ ws.storage_trie_map.map Prod.fst := by
        intro hmem
        rcases mem_keys_aGet hmem with ⟨v, hv⟩
        rw [hcache] at hv
        exact Option.noConfusion hv
      have hshpost : (WorldState.wopen ver chg.new_root_hash).accounts_trie.storage_hash
          (applyChanges backend chg) a = .ok none :=
        reopened_sh_none hreopA rfl hout hampSH
      have hshpre := @reopened_sh_none ver ws.accounts_trie backend amp []
        hinv.accRepr hv1 a (by simp) hampSH
      have hpost : (WorldState.wopen ver chg.new_root_hash).readStorage
          (applyChanges backend chg) a k
          = (StorageTrie.init ver a).get (applyChanges backend chg) k := by
        show (match (WorldState.wopen ver chg.new_root_hash).accounts_trie.storage_hash
            (applyChanges backend chg) a with
          | Except.error e => Except.error e
          | Except.ok (some hh) =>
            (StorageTrie.sopen ver hh a).get (applyChanges backend chg) k
          | Except.ok none =>
            (StorageTrie.init ver a).get (applyChanges backend chg) k) = _
        rw [hshpost]
      have hpre : ws.readStorage backend a k
          = (StorageTrie.init ws.ver a).get backend k := by
        show (match aGet ws.storage_trie_map a with
          | some st2 => st2.get backend k
          | none =>
            match ws.accounts_trie.storage_hash backend a with
            | Except.error e => Except.error e
            | Except.ok (some hh) => (StorageTrie.sopen ws.ver hh a).get backend k
            | Except.ok none => (StorageTrie.init ws.ver a).get backend k) = _
        simp only [hcache, hshpre]
      rw [hpost, hpre, show ws.ver = ver from hinv.hver,
        @st_get_eq (StorageTrie.init ver a) (applyChanges backend chg) []
          (mptRepr_init sCodec sCodecOk ver a (applyChanges backend chg)) k,
        @st_get_eq (StorageTrie.init ver a) backend []
          (mptRepr_init sCodec sCodecOk ver a backend) k]

/- ### Claim C1: the close/reopen round trip -/

/-- C1 (amended).  For every session state satisfying the invariant, applying
the batch returned by `close` (inserts first, then deletes) to the backend
and reopening at `new_root_hash` preserves every `nonce`, `balance`, `code`
and `cbi_version` read and every storage read of every address.  The claim's
"every account field" is amended to exclude the StorageHash field itself: the
pre-close session reads the *stale* storage hash (the write-back happens only
inside `close`), so that one field can change across close/reopen (see the
counterexample). -/
theorem c1_close_reopen_round_trip {ver : Version} {ws : WorldState}
    {backend : List (PKey × PKey)} {amp : AKV} (hinv : WSInv ver ws backend amp)
    {chg : WorldStateChanges} {ws2 : WorldState}
    (hclose : ws.close backend = .ok (chg, ws2)) (a : Bytes) :
    ((WorldState.wopen ver chg.new_root_hash).accounts_trie.nonce
        (applyChanges backend chg) a = ws.accounts_trie.nonce backend a) ∧
    ((WorldState.wopen ver chg.new_root_hash).accounts_trie.balance
        (applyChanges backend chg) a = ws.accounts_trie.balance backend a) ∧
    ((WorldState.wopen ver chg.new_root_hash).accounts_trie.code
        (applyChanges backend chg) a = ws.accounts_trie.code backend a) ∧
    ((WorldState.wopen ver chg.new_root_hash).accounts_trie.cbi_version
        (applyChanges backend chg) a = ws.accounts_trie.cbi_version backend a) ∧
    (∀ k, (WorldState.wopen ver chg.new_root_hash).readStorage
        (applyChanges backend chg) a k = ws.readStorage backend a k) :=
  close_reopen_reads hinv hclose a

/-- Auxiliary: the session of the C1 counterexample — one storage write from
genesis. -/
def c1xRun : Except WorldStateError WorldState :=
  WorldState.runWs [] (WorldState.init .V1)
    [WsOp.stSet (List.replicate 32 0) [5] [7]]

/-- Auxiliary: the session state of the C1 counterexample. -/
def c1xWs1 : WorldState :=
  match c1xRun with
  | .ok ws => ws
  | .error _ => WorldState.init .V1

/-- Auxiliary: the close result of the C1 counterexample. -/
def c1xClose : Except WorldStateError (WorldStateChanges × WorldState) :=
  c1xWs1.close []

/-- Auxiliary: the batch of the C1 counterexample. -/
def c1xChg : WorldStateChanges :=
  match c1xClose with
  | .ok (chg, _) => chg
  | .error _ => ⟨[], [], []⟩

/-- Auxiliary: the sealed state of the C1 counterexample. -/
def c1xWs2 : WorldState :=
  match c1xClose with
  | .ok (_, ws2) => ws2
  | .error _ => WorldState.init .V1

/-- C1, counterexample to the claim as stated: after a session consisting of
one storage write, the pre-close `storage_hash` read returns the stale empty
root while the reopened state returns the real storage root — so not *every*
account-field read is preserved by the close/apply/reopen round trip. -/
theorem c1_storage_hash_read_changes_counterexample :
    c1xRun = .ok c1xWs1 ∧
    c1xWs1.close [] = .ok (c1xChg, c1xWs2) ∧
    c1xWs1.accounts_trie.storage_hash [] (List.replicate 32 0)
      = .ok (some [PByte.sd SRoot.empty]) ∧
    (WorldState.wopen .V1 c1xChg.new_root_hash).accounts_trie.storage_hash
        (applyChanges [] c1xChg) (List.replicate 32 0)
      = .ok (some [PByte.sd (SRoot.node [([0, 5], [7])])]) ∧
    ([PByte.sd SRoot.empty] : PKey) ≠ [PByte.sd (SRoot.node [([0, 5], [7])])] := by
  refine ⟨rfl, rfl, rfl, rfl, ?_⟩
  decide

/-- Auxiliary: the batch of the C1 witness (genesis sealed). -/
def c1wChg : WorldStateChanges :=
  match (WorldState.init .V1).close [] with
  | .ok (chg, _) => chg
  | .error _ => ⟨[], [], []⟩

/-- Auxiliary: the sealed state of the C1 witness. -/
def c1wWs2 : WorldState :=
  match (WorldState.init .V1).close [] with
  | .ok (_, ws2) => ws2
  | .error _ => WorldState.init .V1

/-- C1 witness: the genesis session sealed over the empty backend; the
round-trip equalities hold at a concrete address. -/
theorem c1_close_reopen_round_trip_witness :
    WSInv .V1 (WorldState.init .V1) [] [] ∧
    (WorldState.init .V1).close [] = .ok (c1wChg, c1wWs2) ∧
    (((WorldState.wopen .V1 c1wChg.new_root_hash).accounts_trie.nonce
        (applyChanges [] c1wChg) (List.replicate 32 1)
        = (WorldState.init .V1).accounts_trie.nonce [] (List.replicate 32 1)) ∧
     ((WorldState.wopen .V1 c1wChg.new_root_hash).accounts_trie.balance
        (applyChanges [] c1wChg) (List.replicate 32 1)
        = (WorldState.init .V1).accounts_trie.balance [] (List.replicate 32 1)) ∧
     ((WorldState.wopen .V1 c1wChg.new_root_hash).accounts_trie.code
        (applyChanges [] c1wChg) (List.replicate 32 1)
        = (WorldState.init .V1).accounts_trie.code [] (List.replicate 32 1)) ∧
     ((WorldState.wopen .V1 c1wChg.new_root_hash).accounts_trie.cbi_version
        (applyChanges [] c1wChg) (List.replicate 32 1)
        = (WorldState.init .V1).accounts_trie.cbi_version [] (List.replicate 32 1)) ∧
     (∀ k, (WorldState.wopen .V1 c1wChg.new_root_hash).readStorage
        (applyChanges [] c1wChg) (List.replicate 32 1) k
        = (WorldState.init .V1).readStorage [] (List.replicate 32 1) k)) :=
  ⟨wsInv_init .V1 [], rfl,
    c1_close_reopen_round_trip (wsInv_init .V1 [])
      (show (WorldState.init .V1).close [] = .ok (c1wChg, c1wWs2) from rfl)
      (List.replicate 32 1)⟩

/- ### Claim C2: close writes the storage roots back -/

/-- C2.  `close` seals every cached storage trie first and writes its new
root into the accounts trie under `(address, StorageHash)` before sealing the
accounts trie: after `close`, the reopened accounts trie's storage-hash field
of every cached address equals that cached trie's root, and the returned
batch is the merged storage-trie buffers extended by the accounts-trie
buffers, with `new_root_hash` the accounts trie's root. -/
theorem c2_close_storage_roots {ver : Version} {ws : WorldState}
    {backend : List (PKey × PKey)} {amp : AKV} (hinv : WSInv ver ws backend amp)
    {chg : WorldStateChanges} {ws2 : WorldState}
    (hclose : ws.close backend = .ok (chg, ws2)) :
    (∀ a st, aGet ws2.storage_trie_map a = some st →
      (WorldState.wopen ver chg.new_root_hash).accounts_trie.storage_hash
        (applyChanges backend chg) a = .ok (some st.root_hash)) ∧
    (∃ tF : AccountsTrie,
      foldClose backend ws.storage_trie_map ([], [], ws.accounts_trie)
        = .ok (mergedIns [] ws.storage_trie_map,
               mergedDels [] ws.storage_trie_map, tF) ∧
      chg.inserts = aExtend (mergedIns [] ws.storage_trie_map)
          tF.trie.storage.inserts ∧
      chg.deletes = sUnion (mergedDels [] ws.storage_trie_map)
          tF.trie.storage.deletes ∧
      chg.new_root_hash = tF.trie.root_hash) := by
  rcases ws_close_spec hinv with
    ⟨tF, chg2, ws22, hfold, hclose2, hmap, hins, hdels, hroot, hreprF, hreopA, hreopS⟩
  obtain ⟨h1, h2⟩ : chg = chg2 ∧ ws2 = ws22 := by
    have h := hclose2.symm.trans hclose
    simp only [Except.ok.injEq, Prod.mk.injEq] at h
    exact ⟨h.1.symm, h.2.symm⟩
  subst h1
  subst h2
  constructor
  · intro a st hx
    rw [hmap] at hx
    rcases hreopS a st hx with ⟨smp, hsrepr, hskeys, hrootS, hreop⟩
    exact reopened_sh_cached hreopA rfl (aGet_mem hx) hinv.mapNoDup hrootS
  · exact ⟨tF, hfold, hins, hdels, hroot⟩

/-- Auxiliary: the session of the C2 witness — one storage write from V2
genesis. -/
def c2xWs1 : WorldState :=
  match WorldState.runWs [] (WorldState.init .V2)
      [WsOp.stSet (List.replicate 32 2) [9] [4]] with
  | .ok ws => ws
  | .error _ => WorldState.init .V2

/-- Auxiliary: the batch of the C2 witness. -/
def c2xChg : WorldStateChanges :=
  match c2xWs1.close [] with
  | .ok (chg, _) => chg
  | .error _ => ⟨[], [], []⟩

/-- Auxiliary: the sealed state of the C2 witness. -/
def c2xWs2 : WorldState :=
  match c2xWs1.close [] with
  | .ok (_, ws2) => ws2
  | .error _ => WorldState.init .V2

/-- C2 witness: a V2 session with one cached storage trie, sealed over the
empty backend. -/
theorem c2_close_storage_roots_witness :
    (∃ amp, WSInv .V2 c2xWs1 [] amp) ∧
    c2xWs1.close [] = .ok (c2xChg, c2xWs2) ∧
    ((∀ a st, aGet c2xWs2.storage_trie_map a = some st →
      (WorldState.wopen .V2 c2xChg.new_root_hash).accounts_trie.storage_hash
        (applyChanges [] c2xChg) a = .ok (some st.root_hash)) ∧
     (∃ tF : AccountsTrie,
      foldClose [] c2xWs1.storage_trie_map ([], [], c2xWs1.accounts_trie)
        = .ok (mergedIns [] c2xWs1.storage_trie_map,
               mergedDels [] c2xWs1.storage_trie_map, tF) ∧
      c2xChg.inserts = aExtend (mergedIns [] c2xWs1.storage_trie_map)
          tF.trie.storage.inserts ∧
      c2xChg.deletes = sUnion (mergedDels [] c2xWs1.storage_trie_map)
          tF.trie.storage.deletes ∧
      c2xChg.new_root_hash = tF.trie.root_hash)) := by
  have hrun : WorldState.runWs [] (WorldState.init .V2)
      [WsOp.stSet (List.replicate 32 2) [9] [4]] = .ok c2xWs1 := rfl
  have hwf : ∀ op ∈ [WsOp.stSet (List.replicate 32 2) [9] [4]],
      op.addr.length = 32 := by
    intro op hop
    rw [List.mem_singleton] at hop
    subst hop
    rfl
  rcases runWs_inv (wsInv_init .V2 []) hwf hrun with ⟨amp, hinv⟩
  exact ⟨⟨amp, hinv⟩, rfl, c2_close_storage_roots hinv
    (show c2xWs1.close [] = .ok (c2xChg, c2xWs2) from rfl)⟩

/- ### The V1→V2 upgrade pipeline (destroy / build) -/

theorem leBytes_length (w n : Nat) : (leBytes w n).length = w := by
  simp [leBytes]

theorem leBytes_succ (w n : Nat) :
    leBytes (w + 1) n = n % 256 :: leBytes w (n / 256) := by
  unfold leBytes
  rw [List.range_succ_eq_map, List.map_cons, List.map_map]
  refine congrArg₂ List.cons (by simp) ?_
  refine List.map_congr_left ?_
  intro i _
  simp [Function.comp, Nat.div_div_eq_div_mul, pow_succ, Nat.mul_comm]

theorem leDecode_leBytes (w n : Nat) :
    leDecode w (leBytes w n) = some (n % 256 ^ w) := by
  unfold leDecode
  rw [if_pos (leBytes_length w n)]
  refine congrArg some ?_
  induction w generalizing n with
  | zero =>
    show (0 : Nat) = n % 1
    exact (Nat.mod_one n).symm
  | succ w ih =>
    rw [leBytes_succ, List.foldr_cons, ih (n / 256)]
    rw [pow_succ, Nat.mul_comm (256 ^ w) 256, Nat.mod_mul]

theorem account_address_key (ver : Version) (a : Bytes) (f : AccountField)
    (ha : a.length = 32) :
    TrieKey.account_address (TrieKey.account_key ver a f) = .ok a := by
  unfold TrieKey.account_address TrieKey.account_key
  cases ver
  · rw [if_neg (by simp [ha]), ← ha, List.take_left]
  · rw [if_neg (by simp [ha]), ← ha, List.take_left]

theorem ofByte_toByte (f : AccountField) :
    AccountField.ofByte f.toByte = .ok f := by
  cases f <;> rfl

theorem account_field_key (ver : Version) (a : Bytes) (f : AccountField)
    (ha : a.length = 32) :
    TrieKey.account_field ver (TrieKey.account_key ver a f) = .ok f := by
  cases ver
  · show TrieKey.account_field .V1 (a ++ [1, f.toByte]) = .ok f
    simp only [TrieKey.account_field]
    rw [if_neg (by simp [ha])]
    rw [List.getD_append_right a [1, f.toByte] 0 33 (by rw [ha]; omega), ha]
    exact ofByte_toByte f
  · show TrieKey.account_field .V2 (a ++ [f.toByte]) = .ok f
    simp only [TrieKey.account_field]
    rw [if_neg (by simp [ha])]
    rw [List.getD_append_right a [f.toByte] 0 32 (by rw [ha]), ha]
    exact ofByte_toByte f

theorem aGet_append {κ α : Type} [DecidableEq κ] (l l' : List (κ × α)) (k : κ) :
    aGet (l ++ l') k =
      match aGet l k with
      | some v => some v
      | none => aGet l' k := by
  induction l with
  | nil => rfl
  | cons p rest ih =>
    rcases p with ⟨pk, pv⟩
    by_cases hp : pk = k <;> simp [aGet, hp, ih]

theorem aExtend_mem {κ α : Type} [DecidableEq κ] {m l : List (κ × α)}
    {e : κ × α} (h : e ∈ aExtend m l) : e ∈ l ∨ e ∈ m := by
  induction l generalizing m with
  | nil => exact Or.inr h
  | cons p rest ih =>
    have h2 : e ∈ aExtend (aPut m p.1 p.2) rest := h
    rcases ih h2 with h3 | h3
    · exact Or.inl (List.mem_cons_of_mem p h3)
    · rcases aPut_mem h3 with h4 | h4
      · exact Or.inl (by rw [h4]; exact List.mem_cons_self _ _)
      · exact Or.inr h4

theorem foldl_aDel_covering {κ α : Type} [DecidableEq κ] (ks : List κ)
    (m : List (κ × α)) (h : ∀ e ∈ m, e.1 ∈ ks) : ks.foldl aDel m = [] := by
  induction ks generalizing m with
  | nil =>
    cases m with
    | nil => rfl
    | cons e rest => exact absurd (h e (List.mem_cons_self e rest)) (by simp)
  | cons k rest ih =>
    show rest.foldl aDel (aDel m k) = []
    refine ih _ ?_
    intro e he
    have hm := List.mem_of_mem_filter he
    have hne : ¬ e.1 = k := by
      have := List.of_mem_filter he
      simpa using this
    rcases List.mem_cons.mp (h e hm) with h2 | h2
    · exact absurd h2 hne
    · exact h2

/-- Shape of the values the accounts-trie setters store under each field (the
reachable value shapes of a persisted state). -/
def fieldTyped : AccountField → AVal → Prop
  | .Nonce, v => ∃ n, v = .raw (leBytes 8 n)
  | .Balance, v => ∃ n, v = .raw (leBytes 8 n)
  | .ContractCode, v => ∃ bs, v = .raw bs
  | .CbiVersion, v => ∃ n, v = .raw (leBytes 4 n)
  | .StorageHash, v => ∃ r, v = .root r

/-- The single-field update `AccountsTrie::destroy` performs per visited
key (the decoded value, with the checked decode's success assumed). -/
def updField (f : AccountField) (v : AVal) (acc : Account) : Account :=
  match f with
  | .Nonce => { acc with nonce := (v.u64Checked).getD 0 }
  | .Balance => { acc with balance := (v.u64Checked).getD 0 }
  | .ContractCode => { acc with code := v.rawBytes }
  | .CbiVersion => { acc with cbi_version := (v.u32Checked).getD 0 }
  | .StorageHash => { acc with storage_hash := v.asRootOpt }

/-- The account record the destroy loop assembles for address `a` from the
accounts content `amp`. -/
def acctOf (ver : Version) (amp : AKV) (a : Bytes) : Account :=
  { nonce := ((aGet amp (TrieKey.account_key ver a .Nonce)).bind
      AVal.u64Checked).getD 0
    balance := ((aGet amp (TrieKey.account_key ver a .Balance)).bind
      AVal.u64Checked).getD 0
    code := ((aGet amp (TrieKey.account_key ver a .ContractCode)).map
      AVal.rawBytes).getD []
    cbi_version := ((aGet amp (TrieKey.account_key ver a .CbiVersion)).bind
      AVal.u32Checked).getD 0
    storage_hash := (aGet amp (TrieKey.account_key ver a .StorageHash)).bind
      AVal.asRootOpt
    storages := [] }

theorem acctOf_none (ver : Version) (amp : AKV) (a : Bytes)
    (h : ∀ f, aGet amp (TrieKey.account_key ver a f) = none) :
    acctOf ver amp a = Account.default := by
  unfold acctOf Account.default
  rw [h .Nonce, h .Balance, h .ContractCode, h .CbiVersion, h .StorageHash]
  rfl

/-- One destroy step at a well-formed, well-typed key: parse, decode, upsert. -/
theorem destroyStep_eq (ver : Version) (dm : List (Bytes × Account))
    (a0 : Bytes) (f0 : AccountField) (v : AVal) (ha : a0.length = 32)
    (hty : fieldTyped f0 v) :
    destroyStep ver dm (TrieKey.account_key ver a0 f0, v)
      = .ok (aPut dm a0 (updField f0 v ((aGet dm a0).getD Account.default))) := by
  unfold destroyStep
  simp only [account_address_key ver a0 f0 ha, account_field_key ver a0 f0 ha]
  cases f0 with
  | Nonce =>
    rcases hty with ⟨n, rfl⟩
    simp [AVal.u64Checked, leDecode_leBytes, updField]
  | Balance =>
    rcases hty with ⟨n, rfl⟩
    simp [AVal.u64Checked, leDecode_leBytes, updField]
  | ContractCode =>
    rcases hty with ⟨bs, rfl⟩
    simp [updField]
  | CbiVersion =>
    rcases hty with ⟨n, rfl⟩
    simp [AVal.u32Checked, leDecode_leBytes, updField]
  | StorageHash =>
    rcases hty with ⟨r, rfl⟩
    simp [updField]

theorem acctOf_append (ver : Version) (amp : AKV) (a0 : Bytes)
    (f0 : AccountField) (v : AVal)
    (hnone : aGet amp (TrieKey.account_key ver a0 f0) = none) :
    acctOf ver (amp ++ [(TrieKey.account_key ver a0 f0, v)]) a0
      = updField f0 v (acctOf ver amp a0) := by
  have hlook : ∀ g : AccountField,
      aGet (amp ++ [(TrieKey.account_key ver a0 f0, v)])
        (TrieKey.account_key ver a0 g)
      = if f0 = g then some v
        else aGet amp (TrieKey.account_key ver a0 g) := by
    intro g
    rw [aGet_append]
    by_cases hg : f0 = g
    · subst hg
      rw [hnone, if_pos rfl]
      show aGet [(TrieKey.account_key ver a0 f0, v)] (TrieKey.account_key ver a0 f0)
        = some v
      simp [aGet]
    · rw [if_neg hg]
      cases hp : aGet amp (TrieKey.account_key ver a0 g) with
      | some w => rfl
      | none =>
        show aGet [(TrieKey.account_key ver a0 f0, v)] (TrieKey.account_key ver a0 g)
          = none
        have hne : ¬ TrieKey.account_key ver a0 f0 = TrieKey.account_key ver a0 g :=
          fun hx => hg (account_key_inj ver a0 a0 f0 g hx).2
        simp [aGet, hne]
  cases f0 <;>
    simp only [acctOf, updField, hlook] <;>
    simp

theorem acctOf_append_other (ver : Version) (amp : AKV) (a a0 : Bytes)
    (f0 : AccountField) (v : AVal) (hne : a ≠ a0) :
    acctOf ver (amp ++ [(TrieKey.account_key ver a0 f0, v)]) a
      = acctOf ver amp a := by
  have hlook : ∀ g : AccountField,
      aGet (amp ++ [(TrieKey.account_key ver a0 f0, v)])
        (TrieKey.account_key ver a g)
      = aGet amp (TrieKey.account_key ver a g) := by
    intro g
    rw [aGet_append]
    cases hp : aGet amp (TrieKey.account_key ver a g) with
    | some w => rfl
    | none =>
      have hnek : ¬ TrieKey.account_key ver a0 f0 = TrieKey.account_key ver a g :=
        fun hx => hne (account_key_inj ver a0 a f0 g hx).1.symm
      simp [aGet, hnek]
  simp only [acctOf, hlook]

/-- The destroy iteration: over well-formed, well-typed, duplicate-free
content it succeeds and assembles exactly the per-address account records. -/
theorem foldDestroy_go (ver : Version) (rest : AKV) :
    ∀ (processed : AKV) (dm : List (Bytes × Account)),
    (∀ e ∈ rest, ∃ a f, a.length = 32 ∧
      e.1 = TrieKey.account_key ver a f ∧ fieldTyped f e.2) →
    (∀ e ∈ rest, e.1 ∉ processed.map Prod.fst) →
    ((rest.map Prod.fst)).Nodup →
    (∀ a acct, aGet dm a = some acct → acct = acctOf ver processed a) →
    (∀ a, aGet dm a = none →
      ∀ f, aGet processed (TrieKey.account_key ver a f) = none) →
    (∀ a f v, aGet processed (TrieKey.account_key ver a f) = some v →
      ∃ acct, aGet dm a = some acct) →
    (∀ e ∈ dm, e.1.length = 32) →
    ((dm.map Prod.fst)).Nodup →
    ∃ dmF, foldDestroy ver rest dm = .ok dmF ∧
      (∀ a acct, aGet dmF a = some acct → acct = acctOf ver (processed ++ rest) a) ∧
      (∀ a, aGet dmF a = none →
        ∀ f, aGet (processed ++ rest) (TrieKey.account_key ver a f) = none) ∧
      (∀ a f v, aGet (processed ++ rest) (TrieKey.account_key ver a f) = some v →
        ∃ acct, aGet dmF a = some acct) ∧
      (∀ e ∈ dmF, e.1.length = 32) ∧ ((dmF.map Prod.fst)).Nodup := by
  induction rest with
  | nil =>
    intro processed dm _ _ _ I1a I1b I1c I2 I3
    exact ⟨dm, rfl, by simpa using I1a, by simpa using I1b, by simpa using I1c,
      I2, I3⟩
  | cons e rest' ih =>
    intro processed dm hkeys hnew hndr I1a I1b I1c I2 I3
    rcases hkeys e (List.mem_cons_self e rest') with ⟨a0, f0, ha0, hkey, hty⟩
    have he : e = (TrieKey.account_key ver a0 f0, e.2) := by
      rcases e with ⟨k, v⟩
      rw [Prod.mk.injEq]
      exact ⟨hkey, rfl⟩
    have hnone0 : aGet processed (TrieKey.account_key ver a0 f0) = none := by
      cases hx : aGet processed (TrieKey.account_key ver a0 f0) with
      | none => rfl
      | some w =>
        exfalso
        have := aGet_mem_keys processed _ _ hx
        rw [← hkey] at this
        exact hnew e (List.mem_cons_self e rest') this
    have hacc : (aGet dm a0).getD Account.default = acctOf ver processed a0 := by
      cases hdm : aGet dm a0 with
      | some acct => exact I1a a0 acct hdm
      | none => exact (acctOf_none ver processed a0 (I1b a0 hdm)).symm
    have hstep := destroyStep_eq ver dm a0 f0 e.2 ha0 hty
    have hrun : foldDestroy ver (e :: rest') dm
        = foldDestroy ver rest'
            (aPut dm a0 (updField f0 e.2 ((aGet dm a0).getD Account.default))) := by
      show (match destroyStep ver dm e with
        | Except.error er => Except.error er
        | Except.ok dm2 => foldDestroy ver rest' dm2) = _
      rw [he, hstep]
    rw [hacc] at hrun
    -- the invariants for the extended processed list
    have hget2 : ∀ a, aGet (aPut dm a0 (updField f0 e.2 (acctOf ver processed a0))) a
        = if a0 = a then some (updField f0 e.2 (acctOf ver processed a0))
          else aGet dm a := fun a => aGet_aPut dm a0 a _
    have hproc2 : ∀ a g, aGet (processed ++ [(TrieKey.account_key ver a0 f0, e.2)])
        (TrieKey.account_key ver a g)
        = if TrieKey.account_key ver a0 f0 = TrieKey.account_key ver a g
          then match aGet processed (TrieKey.account_key ver a g) with
            | some w => some w
            | none => some e.2
          else aGet processed (TrieKey.account_key ver a g) := by
      intro a g
      rw [aGet_append]
      by_cases hx : TrieKey.account_key ver a0 f0 = TrieKey.account_key ver a g
      · rw [if_pos hx]
        cases hp : aGet processed (TrieKey.account_key ver a g) with
        | some w => rfl
        | none => simp [aGet, hx]
      · rw [if_neg hx]
        cases hp : aGet processed (TrieKey.account_key ver a g) with
        | some w => rfl
        | none => simp [aGet, hx]
    have hnew2 : ∀ e2 ∈ rest',
        e2.1 ∉ (processed ++ [(TrieKey.account_key ver a0 f0, e.2)]).map Prod.fst := by
      intro e2 h2
      rw [List.map_append]
      intro hmem
      rcases List.mem_append.mp hmem with hmem | hmem
      · exact hnew e2 (List.mem_cons_of_mem e h2) hmem
      · have hm2 : e2.1 = TrieKey.account_key ver a0 f0 := by simpa using hmem
        have hne : e.1 ∉ rest'.map Prod.fst := (List.nodup_cons.mp hndr).1
        rw [← hkey] at hm2
        exact hne (hm2 ▸ List.mem_map.mpr ⟨e2, h2, rfl⟩)
    have hI1a2 : ∀ a acct,
        aGet (aPut dm a0 (updField f0 e.2 (acctOf ver processed a0))) a = some acct →
        acct = acctOf ver (processed ++ [(TrieKey.account_key ver a0 f0, e.2)]) a := by
      intro a acct hx
      rw [hget2] at hx
      by_cases ha : a0 = a
      · rw [if_pos ha] at hx
        cases hx
        subst ha
        rw [acctOf_append ver processed a0 f0 e.2 hnone0]
      · rw [if_neg ha] at hx
        rw [acctOf_append_other ver processed a a0 f0 e.2 (fun hx2 => ha hx2.symm)]
        exact I1a a acct hx
    have hI1b2 : ∀ a,
        aGet (aPut dm a0 (updField f0 e.2 (acctOf ver processed a0))) a = none →
        ∀ g, aGet (processed ++ [(TrieKey.account_key ver a0 f0, e.2)])
          (TrieKey.account_key ver a g) = none := by
      intro a hx g
      rw [hget2] at hx
      by_cases ha : a0 = a
      · rw [if_pos ha] at hx
        exact Option.noConfusion hx
      · rw [if_neg ha] at hx
        rw [hproc2, if_neg (fun hx2 => ha (account_key_inj ver a0 a f0 g hx2).1)]
        exact I1b a hx g
    have hI1c2 : ∀ a g v,
        aGet (processed ++ [(TrieKey.account_key ver a0 f0, e.2)])
          (TrieKey.account_key ver a g) = some v →
        ∃ acct, aGet (aPut dm a0 (updField f0 e.2 (acctOf ver processed a0))) a
          = some acct := by
      intro a g v hx
      rw [hproc2] at hx
      by_cases ha : a0 = a
      · exact ⟨_, by rw [hget2, if_pos ha]⟩
      · rw [if_neg (fun hx2 => ha (account_key_inj ver a0 a f0 g hx2).1)] at hx
        rcases I1c a g v hx with ⟨acct, hacct⟩
        exact ⟨acct, by rw [hget2, if_neg ha]; exact hacct⟩
    have hI22 : ∀ e2 ∈ aPut dm a0 (updField f0 e.2 (acctOf ver processed a0)),
        e2.1.length = 32 := by
      intro e2 h2
      rcases aPut_mem h2 with h3 | h3
      · rw [h3]
        exact ha0
      · exact I2 e2 h3
    rcases ih (processed ++ [(TrieKey.account_key ver a0 f0, e.2)])
        (aPut dm a0 (updField f0 e.2 (acctOf ver processed a0)))
        (fun e2 h2 => hkeys e2 (List.mem_cons_of_mem e h2))
        hnew2 (List.nodup_cons.mp hndr).2 hI1a2 hI1b2 hI1c2 hI22
        (aPut_nodup dm a0 _ I3) with ⟨dmF, hrunF, J1a, J1b, J1c, J2, J3⟩
    refine ⟨dmF, ?_, ?_, ?_, ?_, J2, J3⟩
    · rw [hrun]
      exact hrunF
    · intro a acct hx
      have hJ := J1a a acct hx
      rw [hJ, he]
      rw [show processed ++ (TrieKey.account_key ver a0 f0, e.2) :: rest'
        = (processed ++ [(TrieKey.account_key ver a0 f0, e.2)]) ++ rest' by
          simp]
    · intro a hx g
      have hJ := J1b a hx g
      rw [he]
      rw [show processed ++ (TrieKey.account_key ver a0 f0, e.2) :: rest'
        = (processed ++ [(TrieKey.account_key ver a0 f0, e.2)]) ++ rest' by
          simp]
      exact hJ
    · intro a g v hx
      rw [he] at hx
      rw [show processed ++ (TrieKey.account_key ver a0 f0, e.2) :: rest'
        = (processed ++ [(TrieKey.account_key ver a0 f0, e.2)]) ++ rest' by
          simp] at hx
      exact J1c a g v hx

/-- `AccountsTrie::destroy` on a represented, well-formed trie: it succeeds
and returns exactly the per-address account records of the content. -/
theorem accounts_destroy_spec {ver : Version} {t : AccountsTrie}
    {backend : List (PKey × PKey)} {amp : AKV}
    (hrepr : MptRepr aCodec t.trie backend amp) (hver : t.ver = ver)
    (hkeys : ∀ e ∈ amp, ∃ a f, a.length = 32 ∧
      e.1 = TrieKey.account_key ver a f ∧ fieldTyped f e.2) :
    ∃ ins dels dm t2, t.destroy backend = .ok (⟨ins, dels, dm⟩, t2) ∧
      (∀ a acct, aGet dm a = some acct → acct = acctOf ver amp a) ∧
      (∀ a, aGet dm a = none →
        ∀ f, aGet amp (TrieKey.account_key ver a f) = none) ∧
      (∀ a f v, aGet amp (TrieKey.account_key ver a f) = some v →
        ∃ acct, aGet dm a = some acct) ∧
      (∀ e ∈ dm, e.1.length = 32) ∧ ((dm.map Prod.fst)).Nodup := by
  rcases foldDestroy_go ver amp [] [] hkeys (by simp) hrepr.mpNoDup
      (fun a acct hx => Option.noConfusion hx)
      (fun a _ f => rfl)
      (fun a f v hx => Option.noConfusion hx)
      (fun e he => absurd he (List.not_mem_nil e))
      List.nodup_nil with ⟨dm, hfold, J1a, J1b, J1c, J2, J3⟩
  rcases mpt_batch_remove_spec aCodecOk hrepr (amp.map (·.1)) with
    ⟨m1, hbr, hrepr1, hv1, hd1⟩
  have hcontent : (amp.map (·.1)).foldl aDel amp = [] :=
    foldl_aDel_covering _ _ (fun e he => List.mem_map.mpr ⟨e, he, rfl⟩)
  rw [hcontent] at hrepr1
  have hroot1 : m1.root_hash = aCodec.hash [PByte.b 0] := by
    have h := hrepr1.root
    rwa [aCodecOk.enc_null] at h
  have hdeinit : m1.deinit aCodec backend
      = .ok { m1 with storage := m1.storage.delete (aCodec.hash [PByte.b 0]) } := by
    unfold Mpt.deinit
    rw [if_neg (by simp [hroot1])]
    have hget : m1.hashdbGet backend m1.root_hash = some (aCodec.enc []) :=
      hrepr1.read
    rw [if_pos (by rw [hget]; rfl)]
  refine ⟨(m1.storage.delete (aCodec.hash [PByte.b 0])).inserts,
    (m1.storage.delete (aCodec.hash [PByte.b 0])).deletes, dm,
    ⟨{ m1 with storage :=
      { m1.storage.delete (aCodec.hash [PByte.b 0]) with
        inserts := [], deletes := [] } }⟩,
    ?_, J1a, J1b, J1c, J2, J3⟩
  simp only [AccountsTrie.destroy, hrepr.readMap_eq aCodecOk, hver, hfold, hbr,
    hdeinit]
  rfl

theorem aGet_strip_v1 (smp : SKV) (hkeys : ∀ p ∈ smp, ∃ k0, p.1 = 0 :: k0)
    (k : Bytes) :
    aGet (smp.map (fun p => (stripVis p.1, p.2))) k = aGet smp (0 :: k) := by
  induction smp with
  | nil => rfl
  | cons p rest ih =>
    rcases hkeys p (List.mem_cons_self p rest) with ⟨k0, hk⟩
    have hstrip : stripVis p.1 = k0 := by rw [hk]; rfl
    show (if stripVis p.1 = k then some p.2
      else aGet (rest.map (fun p => (stripVis p.1, p.2))) k) = _
    rw [hstrip, ih (fun q hq => hkeys q (List.mem_cons_of_mem p hq))]
    show _ = (if p.1 = 0 :: k then some p.2 else aGet rest (0 :: k))
    rw [hk]
    by_cases hkk : k0 = k
    · rw [if_pos hkk, if_pos (by rw [hkk])]
    · rw [if_neg hkk, if_neg (by intro hx; exact hkk (List.cons.injEq _ _ _ _ ▸ hx).2)]

theorem strip_nodup_v1 (smp : SKV) (hkeys : ∀ p ∈ smp, ∃ k0, p.1 = 0 :: k0)
    (hnd : (smp.map Prod.fst).Nodup) :
    ((smp.map (fun p => (stripVis p.1, p.2))).map Prod.fst).Nodup := by
  induction smp with
  | nil => exact List.nodup_nil
  | cons p rest ih =>
    rcases hkeys p (List.mem_cons_self p rest) with ⟨k0, hk⟩
    refine List.nodup_cons.mpr ⟨?_, ih (fun q hq => hkeys q (List.mem_cons_of_mem p hq))
      (List.nodup_cons.mp hnd).2⟩
    intro hmem
    rcases List.mem_map.mp hmem with ⟨q2, hq2, hq2e⟩
    rcases List.mem_map.mp hq2 with ⟨q, hq, hqe⟩
    rcases hkeys q (List.mem_cons_of_mem p hq) with ⟨k1, hk1⟩
    have : q.1 = p.1 := by
      rw [hk1, hk]
      have h1 : stripVis q.1 = stripVis p.1 := by rw [← hqe] at hq2e; exact hq2e
      rw [hk1, hk] at h1
      simpa [stripVis] using h1
    exact (List.nodup_cons.mp hnd).1 (this ▸ List.mem_map.mpr ⟨q, hq, rfl⟩)

/-- `StorageTrie::destroy` on a represented V1 trie: it succeeds and the
returned data map is the content with the visibility byte stripped. -/
theorem storage_destroy_spec {st : StorageTrie} {backend : List (PKey × PKey)}
    {smp : SKV} (hrepr : MptRepr sCodec st.trie backend smp)
    (hkeys : ∀ p ∈ smp, ∃ k0, p.1 = 0 :: k0) :
    ∃ ins dels st2, st.destroy backend
      = .ok (⟨ins, dels, smp.map (fun p => (stripVis p.1, p.2))⟩, st2) := by
  by_cases hempty : smp = []
  · subst hempty
    have hroot : st.trie.root_hash = sHash [PByte.b 0] := hrepr.root
    have hdeinit : st.trie.deinit sCodec backend
        = .ok { st.trie with
            storage := st.trie.storage.delete (sCodec.hash [PByte.b 0]) } := by
      unfold Mpt.deinit
      rw [if_neg (by simp [hroot]; rfl)]
      have hget : st.trie.hashdbGet backend st.trie.root_hash
          = some (sCodec.enc []) := hrepr.read
      rw [if_pos (by rw [hget]; rfl)]
    refine ⟨(st.trie.storage.delete (sCodec.hash [PByte.b 0])).inserts,
      (st.trie.storage.delete (sCodec.hash [PByte.b 0])).deletes,
      ⟨{ st.trie with storage :=
        { st.trie.storage.delete (sCodec.hash [PByte.b 0]) with
          inserts := [], deletes := [] } }⟩, ?_⟩
    simp only [StorageTrie.destroy, if_pos hroot, hdeinit]
    rfl
  · have hroot_ne : ¬ st.trie.root_hash = sHash [PByte.b 0] := by
      intro hx
      have h2 : sCodec.hash (sCodec.enc smp) = sCodec.hash (sCodec.enc []) := by
        rw [← hrepr.root, hx, sCodecOk.enc_null]
        rfl
      exact hempty (sCodecOk.hash_enc_inj smp [] h2)
    rcases mpt_batch_remove_spec sCodecOk hrepr (smp.map (·.1)) with
      ⟨m1, hbr, hrepr1, hv1, hd1⟩
    have hcontent : (smp.map (·.1)).foldl aDel smp = [] :=
      foldl_aDel_covering _ _ (fun e he => List.mem_map.mpr ⟨e, he, rfl⟩)
    rw [hcontent] at hrepr1
    have hroot1 : m1.root_hash = sCodec.hash [PByte.b 0] := by
      have h := hrepr1.root
      rwa [sCodecOk.enc_null] at h
    have hdeinit : m1.deinit sCodec backend
        = .ok { m1 with storage := m1.storage.delete (sCodec.hash [PByte.b 0]) } := by
      unfold Mpt.deinit
      rw [if_neg (by simp [hroot1])]
      have hget : m1.hashdbGet backend m1.root_hash = some (sCodec.enc []) :=
        hrepr1.read
      rw [if_pos (by rw [hget]; rfl)]
    refine ⟨(m1.storage.delete (sCodec.hash [PByte.b 0])).inserts,
      (m1.storage.delete (sCodec.hash [PByte.b 0])).deletes,
      ⟨{ m1 with storage :=
        { m1.storage.delete (sCodec.hash [PByte.b 0]) with
          inserts := [], deletes := [] } }⟩, ?_⟩
    simp only [StorageTrie.destroy, if_neg hroot_ne,
      hrepr.readMap_eq sCodecOk, hbr, hdeinit]
    rfl

/-- The account loop of `WorldState::destroy`: given each recorded storage
root resolves to a represented V1 trie, the loop succeeds and attaches to
every account its stripped storage map. -/
theorem foldWsDestroy_spec (backend : List (PKey × PKey)) (smpOf : Bytes → SKV)
    (dm : List (Bytes × Account)) :
    ∀ (acc : List (PKey × PKey) × List PKey × List (Bytes × Account)),
    (∀ e ∈ dm, ∀ r, e.2.storage_hash = some r →
      MptRepr sCodec (Mpt.mopen (KIDB.init .V1 e.1) (hashOfSRoot r)) backend
        (smpOf e.1) ∧
      (∀ p ∈ smpOf e.1, ∃ k0, p.1 = 0 :: k0)) →
    ∃ ins dels, foldWsDestroy .V1 backend dm acc
      = .ok (ins, dels, acc.2.2 ++ dm.map (fun e =>
          (e.1, match e.2.storage_hash with
            | none => e.2
            | some _ => e.2.set_storages
                ((smpOf e.1).map (fun p => (stripVis p.1, p.2)))))) := by
  induction dm with
  | nil =>
    intro acc _
    refine ⟨acc.1, acc.2.1, ?_⟩
    simp only [List.map_nil, List.append_nil]
    rfl
  | cons e rest ih =>
    intro acc hst
    have hstr : ∀ e2 ∈ rest, ∀ r, e2.2.storage_hash = some r →
        MptRepr sCodec (Mpt.mopen (KIDB.init .V1 e2.1) (hashOfSRoot r)) backend
          (smpOf e2.1) ∧
        (∀ p ∈ smpOf e2.1, ∃ k0, p.1 = 0 :: k0) :=
      fun e2 h2 => hst e2 (List.mem_cons_of_mem e h2)
    cases hsh : e.2.storage_hash with
    | none =>
      rcases ih (acc.1, acc.2.1, acc.2.2 ++ [e]) hstr with ⟨ins, dels, hrun⟩
      refine ⟨ins, dels, ?_⟩
      have hstep : wsDestroyStep .V1 backend acc e
          = .ok (acc.1, acc.2.1, acc.2.2 ++ [e]) := by
        unfold wsDestroyStep
        rw [hsh]
      show (match wsDestroyStep .V1 backend acc e with
        | Except.error er => Except.error er
        | Except.ok acc2 => foldWsDestroy .V1 backend rest acc2) = _
      simp only [hstep]
      rw [hrun]
      simp only [List.map_cons, hsh, List.append_assoc, List.singleton_append]
    | some r =>
      rcases hst e (List.mem_cons_self e rest) r hsh with ⟨hrepr, hkeys⟩
      rcases @storage_destroy_spec
          (StorageTrie.sopen .V1 (hashOfSRoot r) e.1) _ _ hrepr hkeys with
        ⟨ins1, dels1, st2, hdes⟩
      rcases ih (aExtend acc.1 ins1, sUnion acc.2.1 dels1,
          acc.2.2 ++ [(e.1, e.2.set_storages
            ((smpOf e.1).map (fun p => (stripVis p.1, p.2))))]) hstr with
        ⟨ins, dels, hrun⟩
      refine ⟨ins, dels, ?_⟩
      have hstep : wsDestroyStep .V1 backend acc e
          = .ok (aExtend acc.1 ins1, sUnion acc.2.1 dels1,
              acc.2.2 ++ [(e.1, e.2.set_storages
                ((smpOf e.1).map (fun p => (stripVis p.1, p.2))))]) := by
        unfold wsDestroyStep
        rw [hsh]
        simp only [hdes]
      show (match wsDestroyStep .V1 backend acc e with
        | Except.error er => Except.error er
        | Except.ok acc2 => foldWsDestroy .V1 backend rest acc2) = _
      simp only [hstep]
      rw [hrun]
      simp only [List.map_cons, hsh, List.append_assoc, List.singleton_append]

/-- `WorldState::destroy` on a represented, well-formed, well-typed V1 state:
it succeeds and collects exactly the accounts of the content, each with its
stripped storage map attached. -/
theorem ws_destroy_spec {ws : WorldState} {backend : List (PKey × PKey)}
    {amp : AKV} (smpOf : Bytes → SKV)
    (hrepr : MptRepr aCodec ws.accounts_trie.trie backend amp)
    (hver : ws.accounts_trie.ver = .V1)
    (hkeys : ∀ e ∈ amp, ∃ a f, a.length = 32 ∧
      e.1 = TrieKey.account_key .V1 a f ∧ fieldTyped f e.2)
    (hsmp : ∀ a v, aGet amp (TrieKey.account_key .V1 a .StorageHash) = some v →
      MptRepr sCodec (Mpt.mopen (KIDB.init .V1 a) (hashOfSRoot v.asRoot)) backend
        (smpOf a) ∧
      (∀ p ∈ smpOf a, ∃ k0, p.1 = 0 :: k0)) :
    ∃ ins dels dm2 wsd, ws.destroy backend = .ok (⟨ins, dels, dm2⟩, wsd) ∧
      (dm2.map Prod.fst).Nodup ∧ (∀ e ∈ dm2, e.1.length = 32) ∧
      (∀ a, a ∉ dm2.map Prod.fst →
        ∀ f, aGet amp (TrieKey.account_key .V1 a f) = none) ∧
      (∀ e ∈ dm2, e.2 =
        match (acctOf .V1 amp e.1).storage_hash with
        | none => acctOf .V1 amp e.1
        | some _ => (acctOf .V1 amp e.1).set_storages
            ((smpOf e.1).map (fun p => (stripVis p.1, p.2)))) ∧
      (∀ a f v, aGet amp (TrieKey.account_key .V1 a f) = some v →
        a ∈ dm2.map Prod.fst) := by
  rcases accounts_destroy_spec hrepr hver hkeys with
    ⟨ins0, dels0, dm, t2, hdes, J1a, J1b, J1c, J2, J3⟩
  have hacctEq : ∀ e ∈ dm, e.2 = acctOf .V1 amp e.1 := by
    intro e he
    exact J1a e.1 e.2 (mem_aGet_of_nodup J3 (by rcases e with ⟨a, acct⟩; exact he))
  have hst : ∀ e ∈ dm, ∀ r, e.2.storage_hash = some r →
      MptRepr sCodec (Mpt.mopen (KIDB.init .V1 e.1) (hashOfSRoot r)) backend
        (smpOf e.1) ∧
      (∀ p ∈ smpOf e.1, ∃ k0, p.1 = 0 :: k0) := by
    intro e he r hr
    rw [hacctEq e he] at hr
    have hr2 : (aGet amp (TrieKey.account_key .V1 e.1 .StorageHash)).bind
        AVal.asRootOpt = some r := hr
    cases hv : aGet amp (TrieKey.account_key .V1 e.1 .StorageHash) with
    | none =>
      rw [hv] at hr2
      exact Option.noConfusion hr2
    | some v =>
      rw [hv] at hr2
      rcases hkeys _ (aGet_mem hv) with ⟨a2, f2, ha2, hk2, hty2⟩
      have hinj := account_key_inj .V1 e.1 a2 .StorageHash f2 hk2
      rcases hinj with ⟨ha2e, hf2⟩
      subst ha2e
      rw [← hf2] at hty2
      rcases hty2 with ⟨r0, rfl⟩
      have hrr : r0 = r := by
        have h3 : some r0 = some r := hr2
        exact Option.some.inj h3
      subst hrr
      exact hsmp e.1 (.root r0) hv
  rcases foldWsDestroy_spec backend smpOf dm (ins0, dels0, []) hst with
    ⟨ins, dels, hfold⟩
  have hmapfst : (dm.map (fun e => ((e.1 : Bytes),
      match e.2.storage_hash with
      | none => e.2
      | some _ => e.2.set_storages
          ((smpOf e.1).map (fun p : Bytes × Bytes =>
            (stripVis p.1, p.2)))))).map Prod.fst
      = dm.map Prod.fst := by
    rw [List.map_map]
    refine List.map_congr_left ?_
    intro e _
    rfl
  refine ⟨ins, dels,
    dm.map (fun e => (e.1,
      match e.2.storage_hash with
      | none => e.2
      | some _ => e.2.set_storages
          ((smpOf e.1).map (fun p : Bytes × Bytes =>
            (stripVis p.1, p.2))))),
    { accounts_trie := t2, storage_trie_map := ws.storage_trie_map },
    ?_, ?_, ?_, ?_, ?_, ?_⟩
  · simp only [WorldState.destroy, hdes, WorldState.ver, hver, hfold]
    rfl
  · rw [hmapfst]
    exact J3
  · intro e he
    rcases List.mem_map.mp he with ⟨q, hq, hqe⟩
    rw [← hqe]
    exact J2 q hq
  · intro a ha f
    rw [hmapfst] at ha
    have hnone : aGet dm a = none := by
      cases hx : aGet dm a with
      | none => rfl
      | some w => exact absurd (aGet_mem_keys dm a w hx) ha
    exact J1b a hnone f
  · intro e he
    rcases List.mem_map.mp he with ⟨q, hq, hqe⟩
    rw [← hqe]
    show (match q.2.storage_hash with
      | none => q.2
      | some _ => q.2.set_storages
          ((smpOf q.1).map (fun p : Bytes × Bytes => (stripVis p.1, p.2)))) = _
    rw [hacctEq q hq]
  · intro a f v hv
    rcases J1c a f v hv with ⟨acct, hacct⟩
    rw [hmapfst]
    exact aGet_mem_keys dm a acct hacct

theorem storage_key_inj (ver : Version) (k k' : Bytes)
    (h : TrieKey.storage_key ver k = TrieKey.storage_key ver k') : k = k' := by
  cases ver
  · exact (List.cons.injEq _ _ _ _ ▸ h).2
  · exact h

theorem aGet_rekey (ver : Version) (data : SKV) (k : Bytes) :
    aGet (data.map (fun p => (TrieKey.storage_key ver p.1, p.2)))
      (TrieKey.storage_key ver k) = aGet data k := by
  induction data with
  | nil => rfl
  | cons p rest ih =>
    show (if TrieKey.storage_key ver p.1 = TrieKey.storage_key ver k
      then some p.2
      else aGet (rest.map (fun p => (TrieKey.storage_key ver p.1, p.2)))
        (TrieKey.storage_key ver k)) = _
    rw [ih]
    show _ = (if p.1 = k then some p.2 else aGet rest k)
    by_cases hk : p.1 = k
    · rw [if_pos (by rw [hk]), if_pos hk]
    · rw [if_neg (fun hx => hk (storage_key_inj ver p.1 k hx)), if_neg hk]

theorem rekey_nodup (ver : Version) (data : SKV)
    (hnd : (data.map Prod.fst).Nodup) :
    ((data.map (fun p => (TrieKey.storage_key ver p.1, p.2))).map Prod.fst).Nodup := by
  induction data with
  | nil => exact List.nodup_nil
  | cons p rest ih =>
    refine List.nodup_cons.mpr ⟨?_, ih (List.nodup_cons.mp hnd).2⟩
    intro hmem
    rcases List.mem_map.mp hmem with ⟨q2, hq2, hq2e⟩
    rcases List.mem_map.mp hq2 with ⟨q, hq, hqe⟩
    have : q.1 = p.1 := by
      refine storage_key_inj ver q.1 p.1 ?_
      rw [← hqe] at hq2e
      exact hq2e
    exact (List.nodup_cons.mp hnd).1 (this ▸ List.mem_map.mpr ⟨q, hq, rfl⟩)

/-- `storage_trie_mut` at an uncached, unrecorded address: the fresh branch,
with the empty root written back and the fresh trie cached. -/
theorem ws_storage_trie_mut_fresh {ver : Version} {ws : WorldState}
    {backend : List (PKey × PKey)} {amp : AKV} (hinv : WSInv ver ws backend amp)
    (a : Bytes) (ha : a.length = 32)
    (hcache : aGet ws.storage_trie_map a = none) :
    ws.storage_trie_mut backend a = .ok (StorageTrie.init ver a,
      { accounts_trie := ⟨ws.accounts_trie.trie.reroot aCodec
          (aPut amp (TrieKey.account_key ver a .StorageHash)
            (.root SRoot.empty))⟩,
        storage_trie_map := aPut ws.storage_trie_map a (StorageTrie.init ver a) }) ∧
    WSInv ver
      { accounts_trie := ⟨ws.accounts_trie.trie.reroot aCodec
          (aPut amp (TrieKey.account_key ver a .StorageHash)
            (.root SRoot.empty))⟩,
        storage_trie_map := aPut ws.storage_trie_map a (StorageTrie.init ver a) }
      backend
      (aPut amp (TrieKey.account_key ver a .StorageHash) (.root SRoot.empty)) := by
  have hwv : ws.ver = ver := hinv.hver
  have hsh : aGet amp (TrieKey.account_key ver a .StorageHash) = none := by
    cases hv : aGet amp (TrieKey.account_key ver a .StorageHash) with
    | none => rfl
    | some v =>
      rcases hinv.shLink a v hv with ⟨st, hst⟩
      rw [hcache] at hst
      exact Option.noConfusion hst
  have hshr := at_storage_hash_eq hinv.accRepr a
  have hverAt : ws.accounts_trie.ver = ver := hinv.hver
  simp only [hverAt] at hshr
  rw [hsh] at hshr
  have hset := mpt_set_spec aCodecOk hinv.accRepr
    (TrieKey.account_key ver a .StorageHash) (.root SRoot.empty)
  constructor
  · unfold WorldState.storage_trie_mut
    rw [hcache]
    simp only [hshr, Option.map_none']
    unfold AccountsTrie.set_storage_hash
    rw [hverAt, hwv]
    have hroot : srootOfHash (StorageTrie.init ver a).root_hash = SRoot.empty := rfl
    rw [hroot]
    simp only [hset.1]
  · refine ⟨?_, hset.2, ?_, ?_, ?_, ?_, ?_⟩
    · rw [(reroot_fields aCodec ws.accounts_trie.trie _).1]
      exact hinv.hver
    · rw [(reroot_fields aCodec ws.accounts_trie.trie _).2]
      exact hinv.accDom
    · intro e he
      rcases aPut_mem he with he | he
      · exact ⟨a, .StorageHash, ha, by rw [he]⟩
      · exact hinv.ampKeys e he
    · intro a2 stx hx
      have hx2 : aGet (aPut ws.storage_trie_map a (StorageTrie.init ver a)) a2
          = some stx := hx
      rw [aGet_aPut] at hx2
      by_cases he : a = a2
      · rw [if_pos he] at hx2
        cases hx2
        subst he
        refine ⟨rfl, rfl, ha, [], mptRepr_init sCodec sCodecOk _ _ backend, ?_⟩
        intro e he2
        simp at he2
      · rw [if_neg he] at hx2
        exact hinv.stOk a2 stx hx2
    · exact aPut_nodup _ _ _ hinv.mapNoDup
    · intro a2 v2 h2
      rw [aGet_aPut] at h2
      show ∃ st2x, aGet (aPut ws.storage_trie_map a (StorageTrie.init ver a)) a2
        = some st2x
      rw [aGet_aPut]
      by_cases he : a = a2
      · exact ⟨StorageTrie.init ver a, by rw [if_pos he]⟩
      · have hne2 : TrieKey.account_key ver a .StorageHash
            ≠ TrieKey.account_key ver a2 .StorageHash := by
          intro hx
          exact he (account_key_inj ver a a2 _ _ hx).1
        rw [if_neg hne2] at h2
        rcases hinv.shLink a2 v2 h2 with ⟨stx, hstx⟩
        refine ⟨stx, ?_⟩
        rw [if_neg he]
        exact hstx

/-- An accounts-trie field write under the invariant, packaged with the
updated invariant. -/
theorem at_setter_spec {ver : Version} {ws : WorldState}
    {backend : List (PKey × PKey)} {amp : AKV} (hinv : WSInv ver ws backend amp)
    (a : Bytes) (ha : a.length = 32) (f : AccountField) (v : AVal)
    (hf : f ≠ .StorageHash) :
    ∃ t2, Mpt.set aCodec ws.accounts_trie.trie backend
        (TrieKey.account_key ver a f) v = .ok t2 ∧
      WSInv ver { ws with accounts_trie := ⟨t2⟩ } backend
        (aPut amp (TrieKey.account_key ver a f) v) :=
  ⟨_, (wsInv_account_set hinv a ha f v).1, (wsInv_account_set hinv a ha f v).2 hf⟩

/-- One `WorldState::build` iteration at a fresh 32-byte address: the four
field writes land, the storages (when any) are batch-set into a fresh cached
trie, and everything away from the address is untouched. -/
theorem buildStep_spec {ver : Version} {ws : WorldState}
    {backend : List (PKey × PKey)} {amp : AKV} (hinv : WSInv ver ws backend amp)
    (a : Bytes) (acct : Account) (ha : a.length = 32)
    (hfresh : ∀ f, aGet amp (TrieKey.account_key ver a f) = none)
    (hcache : aGet ws.storage_trie_map a = none)
    (hnd : (acct.storages.map Prod.fst).Nodup) :
    ∃ ws2 amp2, buildStep backend ws (a, acct) = .ok ws2 ∧
      WSInv ver ws2 backend amp2 ∧
      aGet amp2 (TrieKey.account_key ver a .Nonce)
        = some (.raw (leBytes 8 acct.nonce)) ∧
      aGet amp2 (TrieKey.account_key ver a .Balance)
        = some (.raw (leBytes 8 acct.balance)) ∧
      aGet amp2 (TrieKey.account_key ver a .CbiVersion)
        = some (.raw (leBytes 4 acct.cbi_version)) ∧
      aGet amp2 (TrieKey.account_key ver a .ContractCode)
        = some (.raw acct.code) ∧
      (acct.storages = [] →
        aGet amp2 (TrieKey.account_key ver a .StorageHash) = none ∧
        aGet ws2.storage_trie_map a = none) ∧
      (acct.storages ≠ [] → ∃ st,
        aGet ws2.storage_trie_map a = some st ∧
        MptRepr sCodec st.trie backend
          (aExtend [] (acct.storages.map
            (fun p => (TrieKey.storage_key ver p.1, p.2))))) ∧
      (∀ a2 f2, a2 ≠ a → aGet amp2 (TrieKey.account_key ver a2 f2)
        = aGet amp (TrieKey.account_key ver a2 f2)) ∧
      (∀ a2, a2 ≠ a → aGet ws2.storage_trie_map a2
        = aGet ws.storage_trie_map a2) := by
  have hkne : ∀ f g : AccountField, f ≠ g →
      TrieKey.account_key ver a f ≠ TrieKey.account_key ver a g :=
    fun f g hfg hx => hfg (account_key_inj ver a a f g hx).2
  have hane : ∀ (a2 : Bytes) (f f2 : AccountField), a2 ≠ a →
      TrieKey.account_key ver a f ≠ TrieKey.account_key ver a2 f2 :=
    fun a2 f f2 hne hx => hne (account_key_inj ver a a2 f f2 hx).1.symm
  rcases at_setter_spec hinv a ha .Nonce (.raw (leBytes 8 acct.nonce))
    (fun hx => AccountField.noConfusion hx) with ⟨t1, he1, hinv1⟩
  rcases at_setter_spec hinv1 a ha .Balance (.raw (leBytes 8 acct.balance))
    (fun hx => AccountField.noConfusion hx) with ⟨t2, he2, hinv2⟩
  rcases at_setter_spec hinv2 a ha .CbiVersion (.raw (leBytes 4 acct.cbi_version))
    (fun hx => AccountField.noConfusion hx) with ⟨t3, he3, hinv3⟩
  rcases at_setter_spec hinv3 a ha .ContractCode (.raw acct.code)
    (fun hx => AccountField.noConfusion hx) with ⟨t4, he4, hinv4⟩
  have heq1 : ws.accounts_trie.set_nonce backend a acct.nonce = .ok ⟨t1⟩ := by
    unfold AccountsTrie.set_nonce
    rw [show ws.accounts_trie.ver = ver from hinv.hver]
    simp only [he1]
  have heq2 : (⟨t1⟩ : AccountsTrie).set_balance backend a acct.balance
      = .ok ⟨t2⟩ := by
    unfold AccountsTrie.set_balance
    rw [show (⟨t1⟩ : AccountsTrie).ver = ver from hinv1.hver]
    simp only [he2]
  have heq3 : (⟨t2⟩ : AccountsTrie).set_cbi_version backend a acct.cbi_version
      = .ok ⟨t3⟩ := by
    unfold AccountsTrie.set_cbi_version
    rw [show (⟨t2⟩ : AccountsTrie).ver = ver from hinv2.hver]
    simp only [he3]
  have heq4 : (⟨t3⟩ : AccountsTrie).set_code backend a acct.code = .ok ⟨t4⟩ := by
    unfold AccountsTrie.set_code
    rw [show (⟨t3⟩ : AccountsTrie).ver = ver from hinv3.hver]
    simp only [he4]
  -- the four-field content and its lookups
  have hlook : ∀ g : AccountField, g ≠ .Nonce → g ≠ .Balance → g ≠ .CbiVersion →
      g ≠ .ContractCode →
      aGet (aPut (aPut (aPut (aPut amp
          (TrieKey.account_key ver a .Nonce) (.raw (leBytes 8 acct.nonce)))
          (TrieKey.account_key ver a .Balance) (.raw (leBytes 8 acct.balance)))
          (TrieKey.account_key ver a .CbiVersion) (.raw (leBytes 4 acct.cbi_version)))
          (TrieKey.account_key ver a .ContractCode) (.raw acct.code))
        (TrieKey.account_key ver a g) = aGet amp (TrieKey.account_key ver a g) := by
    intro g h1 h2 h3 h4
    rw [aGet_aPut, if_neg (hkne _ _ (fun hx => h4 hx.symm)),
      aGet_aPut, if_neg (hkne _ _ (fun hx => h3 hx.symm)),
      aGet_aPut, if_neg (hkne _ _ (fun hx => h2 hx.symm)),
      aGet_aPut, if_neg (hkne _ _ (fun hx => h1 hx.symm))]
  have hlookN : aGet (aPut (aPut (aPut (aPut amp
      (TrieKey.account_key ver a .Nonce) (.raw (leBytes 8 acct.nonce)))
      (TrieKey.account_key ver a .Balance) (.raw (leBytes 8 acct.balance)))
      (TrieKey.account_key ver a .CbiVersion) (.raw (leBytes 4 acct.cbi_version)))
      (TrieKey.account_key ver a .ContractCode) (.raw acct.code))
      (TrieKey.account_key ver a .Nonce) = some (.raw (leBytes 8 acct.nonce)) := by
    rw [aGet_aPut, if_neg (hkne _ _ (fun hx => AccountField.noConfusion hx)),
      aGet_aPut, if_neg (hkne _ _ (fun hx => AccountField.noConfusion hx)),
      aGet_aPut, if_neg (hkne _ _ (fun hx => AccountField.noConfusion hx)),
      aGet_aPut, if_pos rfl]
  have hlookB : aGet (aPut (aPut (aPut (aPut amp
      (TrieKey.account_key ver a .Nonce) (.raw (leBytes 8 acct.nonce)))
      (TrieKey.account_key ver a .Balance) (.raw (leBytes 8 acct.balance)))
      (TrieKey.account_key ver a .CbiVersion) (.raw (leBytes 4 acct.cbi_version)))
      (TrieKey.account_key ver a .ContractCode) (.raw acct.code))
      (TrieKey.account_key ver a .Balance) = some (.raw (leBytes 8 acct.balance)) := by
    rw [aGet_aPut, if_neg (hkne _ _ (fun hx => AccountField.noConfusion hx)),
      aGet_aPut, if_neg (hkne _ _ (fun hx => AccountField.noConfusion hx)),
      aGet_aPut, if_pos rfl]
  have hlookC : aGet (aPut (aPut (aPut (aPut amp
      (TrieKey.account_key ver a .Nonce) (.raw (leBytes 8 acct.nonce)))
      (TrieKey.account_key ver a .Balance) (.raw (leBytes 8 acct.balance)))
      (TrieKey.account_key ver a .CbiVersion) (.raw (leBytes 4 acct.cbi_version)))
      (TrieKey.account_key ver a .ContractCode) (.raw acct.code))
      (TrieKey.account_key ver a .CbiVersion)
      = some (.raw (leBytes 4 acct.cbi_version)) := by
    rw [aGet_aPut, if_neg (hkne _ _ (fun hx => AccountField.noConfusion hx)),
      aGet_aPut, if_pos rfl]
  have hlookCode : aGet (aPut (aPut (aPut (aPut amp
      (TrieKey.account_key ver a .Nonce) (.raw (leBytes 8 acct.nonce)))
      (TrieKey.account_key ver a .Balance) (.raw (leBytes 8 acct.balance)))
      (TrieKey.account_key ver a .CbiVersion) (.raw (leBytes 4 acct.cbi_version)))
      (TrieKey.account_key ver a .ContractCode) (.raw acct.code))
      (TrieKey.account_key ver a .ContractCode) = some (.raw acct.code) := by
    rw [aGet_aPut, if_pos rfl]
  have hframe4 : ∀ (a2 : Bytes) (f2 : AccountField), a2 ≠ a →
      aGet (aPut (aPut (aPut (aPut amp
        (TrieKey.account_key ver a .Nonce) (.raw (leBytes 8 acct.nonce)))
        (TrieKey.account_key ver a .Balance) (.raw (leBytes 8 acct.balance)))
        (TrieKey.account_key ver a .CbiVersion) (.raw (leBytes 4 acct.cbi_version)))
        (TrieKey.account_key ver a .ContractCode) (.raw acct.code))
      (TrieKey.account_key ver a2 f2) = aGet amp (TrieKey.account_key ver a2 f2) := by
    intro a2 f2 hne
    rw [aGet_aPut, if_neg (hane a2 _ f2 hne), aGet_aPut, if_neg (hane a2 _ f2 hne),
      aGet_aPut, if_neg (hane a2 _ f2 hne), aGet_aPut, if_neg (hane a2 _ f2 hne)]
  by_cases hstor : acct.storages = []
  · refine ⟨{ ws with accounts_trie := ⟨t4⟩ }, _, ?_, hinv4, hlookN, hlookB, hlookC,
      hlookCode, ?_, ?_, ?_, ?_⟩
    · simp only [buildStep, heq1, heq2, heq3, heq4]
      rw [show ((a, acct).2.storages.isEmpty) = true from by
        show acct.storages.isEmpty = true
        rw [hstor]
        rfl]
      rfl
    · intro _
      refine ⟨?_, hcache⟩
      rw [hlook .StorageHash (fun hx => AccountField.noConfusion hx)
        (fun hx => AccountField.noConfusion hx) (fun hx => AccountField.noConfusion hx)
        (fun hx => AccountField.noConfusion hx)]
      exact hfresh .StorageHash
    · intro hne
      exact absurd hstor hne
    · exact fun a2 f2 hne => hframe4 a2 f2 hne
    · exact fun a2 _ => rfl
  · have hie : acct.storages.isEmpty = false := by
      cases hy : acct.storages with
      | nil => exact absurd hy hstor
      | cons q qs => rfl
    have hmut := ws_storage_trie_mut_fresh hinv4 a ha hcache
    have hbs := mpt_batch_set_spec sCodecOk
      (mptRepr_init sCodec sCodecOk ver a backend)
      (acct.storages.map (fun p => (TrieKey.storage_key ver p.1, p.2)))
    rcases hbs with ⟨m2, heqbs, hrepr2, hv2, hd2⟩
    have heqbatch : (StorageTrie.init ver a).batch_set backend acct.storages
        = .ok ⟨m2⟩ := by
      unfold StorageTrie.batch_set
      rw [show (StorageTrie.init ver a).ver = ver from rfl,
        show (StorageTrie.init ver a).trie = Mpt.init sCodec (KIDB.init ver a)
          from rfl]
      simp only [heqbs]
    have hcache5 : aGet (aPut ({ ws with accounts_trie := ⟨t4⟩ } :
        WorldState).storage_trie_map a (StorageTrie.init ver a)) a
        = some (StorageTrie.init ver a) := by
      rw [aGet_aPut, if_pos rfl]
    have hinv6 := wsInv_update_cached hmut.2 hcache5 ⟨m2⟩
      ((acct.storages.map (fun p => (TrieKey.storage_key ver p.1, p.2))).foldl
        (fun acc p => aPut acc p.1 p.2) [])
      (by rw [show (⟨m2⟩ : StorageTrie).trie.storage.domain = m2.storage.domain
            from rfl, hd2]; rfl)
      (by rw [show (⟨m2⟩ : StorageTrie).trie.storage.ver = m2.storage.ver
            from rfl, hv2]; rfl)
      hrepr2
      (by
        intro e he
        rcases @aExtend_mem _ _ _ [] _ _ he with he | he
        · rcases List.mem_map.mp he with ⟨q, hq, hqe⟩
          exact ⟨q.1, by rw [← hqe]⟩
        · simp at he)
    refine ⟨_, _, ?_, hinv6, ?_, ?_, ?_, ?_, ?_, ?_, ?_, ?_⟩
    · simp only [buildStep, heq1, heq2, heq3, heq4]
      rw [show ((a, acct).2.storages.isEmpty) = false from hie]
      simp only [Bool.false_eq_true, if_false, hmut.1, heqbatch]
    · rw [aGet_aPut, if_neg (hkne _ _ (fun hx => AccountField.noConfusion hx))]
      exact hlookN
    · rw [aGet_aPut, if_neg (hkne _ _ (fun hx => AccountField.noConfusion hx))]
      exact hlookB
    · rw [aGet_aPut, if_neg (hkne _ _ (fun hx => AccountField.noConfusion hx))]
      exact hlookC
    · rw [aGet_aPut, if_neg (hkne _ _ (fun hx => AccountField.noConfusion hx))]
      exact hlookCode
    · intro hx
      exact absurd hx hstor
    · intro _
      refine ⟨⟨m2⟩, ?_, hrepr2⟩
      show aGet (aPut (aPut ws.storage_trie_map a (StorageTrie.init ver a)) a
        ⟨m2⟩) a = some ⟨m2⟩
      rw [aGet_aPut, if_pos rfl]
    · intro a2 f2 hne
      rw [aGet_aPut, if_neg (hane a2 _ f2 hne)]
      exact hframe4 a2 f2 hne
    · intro a2 hne
      show aGet (aPut (aPut ws.storage_trie_map a (StorageTrie.init ver a)) a
        ⟨m2⟩) a2 = aGet ws.storage_trie_map a2
      rw [aGet_aPut, if_neg (fun hx => hne hx.symm), aGet_aPut,
        if_neg (fun hx => hne hx.symm)]

/-- The account loop of `WorldState::build` over fresh, duplicate-free
addresses: every field and storage write of every account lands, and
untouched addresses are unchanged. -/
theorem foldBuild_go (ver : Version) (backend : List (PKey × PKey))
    (accounts : List (Bytes × Account)) :
    ∀ (ws : WorldState) (amp : AKV),
    WSInv ver ws backend amp →
    (∀ e ∈ accounts, e.1.length = 32 ∧ (e.2.storages.map Prod.fst).Nodup) →
    (∀ e ∈ accounts, (∀ f, aGet amp (TrieKey.account_key ver e.1 f) = none) ∧
      aGet ws.storage_trie_map e.1 = none) →
    ((accounts.map Prod.fst)).Nodup →
    ∃ ws2 amp2, foldBuild backend ws accounts = .ok ws2 ∧
      WSInv ver ws2 backend amp2 ∧
      (∀ e ∈ accounts,
        aGet amp2 (TrieKey.account_key ver e.1 .Nonce)
          = some (.raw (leBytes 8 e.2.nonce)) ∧
        aGet amp2 (TrieKey.account_key ver e.1 .Balance)
          = some (.raw (leBytes 8 e.2.balance)) ∧
        aGet amp2 (TrieKey.account_key ver e.1 .CbiVersion)
          = some (.raw (leBytes 4 e.2.cbi_version)) ∧
        aGet amp2 (TrieKey.account_key ver e.1 .ContractCode)
          = some (.raw e.2.code) ∧
        (e.2.storages = [] →
          aGet amp2 (TrieKey.account_key ver e.1 .StorageHash) = none ∧
          aGet ws2.storage_trie_map e.1 = none) ∧
        (e.2.storages ≠ [] → ∃ st, aGet ws2.storage_trie_map e.1 = some st ∧
          MptRepr sCodec st.trie backend
            (aExtend [] (e.2.storages.map
              (fun p => (TrieKey.storage_key ver p.1, p.2)))))) ∧
      (∀ a2 f2, a2 ∉ accounts.map Prod.fst →
        aGet amp2 (TrieKey.account_key ver a2 f2)
          = aGet amp (TrieKey.account_key ver a2 f2)) ∧
      (∀ a2, a2 ∉ accounts.map Prod.fst →
        aGet ws2.storage_trie_map a2 = aGet ws.storage_trie_map a2) := by
  induction accounts with
  | nil =>
    intro ws amp hinv _ _ _
    exact ⟨ws, amp, rfl, hinv, fun e he => absurd he (List.not_mem_nil e),
      fun a2 f2 _ => rfl, fun a2 _ => rfl⟩
  | cons e rest ih =>
    intro ws amp hinv hwf hfresh hnd
    rcases e with ⟨a0, acct0⟩
    have hw0 := hwf (a0, acct0) (List.mem_cons_self _ rest)
    have hf0 := hfresh (a0, acct0) (List.mem_cons_self _ rest)
    rcases buildStep_spec hinv a0 acct0 hw0.1 hf0.1 hf0.2 hw0.2 with
      ⟨ws1, amp1, hstep, hinv1, hN, hB, hC, hCode, hSE, hSN, hfrA, hfrM⟩
    have hnotin : a0 ∉ rest.map Prod.fst := (List.nodup_cons.mp hnd).1
    have hfresh1 : ∀ e2 ∈ rest,
        (∀ f, aGet amp1 (TrieKey.account_key ver e2.1 f) = none) ∧
        aGet ws1.storage_trie_map e2.1 = none := by
      intro e2 h2
      have hne : e2.1 ≠ a0 := by
        intro hx
        exact hnotin (hx ▸ List.mem_map.mpr ⟨e2, h2, rfl⟩)
      refine ⟨fun f => ?_, ?_⟩
      · rw [hfrA e2.1 f hne]
        exact (hfresh e2 (List.mem_cons_of_mem _ h2)).1 f
      · rw [hfrM e2.1 hne]
        exact (hfresh e2 (List.mem_cons_of_mem _ h2)).2
    rcases ih ws1 amp1 hinv1 (fun e2 h2 => hwf e2 (List.mem_cons_of_mem _ h2))
      hfresh1 (List.nodup_cons.mp hnd).2 with
      ⟨ws2, amp2, hrun, hinv2, hall, hfrA2, hfrM2⟩
    refine ⟨ws2, amp2, ?_, hinv2, ?_, ?_, ?_⟩
    · show (match buildStep backend ws (a0, acct0) with
        | Except.error er => Except.error er
        | Except.ok wsx => foldBuild backend wsx rest) = _
      simp only [hstep]
      exact hrun
    · intro e2 h2
      rcases List.mem_cons.mp h2 with h2 | h2
      · subst h2
        refine ⟨?_, ?_, ?_, ?_, ?_, ?_⟩
        · rw [hfrA2 a0 .Nonce hnotin]
          exact hN
        · rw [hfrA2 a0 .Balance hnotin]
          exact hB
        · rw [hfrA2 a0 .CbiVersion hnotin]
          exact hC
        · rw [hfrA2 a0 .ContractCode hnotin]
          exact hCode
        · intro hs0
          refine ⟨?_, ?_⟩
          · rw [hfrA2 a0 .StorageHash hnotin]
            exact (hSE hs0).1
          · rw [hfrM2 a0 hnotin]
            exact (hSE hs0).2
        · intro hs0
          rcases hSN hs0 with ⟨st, hst, hrepr⟩
          refine ⟨st, ?_, hrepr⟩
          rw [hfrM2 a0 hnotin]
          exact hst
      · exact hall e2 h2
    · intro a2 f2 hout
      have hne : a2 ≠ a0 := by
        intro hx
        exact hout (by rw [hx]; exact List.mem_cons_self _ _)
      have hout2 : a2 ∉ rest.map Prod.fst := by
        intro hx
        exact hout (List.mem_cons_of_mem _ hx)
      rw [hfrA2 a2 f2 hout2, hfrA a2 f2 hne]
    · intro a2 hout
      have hne : a2 ≠ a0 := by
        intro hx
        exact hout (by rw [hx]; exact List.mem_cons_self _ _)
      have hout2 : a2 ∉ rest.map Prod.fst := by
        intro hx
        exact hout (List.mem_cons_of_mem _ hx)
      rw [hfrM2 a2 hout2, hfrM a2 hne]

theorem set_storages_nonce (x : Account) (s : SKV) :
    (x.set_storages s).nonce = x.nonce := by
  unfold Account.set_storages
  split <;> rfl

theorem set_storages_balance (x : Account) (s : SKV) :
    (x.set_storages s).balance = x.balance := by
  unfold Account.set_storages
  split <;> rfl

theorem set_storages_code (x : Account) (s : SKV) :
    (x.set_storages s).code = x.code := by
  unfold Account.set_storages
  split <;> rfl

theorem set_storages_cbi (x : Account) (s : SKV) :
    (x.set_storages s).cbi_version = x.cbi_version := by
  unfold Account.set_storages
  split <;> rfl

theorem set_storages_aGet (x : Account) (s : SKV) (hx : x.storages = [])
    (k : Bytes) : aGet (x.set_storages s).storages k = aGet s k := by
  unfold Account.set_storages
  split
  · next hs =>
    have : s = [] := by
      cases s
      · rfl
      · simp [List.isEmpty] at hs
    rw [hx, this]
  · rfl

theorem set_storages_nodup (x : Account) (s : SKV) (hx : x.storages = [])
    (hs : (s.map Prod.fst).Nodup) :
    ((x.set_storages s).storages.map Prod.fst).Nodup := by
  unfold Account.set_storages
  split
  · rw [hx]
    exact List.nodup_nil
  · exact hs

theorem aGet_aExtend_nil {κ α : Type} [DecidableEq κ] (l : List (κ × α))
    (hnd : (l.map Prod.fst).Nodup) (k : κ) : aGet (aExtend [] l) k = aGet l k := by
  rw [aGet_aExtend [] l k hnd]
  cases h : aGet l k with
  | some v => rfl
  | none => rfl

theorem u64_raw_leBytes (n : Nat) :
    (AVal.raw (leBytes 8 n)).u64 = n % 256 ^ 8 := by
  show (leDecode 8 (leBytes 8 n)).getD 0 = n % 256 ^ 8
  rw [leDecode_leBytes]
  rfl

theorem u32_raw_leBytes (n : Nat) :
    (AVal.raw (leBytes 4 n)).u32 = n % 256 ^ 4 := by
  show (leDecode 4 (leBytes 4 n)).getD 0 = n % 256 ^ 4
  rw [leDecode_leBytes]
  rfl

theorem u64Checked_raw_leBytes (n : Nat) :
    (AVal.raw (leBytes 8 n)).u64Checked = some (n % 256 ^ 8) := by
  show leDecode 8 (leBytes 8 n) = some (n % 256 ^ 8)
  rw [leDecode_leBytes]

theorem u32Checked_raw_leBytes (n : Nat) :
    (AVal.raw (leBytes 4 n)).u32Checked = some (n % 256 ^ 4) := by
  show leDecode 4 (leBytes 4 n) = some (n % 256 ^ 4)
  rw [leDecode_leBytes]

theorem readStorage_cached {ws : WorldState} {backend : List (PKey × PKey)}
    {a : Bytes} {st : StorageTrie}
    (hcache : aGet ws.storage_trie_map a = some st) (k : Bytes) :
    ws.readStorage backend a k = st.get backend k := by
  show (match aGet ws.storage_trie_map a with
    | some st2 => st2.get backend k
    | none =>
      match ws.accounts_trie.storage_hash backend a with
      | Except.error e => Except.error e
      | Except.ok (some hh) => (StorageTrie.sopen ws.ver hh a).get backend k
      | Except.ok none => (StorageTrie.init ws.ver a).get backend k) = _
  rw [hcache]

theorem readStorage_of_sh_none {ver : Version} {ws : WorldState}
    {backend : List (PKey × PKey)} {amp : AKV}
    (hrepr : MptRepr aCodec ws.accounts_trie.trie backend amp)
    (hver : ws.accounts_trie.ver = ver) (hwver : ws.ver = ver) (a : Bytes)
    (hcache : aGet ws.storage_trie_map a = none)
    (hsh : aGet amp (TrieKey.account_key ver a .StorageHash) = none) (k : Bytes) :
    ws.readStorage backend a k = .ok none := by
  have hshr := at_storage_hash_eq hrepr a
  simp only [hver] at hshr
  rw [hsh] at hshr
  show (match aGet ws.storage_trie_map a with
    | some st2 => st2.get backend k
    | none =>
      match ws.accounts_trie.storage_hash backend a with
      | Except.error e => Except.error e
      | Except.ok (some hh) => (StorageTrie.sopen ws.ver hh a).get backend k
      | Except.ok none => (StorageTrie.init ws.ver a).get backend k) = _
  simp only [hcache, hshr, Option.map_none']
  rw [hwver,
    @st_get_eq (StorageTrie.init ver a) backend []
      (mptRepr_init sCodec sCodecOk ver a backend) k]
  rfl

theorem readStorage_of_sh_some {ver : Version} {ws : WorldState}
    {backend : List (PKey × PKey)} {amp : AKV}
    (hrepr : MptRepr aCodec ws.accounts_trie.trie backend amp)
    (hver : ws.accounts_trie.ver = ver) (hwver : ws.ver = ver) (a : Bytes)
    (hcache : aGet ws.storage_trie_map a = none)
    {v : AVal} (hsh : aGet amp (TrieKey.account_key ver a .StorageHash) = some v)
    {smp : SKV}
    (hrs : MptRepr sCodec (Mpt.mopen (KIDB.init ver a) (hashOfSRoot v.asRoot))
      backend smp) (k : Bytes) :
    ws.readStorage backend a k = .ok (aGet smp (TrieKey.storage_key ver k)) := by
  have hshr := at_storage_hash_eq hrepr a
  simp only [hver] at hshr
  rw [hsh] at hshr
  show (match aGet ws.storage_trie_map a with
    | some st2 => st2.get backend k
    | none =>
      match ws.accounts_trie.storage_hash backend a with
      | Except.error e => Except.error e
      | Except.ok (some hh) => (StorageTrie.sopen ws.ver hh a).get backend k
      | Except.ok none => (StorageTrie.init ws.ver a).get backend k) = _
  simp only [hcache, hshr, Option.map_some']
  rw [hwver,
    @st_get_eq (StorageTrie.sopen ver (hashOfSRoot v.asRoot) a) backend smp hrs k]
  rfl

/-- C5 (amended).  For every persisted, well-formed V1 world state, the
upgrade pipeline (destroy the V1 tries, apply those changes, build a V2 state
from the collected accounts, apply its close-batch, reopen at the new root)
yields a V2 state that returns the same nonce, balance and cbi_version for
every 32-byte address, the same code whenever the V1 state holds code, and
the same value for every (address, storage key).  The claim's unconditional
parts are amended: the code field agrees only in the `Some` direction (an
absent V1 code rebuilds as `Some []`), the StorageHash field is excluded
(the roots differ by design), and the state roots differ exactly when the V1
accounts content is non-empty (the empty state rebuilds to the same root). -/
theorem c5_upgrade_round_trip (root : PKey) (backend : List (PKey × PKey))
    (amp : AKV) (smpOf : Bytes → SKV)
    (hrepr : MptRepr aCodec (WorldState.wopen .V1 root).accounts_trie.trie
      backend amp)
    (hkeys : ∀ e ∈ amp, ∃ a f, a.length = 32 ∧
      e.1 = TrieKey.account_key .V1 a f ∧ fieldTyped f e.2)
    (hsmp : ∀ a v, aGet amp (TrieKey.account_key .V1 a .StorageHash) = some v →
      MptRepr sCodec (Mpt.mopen (KIDB.init .V1 a) (hashOfSRoot v.asRoot)) backend
        (smpOf a) ∧
      (∀ p ∈ smpOf a, ∃ k0, p.1 = 0 :: k0)) :
    ∃ dwsc wsd chg2 ws3,
      (WorldState.wopen .V1 root).destroy backend = .ok (dwsc, wsd) ∧
      (WorldState.init .V2).build
          (applyChanges backend ⟨dwsc.inserts, dwsc.deletes, []⟩) dwsc.accounts
        = .ok (chg2, ws3) ∧
      (∀ a, a.length = 32 →
        ((WorldState.wopen .V2 chg2.new_root_hash).accounts_trie.nonce
            (applyChanges (applyChanges backend ⟨dwsc.inserts, dwsc.deletes, []⟩)
              chg2) a
          = (WorldState.wopen .V1 root).accounts_trie.nonce backend a) ∧
        ((WorldState.wopen .V2 chg2.new_root_hash).accounts_trie.balance
            (applyChanges (applyChanges backend ⟨dwsc.inserts, dwsc.deletes, []⟩)
              chg2) a
          = (WorldState.wopen .V1 root).accounts_trie.balance backend a) ∧
        ((WorldState.wopen .V2 chg2.new_root_hash).accounts_trie.cbi_version
            (applyChanges (applyChanges backend ⟨dwsc.inserts, dwsc.deletes, []⟩)
              chg2) a
          = (WorldState.wopen .V1 root).accounts_trie.cbi_version backend a) ∧
        (∀ c, (WorldState.wopen .V1 root).accounts_trie.code backend a
            = .ok (some c) →
          (WorldState.wopen .V2 chg2.new_root_hash).accounts_trie.code
            (applyChanges (applyChanges backend ⟨dwsc.inserts, dwsc.deletes, []⟩)
              chg2) a = .ok (some c)) ∧
        (∀ k, (WorldState.wopen .V2 chg2.new_root_hash).readStorage
            (applyChanges (applyChanges backend ⟨dwsc.inserts, dwsc.deletes, []⟩)
              chg2) a k
          = (WorldState.wopen .V1 root).readStorage backend a k)) ∧
      (amp ≠ [] → root ≠ chg2.new_root_hash) := by
  rcases ws_destroy_spec smpOf hrepr rfl hkeys hsmp with
    ⟨ins, dels, dm2, wsd, hdes, hdnd, hdlen, hout, hentry, hcov⟩
  -- the build session over the backend with the destroy changes applied
  have hwfb : ∀ e ∈ dm2, e.1.length = 32 ∧ (e.2.storages.map Prod.fst).Nodup := by
    intro e he
    refine ⟨hdlen e he, ?_⟩
    have hh := hentry e he
    cases hsh : (acctOf .V1 amp e.1).storage_hash with
    | none =>
      rw [hh]
      simp only [hsh]
      exact List.nodup_nil
    | some r =>
      rw [hh]
      simp only [hsh]
      have hsh2 : (aGet amp (TrieKey.account_key .V1 e.1 .StorageHash)).bind
          AVal.asRootOpt = some r := hsh
      cases hv : aGet amp (TrieKey.account_key .V1 e.1 .StorageHash) with
      | none =>
        rw [hv] at hsh2
        exact Option.noConfusion hsh2
      | some v =>
        refine set_storages_nodup _ _ rfl ?_
        exact strip_nodup_v1 (smpOf e.1) (hsmp e.1 v hv).2 (hsmp e.1 v hv).1.mpNoDup
  rcases foldBuild_go .V2 (applyChanges backend ⟨ins, dels, []⟩) dm2
      (WorldState.init .V2) [] (wsInv_init .V2 _) hwfb
      (fun e _ => ⟨fun f => rfl, rfl⟩) hdnd with
    ⟨ws2, amp2, hfoldb, hinv2, hall, hfrA2, hfrM2⟩
  rcases ws_close_spec hinv2 with
    ⟨tF, chg2, ws3, hfold3, hclose, hmap3, hins3, hdels3, hroot3, hreprF,
      hreopA, hreopS⟩
  have hbuild : (WorldState.init .V2).build
      (applyChanges backend ⟨ins, dels, []⟩) dm2 = .ok (chg2, ws3) := by
    simp only [WorldState.build, hfoldb]
    exact hclose
  refine ⟨⟨ins, dels, dm2⟩, wsd, chg2, ws3, hdes, hbuild, ?_, ?_⟩
  · intro a ha32
    have hr := close_reopen_reads hinv2 hclose a
    have hN2 := @at_nonce_eq ws2.accounts_trie
      (applyChanges backend ⟨ins, dels, []⟩) amp2 hinv2.accRepr a
    have hB2 := @at_balance_eq ws2.accounts_trie
      (applyChanges backend ⟨ins, dels, []⟩) amp2 hinv2.accRepr a
    have hC2 := @at_cbi_eq ws2.accounts_trie
      (applyChanges backend ⟨ins, dels, []⟩) amp2 hinv2.accRepr a
    have hCode2 := @at_code_eq ws2.accounts_trie
      (applyChanges backend ⟨ins, dels, []⟩) amp2 hinv2.accRepr a
    rw [show ws2.accounts_trie.ver = .V2 from hinv2.hver] at hN2 hB2 hC2 hCode2
    have hN1 := @at_nonce_eq (WorldState.wopen .V1 root).accounts_trie
      backend amp hrepr a
    have hB1 := @at_balance_eq (WorldState.wopen .V1 root).accounts_trie
      backend amp hrepr a
    have hC1 := @at_cbi_eq (WorldState.wopen .V1 root).accounts_trie
      backend amp hrepr a
    have hCode1 := @at_code_eq (WorldState.wopen .V1 root).accounts_trie
      backend amp hrepr a
    rw [show (WorldState.wopen .V1 root).accounts_trie.ver = .V1 from rfl]
      at hN1 hB1 hC1 hCode1
    have htyped : ∀ f v, aGet amp (TrieKey.account_key .V1 a f) = some v →
        fieldTyped f v := by
      intro f v hv
      rcases hkeys _ (aGet_mem hv) with ⟨a2, f2, _, hk2, hty2⟩
      have hinj := account_key_inj .V1 a a2 f f2 hk2
      rw [hinj.2]
      exact hty2
    cases hmem : aGet dm2 a with
    | some acct2 =>
      have hmem2 : (a, acct2) ∈ dm2 := aGet_mem hmem
      have he2 : acct2 = match (acctOf .V1 amp a).storage_hash with
          | none => acctOf .V1 amp a
          | some _ => (acctOf .V1 amp a).set_storages
              ((smpOf a).map (fun p => (stripVis p.1, p.2))) :=
        hentry (a, acct2) hmem2
      have hallN : aGet amp2 (TrieKey.account_key .V2 a .Nonce)
          = some (.raw (leBytes 8 acct2.nonce)) := (hall (a, acct2) hmem2).1
      have hallB : aGet amp2 (TrieKey.account_key .V2 a .Balance)
          = some (.raw (leBytes 8 acct2.balance)) := (hall (a, acct2) hmem2).2.1
      have hallC : aGet amp2 (TrieKey.account_key .V2 a .CbiVersion)
          = some (.raw (leBytes 4 acct2.cbi_version)) :=
        (hall (a, acct2) hmem2).2.2.1
      have hallCode : aGet amp2 (TrieKey.account_key .V2 a .ContractCode)
          = some (.raw acct2.code) := (hall (a, acct2) hmem2).2.2.2.1
      have hallSE : acct2.storages = [] →
          aGet amp2 (TrieKey.account_key .V2 a .StorageHash) = none ∧
          aGet ws2.storage_trie_map a = none :=
        (hall (a, acct2) hmem2).2.2.2.2.1
      have hallSNE : acct2.storages ≠ [] → ∃ st,
          aGet ws2.storage_trie_map a = some st ∧
          MptRepr sCodec st.trie (applyChanges backend ⟨ins, dels, []⟩)
            (aExtend [] (acct2.storages.map
              (fun p => (TrieKey.storage_key .V2 p.1, p.2)))) :=
        (hall (a, acct2) hmem2).2.2.2.2.2
      have hnonce_val : acct2.nonce = (acctOf .V1 amp a).nonce := by
        rw [he2]
        cases hsh : (acctOf .V1 amp a).storage_hash with
        | none => simp only [hsh]
        | some r => simp only [hsh, set_storages_nonce]
      have hbal_val : acct2.balance = (acctOf .V1 amp a).balance := by
        rw [he2]
        cases hsh : (acctOf .V1 amp a).storage_hash with
        | none => simp only [hsh]
        | some r => simp only [hsh, set_storages_balance]
      have hcbi_val : acct2.cbi_version = (acctOf .V1 amp a).cbi_version := by
        rw [he2]
        cases hsh : (acctOf .V1 amp a).storage_hash with
        | none => simp only [hsh]
        | some r => simp only [hsh, set_storages_cbi]
      have hcode_val : acct2.code = (acctOf .V1 amp a).code := by
        rw [he2]
        cases hsh : (acctOf .V1 amp a).storage_hash with
        | none => simp only [hsh]
        | some r => simp only [hsh, set_storages_code]
      refine ⟨?_, ?_, ?_, ?_, ?_⟩
      · -- nonce
        refine (hr.1).trans ?_
        rw [hN2, hN1]
        simp only [hallN]
        rw [u64_raw_leBytes, hnonce_val]
        show Except.ok ((acctOf .V1 amp a).nonce % 256 ^ 8) = _
        cases hvN : aGet amp (TrieKey.account_key .V1 a .Nonce) with
        | none =>
          have : (acctOf .V1 amp a).nonce = 0 := by
            show ((aGet amp (TrieKey.account_key .V1 a .Nonce)).bind
              AVal.u64Checked).getD 0 = 0
            rw [hvN]
            rfl
          rw [this]
          simp
        | some v =>
          rcases htyped .Nonce v hvN with ⟨n0, rfl⟩
          have : (acctOf .V1 amp a).nonce = n0 % 256 ^ 8 := by
            show ((aGet amp (TrieKey.account_key .V1 a .Nonce)).bind
              AVal.u64Checked).getD 0 = n0 % 256 ^ 8
            rw [hvN]
            show ((AVal.raw (leBytes 8 n0)).u64Checked).getD 0 = n0 % 256 ^ 8
            rw [u64Checked_raw_leBytes]
            rfl
          rw [this, Nat.mod_mod_of_dvd n0 dvd_rfl]
          show Except.ok (n0 % 256 ^ 8)
            = Except.ok ((AVal.raw (leBytes 8 n0)).u64)
          rw [u64_raw_leBytes]
      · -- balance
        refine (hr.2.1).trans ?_
        rw [hB2, hB1]
        simp only [hallB]
        rw [u64_raw_leBytes, hbal_val]
        show Except.ok ((acctOf .V1 amp a).balance % 256 ^ 8) = _
        cases hvN : aGet amp (TrieKey.account_key .V1 a .Balance) with
        | none =>
          have : (acctOf .V1 amp a).balance = 0 := by
            show ((aGet amp (TrieKey.account_key .V1 a .Balance)).bind
              AVal.u64Checked).getD 0 = 0
            rw [hvN]
            rfl
          rw [this]
          simp
        | some v =>
          rcases htyped .Balance v hvN with ⟨n0, rfl⟩
          have : (acctOf .V1 amp a).balance = n0 % 256 ^ 8 := by
            show ((aGet amp (TrieKey.account_key .V1 a .Balance)).bind
              AVal.u64Checked).getD 0 = n0 % 256 ^ 8
            rw [hvN]
            show ((AVal.raw (leBytes 8 n0)).u64Checked).getD 0 = n0 % 256 ^ 8
            rw [u64Checked_raw_leBytes]
            rfl
          rw [this, Nat.mod_mod_of_dvd n0 dvd_rfl]
          show Except.ok (n0 % 256 ^ 8)
            = Except.ok ((AVal.raw (leBytes 8 n0)).u64)
          rw [u64_raw_leBytes]
      · -- cbi_version
        refine (hr.2.2.2.1).trans ?_
        rw [hC2, hC1]
        simp only [hallC]
        rw [u32_raw_leBytes, hcbi_val]
        show Except.ok ((acctOf .V1 amp a).cbi_version % 256 ^ 4) = _
        cases hvN : aGet amp (TrieKey.account_key .V1 a .CbiVersion) with
        | none =>
          have : (acctOf .V1 amp a).cbi_version = 0 := by
            show ((aGet amp (TrieKey.account_key .V1 a .CbiVersion)).bind
              AVal.u32Checked).getD 0 = 0
            rw [hvN]
            rfl
          rw [this]
          simp
        | some v =>
          rcases htyped .CbiVersion v hvN with ⟨n0, rfl⟩
          have : (acctOf .V1 amp a).cbi_version = n0 % 256 ^ 4 := by
            show ((aGet amp (TrieKey.account_key .V1 a .CbiVersion)).bind
              AVal.u32Checked).getD 0 = n0 % 256 ^ 4
            rw [hvN]
            show ((AVal.raw (leBytes 4 n0)).u32Checked).getD 0 = n0 % 256 ^ 4
            rw [u32Checked_raw_leBytes]
            rfl
          rw [this, Nat.mod_mod_of_dvd n0 dvd_rfl]
          show Except.ok (n0 % 256 ^ 4)
            = Except.ok ((AVal.raw (leBytes 4 n0)).u32)
          rw [u32_raw_leBytes]
      · -- code, Some direction
        intro c hc
        rw [hCode1] at hc
        cases hvC : aGet amp (TrieKey.account_key .V1 a .ContractCode) with
        | none =>
          rw [hvC] at hc
          exact Option.noConfusion (Except.ok.inj hc)
        | some v =>
          rw [hvC] at hc
          have hcv : v.rawBytes = c := by
            have h2 := Except.ok.inj hc
            exact Option.some.inj h2
          rcases htyped .ContractCode v hvC with ⟨bs, rfl⟩
          refine (hr.2.2.1).trans ?_
          rw [hCode2]
          simp only [hallCode]
          have hcodeval : acct2.code = bs := by
            rw [hcode_val]
            show ((aGet amp (TrieKey.account_key .V1 a .ContractCode)).map
              AVal.rawBytes).getD [] = bs
            rw [hvC]
            rfl
          rw [hcodeval]
          rw [show ((AVal.raw bs).rawBytes) = bs from rfl] at hcv
          rw [hcv]
          rfl
      · -- storage reads
        intro k
        refine (hr.2.2.2.2 k).trans ?_
        cases hsh : (acctOf .V1 amp a).storage_hash with
        | none =>
          -- no storage root recorded in V1: both sides read none
          have hshamp : aGet amp (TrieKey.account_key .V1 a .StorageHash)
              = none := by
            have hsh2 : (aGet amp (TrieKey.account_key .V1 a .StorageHash)).bind
                AVal.asRootOpt = none := hsh
            cases hv : aGet amp (TrieKey.account_key .V1 a .StorageHash) with
            | none => rfl
            | some v =>
              rw [hv] at hsh2
              rcases htyped .StorageHash v hv with ⟨r0, rfl⟩
              exact Option.noConfusion hsh2
          have hstor2 : acct2.storages = [] := by
            rw [he2]
            simp only [hsh]
            rfl
          have hSE := hallSE hstor2
          have hv2 : ws2.readStorage (applyChanges backend ⟨ins, dels, []⟩) a k
              = .ok none :=
            readStorage_of_sh_none hinv2.accRepr hinv2.hver hinv2.hver a
              hSE.2 hSE.1 k
          have hv1 : (WorldState.wopen .V1 root).readStorage backend a k
              = .ok none :=
            readStorage_of_sh_none hrepr rfl rfl a rfl hshamp k
          rw [hv2, hv1]
        | some r =>
          have hsh2 : (aGet amp (TrieKey.account_key .V1 a .StorageHash)).bind
              AVal.asRootOpt = some r := hsh
          cases hv : aGet amp (TrieKey.account_key .V1 a .StorageHash) with
          | none =>
            rw [hv] at hsh2
            exact Option.noConfusion hsh2
          | some v =>
            have hstor2 : acct2.storages = ((acctOf .V1 amp a).set_storages
                ((smpOf a).map (fun p : Bytes × Bytes =>
                  (stripVis p.1, p.2)))).storages := by
              rw [he2]
              simp only [hsh]
            have hv1 : (WorldState.wopen .V1 root).readStorage backend a k
                = .ok (aGet (smpOf a) (TrieKey.storage_key .V1 k)) :=
              readStorage_of_sh_some hrepr rfl rfl a rfl hv (hsmp a v hv).1 k
            by_cases hsempty : (smpOf a).map (fun p : Bytes × Bytes =>
                (stripVis p.1, p.2)) = []
            · have hsmpnil : smpOf a = [] := by
                cases hsmpa : smpOf a with
                | nil => rfl
                | cons q qs =>
                  rw [hsmpa] at hsempty
                  exact List.noConfusion hsempty
              have hstorN : acct2.storages = [] := by
                rw [hstor2, hsempty]
                show ((acctOf .V1 amp a).set_storages []).storages = []
                rfl
              have hSE := hallSE hstorN
              have hv2 : ws2.readStorage (applyChanges backend ⟨ins, dels, []⟩)
                  a k = .ok none :=
                readStorage_of_sh_none hinv2.accRepr hinv2.hver hinv2.hver a
                  hSE.2 hSE.1 k
              rw [hv2, hv1, hsmpnil]
              rfl
            · have hstorNE : acct2.storages ≠ [] := by
                rw [hstor2]
                show ((acctOf .V1 amp a).set_storages _).storages ≠ []
                unfold Account.set_storages
                split
                · next hx =>
                  exfalso
                  apply hsempty
                  cases hy : (smpOf a).map (fun p : Bytes × Bytes =>
                      (stripVis p.1, p.2)) with
                  | nil => rfl
                  | cons q qs =>
                    rw [hy] at hx
                    simp [List.isEmpty] at hx
                · exact hsempty
              rcases hallSNE hstorNE with ⟨st, hstc, hstrepr⟩
              have hstver : st.trie.storage.ver = .V2 :=
                (hinv2.stOk a st hstc).2.1
              have hv2 : ws2.readStorage (applyChanges backend ⟨ins, dels, []⟩)
                  a k = st.get (applyChanges backend ⟨ins, dels, []⟩) k :=
                readStorage_cached hstc k
              rw [hv2, @st_get_eq st (applyChanges backend ⟨ins, dels, []⟩) _
                hstrepr k, hv1]
              rw [show st.ver = Version.V2 from hstver]
              have hndr : ((acct2.storages.map Prod.fst)).Nodup :=
                (hwfb (a, acct2) hmem2).2
              rw [aGet_aExtend_nil _ (rekey_nodup .V2 acct2.storages hndr)]
              rw [aGet_rekey .V2 acct2.storages k]
              have : aGet acct2.storages k = aGet (smpOf a) (0 :: k) := by
                rw [hstor2]
                rw [set_storages_aGet _ _ rfl k]
                exact aGet_strip_v1 (smpOf a) (hsmp a v hv).2 k
              rw [this]
              rfl
    | none =>
      have houta : a ∉ dm2.map Prod.fst := by
        intro hx
        rcases mem_keys_aGet hx with ⟨w, hw⟩
        rw [hmem] at hw
        exact Option.noConfusion hw
      have hampnone := hout a houta
      have hamp2none : ∀ f, aGet amp2 (TrieKey.account_key .V2 a f) = none := by
        intro f
        rw [hfrA2 a f houta]
        rfl
      have hmapnone : aGet ws2.storage_trie_map a = none := by
        rw [hfrM2 a houta]
        rfl
      refine ⟨?_, ?_, ?_, ?_, ?_⟩
      · refine (hr.1).trans ?_
        rw [hN2, hamp2none .Nonce, hN1, hampnone .Nonce]
      · refine (hr.2.1).trans ?_
        rw [hB2, hamp2none .Balance, hB1, hampnone .Balance]
      · refine (hr.2.2.2.1).trans ?_
        rw [hC2, hamp2none .CbiVersion, hC1, hampnone .CbiVersion]
      · intro c hc
        rw [hCode1, hampnone .ContractCode] at hc
        exact Option.noConfusion (Except.ok.inj hc)
      · intro k
        refine (hr.2.2.2.2 k).trans ?_
        have hv2 : ws2.readStorage (applyChanges backend ⟨ins, dels, []⟩) a k
            = .ok none :=
          readStorage_of_sh_none hinv2.accRepr hinv2.hver hinv2.hver a
            hmapnone (hamp2none .StorageHash) k
        have hv1 : (WorldState.wopen .V1 root).readStorage backend a k
            = .ok none :=
          readStorage_of_sh_none hrepr rfl rfl a rfl (hampnone .StorageHash) k
        rw [hv2, hv1]
  · -- the state roots differ when the V1 content is non-empty
    intro hne hroots
    have hv1root : root = aCodec.hash (aCodec.enc amp) := hrepr.root
    have hv2root : chg2.new_root_hash
        = aCodec.hash (aCodec.enc (writeSH .V2 amp2 ws2.storage_trie_map)) := by
      rw [hroot3]
      exact hreprF.root
    have hampeq : amp = writeSH .V2 amp2 ws2.storage_trie_map := by
      refine aCodecOk.hash_enc_inj _ _ ?_
      rw [← hv1root, ← hv2root, hroots]
    cases hamp : amp with
    | nil => exact hne hamp
    | cons e0 amp' =>
      have hmem0 : e0 ∈ writeSH .V2 amp2 ws2.storage_trie_map := by
        rw [← hampeq, hamp]
        exact List.mem_cons_self _ _
      have hkeyV2 := writeSH_keys .V2 ws2.storage_trie_map amp2 hinv2.ampKeys
        (fun e he => (wsInv_entry_facts hinv2 e he).1) e0 hmem0
      rcases hkeyV2 with ⟨a2, f2, ha2, hk2⟩
      have hkeyV1 : ∃ a f, a.length = 32 ∧
          e0.1 = TrieKey.account_key .V1 a f ∧ fieldTyped f e0.2 :=
        hkeys e0 (by rw [hamp]; exact List.mem_cons_self _ _)
      rcases hkeyV1 with ⟨a1, f1, ha1, hk1, _⟩
      have hlen := congrArg List.length (hk1.symm.trans hk2)
      unfold TrieKey.account_key at hlen
      simp [ha1, ha2] at hlen

/-- Auxiliary: address of the C5 counterexample and witness. -/
def c5A : Bytes := List.replicate 32 0

/-- Auxiliary: the V1 accounts content of the C5 counterexample and witness —
one account holding only a balance. -/
def c5Amp : AKV := [(TrieKey.account_key .V1 c5A .Balance, AVal.raw (leBytes 8 5))]

/-- Auxiliary: the V1 state root of the C5 counterexample and witness. -/
def c5Root : PKey := aCodec.hash (aCodec.enc c5Amp)

/-- Auxiliary: the backend holding the persisted V1 accounts trie. -/
def c5B : List (PKey × PKey) := [(physKey .V1 [] c5Root, aCodec.enc c5Amp)]

/-- Auxiliary: the destroy result of the C5 counterexample. -/
def c5Des : Except WorldStateError (DestroyWorldStateChanges × WorldState) :=
  (WorldState.wopen .V1 c5Root).destroy c5B

/-- Auxiliary: the destroy changes of the C5 counterexample. -/
def c5Dwsc : DestroyWorldStateChanges :=
  match c5Des with
  | .ok (d, _) => d
  | .error _ => ⟨[], [], []⟩

/-- Auxiliary: the torn-down state of the C5 counterexample. -/
def c5Wsd : WorldState :=
  match c5Des with
  | .ok (_, w) => w
  | .error _ => WorldState.init .V1

/-- Auxiliary: the backend after the destroy changes are applied. -/
def c5B1 : List (PKey × PKey) :=
  applyChanges c5B ⟨c5Dwsc.inserts, c5Dwsc.deletes, []⟩

/-- Auxiliary: the build result of the C5 counterexample. -/
def c5Build : Except WorldStateError (WorldStateChanges × WorldState) :=
  (WorldState.init .V2).build c5B1 c5Dwsc.accounts

/-- Auxiliary: the close-batch of the built V2 state. -/
def c5Chg2 : WorldStateChanges :=
  match c5Build with
  | .ok (chg, _) => chg
  | .error _ => ⟨[], [], []⟩

/-- Auxiliary: the sealed V2 state of the C5 counterexample. -/
def c5Ws3 : WorldState :=
  match c5Build with
  | .ok (_, w) => w
  | .error _ => WorldState.init .V2

/-- C5, counterexample to the claim as stated: the upgrade pipeline on a V1
state holding an account with a balance and no contract code succeeds, but the
code read changes across the upgrade — the V1 state answers `none` while the
rebuilt V2 state answers `some []`, because `WorldState::build` writes every
account field, materialising an empty code where V1 stored nothing.  So not
*every* (address, field) read is preserved. -/
theorem c5_code_field_changes_counterexample :
    c5Des = .ok (c5Dwsc, c5Wsd) ∧
    c5Build = .ok (c5Chg2, c5Ws3) ∧
    (WorldState.wopen .V1 c5Root).accounts_trie.code c5B c5A = .ok none ∧
    (WorldState.wopen .V2 c5Chg2.new_root_hash).accounts_trie.code
        (applyChanges c5B1 c5Chg2) c5A = .ok (some []) ∧
    (none : Option Bytes) ≠ some [] := by
  refine ⟨rfl, rfl, rfl, rfl, ?_⟩
  decide

/-- C5 witness: the upgrade round trip at the concrete one-account V1 state of
the counterexample — its hypotheses hold, and the amended agreement follows. -/
theorem c5_upgrade_round_trip_witness :
    ∃ dwsc wsd chg2 ws3,
      (WorldState.wopen .V1 c5Root).destroy c5B = .ok (dwsc, wsd) ∧
      (WorldState.init .V2).build
          (applyChanges c5B ⟨dwsc.inserts, dwsc.deletes, []⟩) dwsc.accounts
        = .ok (chg2, ws3) ∧
      (∀ a, a.length = 32 →
        ((WorldState.wopen .V2 chg2.new_root_hash).accounts_trie.nonce
            (applyChanges (applyChanges c5B ⟨dwsc.inserts, dwsc.deletes, []⟩)
              chg2) a
          = (WorldState.wopen .V1 c5Root).accounts_trie.nonce c5B a) ∧
        ((WorldState.wopen .V2 chg2.new_root_hash).accounts_trie.balance
            (applyChanges (applyChanges c5B ⟨dwsc.inserts, dwsc.deletes, []⟩)
              chg2) a
          = (WorldState.wopen .V1 c5Root).accounts_trie.balance c5B a) ∧
        ((WorldState.wopen .V2 chg2.new_root_hash).accounts_trie.cbi_version
            (applyChanges (applyChanges c5B ⟨dwsc.inserts, dwsc.deletes, []⟩)
              chg2) a
          = (WorldState.wopen .V1 c5Root).accounts_trie.cbi_version c5B a) ∧
        (∀ c, (WorldState.wopen .V1 c5Root).accounts_trie.code c5B a
            = .ok (some c) →
          (WorldState.wopen .V2 chg2.new_root_hash).accounts_trie.code
            (applyChanges (applyChanges c5B ⟨dwsc.inserts, dwsc.deletes, []⟩)
              chg2) a = .ok (some c)) ∧
        (∀ k, (WorldState.wopen .V2 chg2.new_root_hash).readStorage
            (applyChanges (applyChanges c5B ⟨dwsc.inserts, dwsc.deletes, []⟩)
              chg2) a k
          = (WorldState.wopen .V1 c5Root).readStorage c5B a k)) ∧
      (c5Amp ≠ [] → c5Root ≠ chg2.new_root_hash) :=
  c5_upgrade_round_trip c5Root c5B c5Amp (fun _ => ([] : SKV))
    (mptRepr_reopen aCodec aCodecOk .V1 [] c5B c5Amp
      (by simp [c5Amp]) rfl)
    (by
      intro e he
      simp only [c5Amp, List.mem_singleton] at he
      subst he
      exact ⟨c5A, .Balance, by simp [c5A], rfl, 5, rfl⟩)
    (by
      intro a v hv
      exfalso
      have hv2 : (if TrieKey.account_key .V1 c5A .Balance
            = TrieKey.account_key .V1 a .StorageHash
          then some (AVal.raw (leBytes 8 5)) else none) = some v := hv
      by_cases hk : TrieKey.account_key .V1 c5A .Balance
          = TrieKey.account_key .V1 a .StorageHash
      · exact absurd (account_key_inj .V1 c5A a .Balance .StorageHash hk).2
          (by decide)
      · rw [if_neg hk] at hv2
        exact Option.noConfusion hv2)

/-- Value interface the network collections require of `V`
(network/index_map.rs trait bounds): `KeySpaced::key`, `Into<Vec<u8>>` and
`From<Vec<u8>>`. -/
structure VCodec (V : Type) where
  key : V → Bytes
  enc : V → Bytes
  dec : Bytes → V

/-- `IndexMap` (network/index_map.rs lines 16–41): a reverse-indexed map over
the byte store of a network account, carrying its key domain and capacity. -/
structure IndexMap (V : Type) where
  store : List (Bytes × Bytes)
  domain : Bytes
  capacity : Nat

/-- The length key `domain ++ PREFIX_LEN` (PREFIX_LEN = [0u8]). -/
def imLenKey (dom : Bytes) : Bytes := dom ++ [0]

/-- The key-to-index key `domain ++ PREFIX_KEY_INDEX ++ key`
(PREFIX_KEY_INDEX = [1u8]). -/
def imKIKey (dom k : Bytes) : Bytes := dom ++ [1] ++ k

/-- The index-to-value key `domain ++ PREFIX_INDEX_VALUE ++ index.to_le_bytes()`
(PREFIX_INDEX_VALUE = [2u8]). -/
def imIVKey (dom : Bytes) (i : Nat) : Bytes := dom ++ [2] ++ leBytes 4 i

/-- `IndexMap::length` (lines 44–49): 0 when the length cell is absent. -/
def IndexMap.length {V : Type} (m : IndexMap V) : Nat :=
  match aGet m.store (imLenKey m.domain) with
  | some bs => (leDecode 4 bs).getD 0
  | none => 0

/-- `IndexMap::set_length` (lines 89–93). -/
def IndexMap.set_length {V : Type} (m : IndexMap V) (len : Nat) : IndexMap V :=
  { m with store := aPut m.store (imLenKey m.domain) (leBytes 4 len) }

/-- `IndexMap::index_of_key` (lines 95–98). -/
def IndexMap.index_of_key {V : Type} (m : IndexMap V) (k : Bytes) : Option Nat :=
  (aGet m.store (imKIKey m.domain k)).map (fun bs => (leDecode 4 bs).getD 0)

/-- `IndexMap::get` (lines 103–108): `None` past the capacity, otherwise the
decoded stored value. -/
def IndexMap.get {V : Type} (cv : VCodec V) (m : IndexMap V) (i : Nat) :
    Option V :=
  if m.capacity ≤ i then none
  else (aGet m.store (imIVKey m.domain i)).map cv.dec

/-- `IndexMap::set` (lines 113–119): writes `KI[value.key] = index` and then
`IV[index] = value`. -/
def IndexMap.set {V : Type} (cv : VCodec V) (m : IndexMap V) (i : Nat) (v : V) :
    IndexMap V :=
  { m with store :=
      (aPut (aPut m.store (imKIKey m.domain (cv.key v)) (leBytes 4 i))
        (imIVKey m.domain i) (cv.enc v)) }

/-- `IndexMap::delete` (lines 121–127): deletes `KI[key]` and `IV[index]`. -/
def IndexMap.delete {V : Type} (m : IndexMap V) (i : Nat) (k : Bytes) :
    IndexMap V :=
  { m with store :=
      (aDel (aDel m.store (imKIKey m.domain k)) (imIVKey m.domain i)) }

/-- `IndexMap::get_by` (lines 52–55). -/
def IndexMap.get_by {V : Type} (cv : VCodec V) (m : IndexMap V) (k : Bytes) :
    Option V :=
  match m.index_of_key k with
  | some i => m.get cv i
  | none => none

/-- Error type of the fallible `IndexMap` operations. -/
inductive IndexMapOperationError where
  | mk
deriving DecidableEq, Repr

/-- `IndexMap::push` (lines 58–68). -/
def IndexMap.push {V : Type} (cv : VCodec V) (m : IndexMap V) (v : V) :
    Except IndexMapOperationError (IndexMap V) :=
  let len := m.length
  if m.capacity ≤ len then .error .mk
  else .ok ((m.set cv len v).set_length (len + 1))

/-- Error type of the fallible `IndexHeap` operations. -/
inductive IndexHeapOperationError where
  | mk
deriving DecidableEq, Repr

/-- `IndexHeap::swap` (index_heap.rs lines 235–238): `set(i, j_v); set(j, i_v)`. -/
def IndexHeap.swap {V : Type} (cv : VCodec V) (h : IndexMap V) (i : Nat)
    (i_v : V) (j : Nat) (j_v : V) : IndexMap V :=
  (h.set cv i j_v).set cv j i_v

/-- `IndexHeap::replace` (lines 218–230): delete `IV[from_index]` and
`KI[to_v.key]`, then `set(to_index, from_v)`. -/
def IndexHeap.replace {V : Type} (cv : VCodec V) (h : IndexMap V)
    (to_index : Nat) (to_v : V) (from_index : Nat) (from_v : V) : IndexMap V :=
  let h1 : IndexMap V :=
    { h with store := aDel h.store (imIVKey h.domain from_index) }
  let h2 : IndexMap V :=
    { h1 with store := aDel h1.store (imKIKey h.domain (cv.key to_v)) }
  h2.set cv to_index from_v

/-- `IndexHeap::down_heapify` (lines 169–197).  The source is an unbounded
`loop`; the embedding carries explicit fuel, and the sift index strictly
increases while below `length`, so any fuel of at least `length` is exact. -/
def IndexHeap.down_heapify {V : Type} [LinearOrder V] [Inhabited V]
    (cv : VCodec V) : Nat → IndexMap V → Nat → Nat → IndexMap V
  | 0, h, _, _ => h
  | fuel + 1, h, index, length =>
    let left := 2 * index + 1
    let right := 2 * index + 2
    let head1 := if left < length then
        (if (IndexMap.get cv h left).getD default
            < (IndexMap.get cv h index).getD default then left else index)
      else index
    let head2 := if right < length then
        (if (IndexMap.get cv h right).getD default
            < (IndexMap.get cv h head1).getD default then right else head1)
      else head1
    if head2 ≠ index then
      IndexHeap.down_heapify cv fuel
        (IndexHeap.swap cv h index ((IndexMap.get cv h index).getD default)
          head2 ((IndexMap.get cv h head2).getD default))
        head2 length
    else h

/-- `IndexHeap::up_heapify` (lines 200–213), with fuel; the sift index
strictly decreases, so any fuel above the start index is exact. -/
def IndexHeap.up_heapify {V : Type} [LinearOrder V] [Inhabited V]
    (cv : VCodec V) : Nat → IndexMap V → Nat → IndexMap V
  | 0, h, _ => h
  | fuel + 1, h, index =>
    if index = 0 then h
    else
      let parent := (index - 1) / 2
      let value := (IndexMap.get cv h index).getD default
      let parent_v := (IndexMap.get cv h parent).getD default
      if value < parent_v then
        IndexHeap.up_heapify cv fuel
          (IndexHeap.swap cv h index value parent parent_v) parent
      else h

/-- `IndexHeap::extract` (lines 42–61). -/
def IndexHeap.extract {V : Type} [LinearOrder V] [Inhabited V]
    (cv : VCodec V) (h : IndexMap V) : IndexMap V × Option V :=
  let length := h.length
  if length = 0 then (h, none)
  else
    let ret := (IndexMap.get cv h 0).getD default
    if length = 1 then
      (IndexMap.delete (h.set_length 0) 0 (cv.key ret), some ret)
    else
      let first_v := (IndexMap.get cv h 0).getD default
      let last_v := (IndexMap.get cv h (length - 1)).getD default
      let h1 := IndexHeap.replace cv h 0 first_v (length - 1) last_v
      let h2 := h1.set_length (length - 1)
      (IndexHeap.down_heapify cv length h2 0 (length - 1), some ret)

/-- `IndexHeap::insert` (lines 64–77). -/
def IndexHeap.insert {V : Type} [LinearOrder V] [Inhabited V]
    (cv : VCodec V) (h : IndexMap V) (v : V) :
    Except IndexHeapOperationError (IndexMap V) :=
  let length := h.length
  if h.capacity = length then .error .mk
  else
    let h1 := (h.set cv length v).set_length (length + 1)
    .ok (IndexHeap.up_heapify cv (length + 1) h1 length)

/-- `IndexHeap::change_key` (lines 106–124). -/
def IndexHeap.change_key {V : Type} [LinearOrder V] [Inhabited V]
    (cv : VCodec V) (h : IndexMap V) (v : V) : IndexMap V :=
  let length := h.length
  match h.index_of_key (cv.key v) with
  | some index =>
    if index < length then
      let old_value := (IndexMap.get cv h index).getD default
      if old_value < v then
        IndexHeap.down_heapify cv length (h.set cv index v) index length
      else if v < old_value then
        IndexHeap.up_heapify cv (index + 1) (h.set cv index v) index
      else h
    else h
  | none => h

/-- `IndexHeap::remove_item` (lines 137–166). -/
def IndexHeap.remove_item {V : Type} [LinearOrder V] [Inhabited V]
    (cv : VCodec V) (h : IndexMap V) (k : Bytes) : IndexMap V :=
  let length := h.length
  match h.index_of_key k with
  | some index =>
    if index < length then
      if index = 0 then (IndexHeap.extract cv h).1
      else if index = length - 1 then
        (IndexMap.delete h index k).set_length (length - 1)
      else
        let this_v := (IndexMap.get cv h index).getD default
        let last_v := (IndexMap.get cv h (length - 1)).getD default
        let h1 := (IndexHeap.replace cv h index this_v (length - 1)
          last_v).set_length (length - 1)
        if this_v < last_v then
          IndexHeap.down_heapify cv length h1 index (length - 1)
        else if last_v < this_v then
          IndexHeap.up_heapify cv (index + 1) h1 index
        else h1
    else h
  | none => h

/-- The heap operations quantified over by the claim. -/
inductive HeapOp (V : Type) where
  | insert (v : V)
  | remove_item (k : Bytes)
  | change_key (v : V)

/-- One claim step: a failed insert leaves the heap unchanged. -/
def stepHeap {V : Type} [LinearOrder V] [Inhabited V] (cv : VCodec V)
    (h : IndexMap V) : HeapOp V → IndexMap V
  | .insert v =>
    match IndexHeap.insert cv h v with
    | .ok h2 => h2
    | .error _ => h
  | .remove_item k => IndexHeap.remove_item cv h k
  | .change_key v => IndexHeap.change_key cv h v

/-- Run a sequence of heap operations. -/
def runHeap {V : Type} [LinearOrder V] [Inhabited V] (cv : VCodec V)
    (h : IndexMap V) : List (HeapOp V) → IndexMap V
  | [] => h
  | op :: rest => runHeap cv (stepHeap cv h op) rest

/-- The claim's provisos along a run, checked on the evolving state: an insert
happens below capacity and with a key that is not currently live. -/
def goodRun {V : Type} [LinearOrder V] [Inhabited V] (cv : VCodec V)
    (h : IndexMap V) : List (HeapOp V) → Bool
  | [] => true
  | op :: rest =>
    (match op with
     | .insert v => decide (h.index_of_key (cv.key v) = none)
         && decide (h.length < h.capacity)
     | .remove_item _ => true
     | .change_key _ => true)
    && goodRun cv (stepHeap cv h op) rest

/-- Repeatedly extract until the fuel or the heap runs out. -/
def extractAll {V : Type} [LinearOrder V] [Inhabited V] (cv : VCodec V) :
    Nat → IndexMap V → List V
  | 0, _ => []
  | fuel + 1, h =>
    match IndexHeap.extract cv h with
    | (h2, some v) => v :: extractAll cv fuel h2
    | (_, none) => []

/-- The child relation of the implicit binary heap: `left = 2i+1`,
`right = 2i+2`. -/
def childOf (p j : Nat) : Prop := j = 2 * p + 1 ∨ j = 2 * p + 2

/-- The min-heap property of the represented element list. -/
def IsHeap {V : Type} [LinearOrder V] (l : List V) : Prop :=
  ∀ p j v w, childOf p j → l.get? p = some v → l.get? j = some w → ¬ w < v

/-- Representation invariant tying an `IndexMap` store to the list of its
live elements in index order: the length cell, both directions of the
key/index/value maps, and the capacity bounds. -/
structure MRepr {V : Type} (cv : VCodec V) (h : IndexMap V) (l : List V) :
    Prop where
  hcap : h.capacity < 256 ^ 4
  hlen : h.length = l.length
  hle : l.length ≤ h.capacity
  hget : ∀ i, IndexMap.get cv h i = l.get? i
  hki : ∀ i v, l.get? i = some v → h.index_of_key (cv.key v) = some i
  hki_inv : ∀ k i, h.index_of_key k = some i →
    ∃ v, l.get? i = some v ∧ cv.key v = k

theorem lget_ge {V : Type} : ∀ (l : List V) i, l.length ≤ i → l.get? i = none := by
  intro l
  induction l with
  | nil => intro i _; cases i <;> rfl
  | cons x t ih =>
    intro i hi
    cases i with
    | zero => exact absurd hi (by simp)
    | succ n => exact ih n (Nat.le_of_succ_le_succ hi)

theorem lget_lt {V : Type} : ∀ (l : List V) i, i < l.length →
    ∃ v, l.get? i = some v := by
  intro l
  induction l with
  | nil => intro i hi; exact absurd hi (by simp)
  | cons x t ih =>
    intro i hi
    cases i with
    | zero => exact ⟨x, rfl⟩
    | succ n => exact ih n (Nat.lt_of_succ_lt_succ hi)

theorem lget_length {V : Type} {l : List V} {i : Nat} {v : V}
    (h : l.get? i = some v) : i < l.length := by
  by_contra hx
  rw [lget_ge l i (Nat.le_of_not_lt hx)] at h
  exact Option.noConfusion h

theorem lset_get_self {V : Type} : ∀ (l : List V) i v, i < l.length →
    (l.set i v).get? i = some v := by
  intro l
  induction l with
  | nil => intro i v hi; exact absurd hi (by simp)
  | cons x t ih =>
    intro i v hi
    cases i with
    | zero => rfl
    | succ n => exact ih n v (Nat.lt_of_succ_lt_succ hi)

theorem lset_get_other {V : Type} : ∀ (l : List V) i j v, j ≠ i →
    (l.set i v).get? j = l.get? j := by
  intro l
  induction l with
  | nil => intro i j v _; cases i <;> rfl
  | cons x t ih =>
    intro i j v hne
    cases i with
    | zero =>
      cases j with
      | zero => exact absurd rfl hne
      | succ m => rfl
    | succ n =>
      cases j with
      | zero => rfl
      | succ m => exact ih n m v (fun hx => hne (by rw [hx]))

theorem lset_self {V : Type} : ∀ (l : List V) i v, l.get? i = some v →
    l.set i v = l := by
  intro l
  induction l with
  | nil => intro i v h; exact Option.noConfusion h
  | cons x t ih =>
    intro i v h
    cases i with
    | zero =>
      have : x = v := Option.some.inj h
      rw [List.set, this]
    | succ n =>
      rw [List.set, ih n v h]

theorem ltake_get_lt {V : Type} : ∀ (l : List V) n i, i < n →
    (l.take n).get? i = l.get? i := by
  intro l
  induction l with
  | nil => intro n i _; simp
  | cons x t ih =>
    intro n i hi
    cases n with
    | zero => exact absurd hi (by simp)
    | succ m =>
      cases i with
      | zero => rfl
      | succ p => exact ih m p (Nat.lt_of_succ_lt_succ hi)

theorem ltake_get_ge {V : Type} (l : List V) (n i : Nat) (h : n ≤ i) :
    (l.take n).get? i = none := by
  refine lget_ge _ i (le_trans ?_ h)
  exact le_trans (List.length_take n l).le (min_le_left _ _)

theorem lappend_get_lt {V : Type} : ∀ (l : List V) (v : V) i, i < l.length →
    (l ++ [v]).get? i = l.get? i := by
  intro l v
  induction l with
  | nil => intro i hi; exact absurd hi (by simp)
  | cons x t ih =>
    intro i hi
    cases i with
    | zero => rfl
    | succ n => exact ih n (Nat.lt_of_succ_lt_succ hi)

theorem lappend_get_self {V : Type} : ∀ (l : List V) (v : V),
    (l ++ [v]).get? l.length = some v := by
  intro l v
  induction l with
  | nil => rfl
  | cons x t ih => exact ih

theorem lperm_cons_set {V : Type} : ∀ (t : List V) m a b, t.get? m = some b →
    (b :: t.set m a).Perm (a :: t) := by
  intro t
  induction t with
  | nil => intro m a b h; exact Option.noConfusion h
  | cons c t' ih =>
    intro m a b h
    cases m with
    | zero =>
      have : c = b := Option.some.inj h
      subst this
      exact List.Perm.swap a c t'
    | succ m' =>
      show (b :: c :: t'.set m' a).Perm (a :: c :: t')
      refine ((List.Perm.swap c b _).trans ?_).trans (List.Perm.swap a c t')
      exact List.Perm.cons c (ih m' a b h)

theorem lperm_last {V : Type} : ∀ (t : List V) b,
    t.get? (t.length - 1) = some b →
    (b :: t.take (t.length - 1)).Perm t
  | [], _, h => Option.noConfusion h
  | [c], b, h => by
    have : c = b := Option.some.inj h
    subst this
    exact List.Perm.refl _
  | c :: d :: t2, b, h => by
    have h2 : (d :: t2).get? ((d :: t2).length - 1) = some b := h
    have ih := lperm_last (d :: t2) b h2
    show (b :: c :: (d :: t2).take ((d :: t2).length - 1)).Perm (c :: d :: t2)
    exact (List.Perm.swap c b _).trans (List.Perm.cons c ih)

theorem lperm_set_take {V : Type} : ∀ (l : List V) i a b, i < l.length - 1 →
    l.get? i = some a → l.get? (l.length - 1) = some b →
    (a :: (l.set i b).take (l.length - 1)).Perm l
  | [], i, _, _, hi, _, _ => absurd hi (by simp)
  | [x], i, _, _, hi, _, _ => absurd hi (by simp)
  | x :: y :: t, 0, a, b, hi, ha, hb => by
    have : x = a := Option.some.inj ha
    subst this
    have hb2 : (y :: t).get? ((y :: t).length - 1) = some b := hb
    show (x :: b :: (y :: t).take ((y :: t).length - 1)).Perm (x :: y :: t)
    exact List.Perm.cons x (lperm_last (y :: t) b hb2)
  | x :: y :: t, i + 1, a, b, hi, ha, hb => by
    have hi2 : i < (y :: t).length - 1 := Nat.lt_of_succ_lt_succ hi
    have ha2 : (y :: t).get? i = some a := ha
    have hb2 : (y :: t).get? ((y :: t).length - 1) = some b := hb
    have ih := lperm_set_take (y :: t) i a b hi2 ha2 hb2
    show (a :: x :: ((y :: t).set i b).take ((y :: t).length - 1)).Perm
      (x :: y :: t)
    exact (List.Perm.swap x a _).trans (List.Perm.cons x ih)

theorem imLenKey_ne_ki (dom k : Bytes) : imLenKey dom ≠ imKIKey dom k := by
  intro h
  unfold imLenKey imKIKey at h
  rw [List.append_assoc] at h
  have := List.append_cancel_left h
  simp at this

theorem imLenKey_ne_iv (dom : Bytes) (i : Nat) :
    imLenKey dom ≠ imIVKey dom i := by
  intro h
  unfold imLenKey imIVKey at h
  rw [List.append_assoc] at h
  have := List.append_cancel_left h
  simp at this

theorem imKIKey_ne_iv (dom k : Bytes) (i : Nat) :
    imKIKey dom k ≠ imIVKey dom i := by
  intro h
  unfold imKIKey imIVKey at h
  rw [List.append_assoc, List.append_assoc] at h
  have := List.append_cancel_left h
  simp at this

theorem imKIKey_inj {dom k k' : Bytes} (h : imKIKey dom k = imKIKey dom k') :
    k = k' := by
  unfold imKIKey at h
  rw [List.append_assoc, List.append_assoc] at h
  have := List.append_cancel_left h
  simpa using this

theorem imIVKey_inj {dom : Bytes} {i j : Nat} (hi : i < 256 ^ 4)
    (hj : j < 256 ^ 4) (h : imIVKey dom i = imIVKey dom j) : i = j := by
  unfold imIVKey at h
  rw [List.append_assoc, List.append_assoc] at h
  have h2 := List.append_cancel_left h
  have h3 : leBytes 4 i = leBytes 4 j := by simpa using h2
  have h4 : leDecode 4 (leBytes 4 i) = leDecode 4 (leBytes 4 j) := by rw [h3]
  rw [leDecode_leBytes, leDecode_leBytes, Nat.mod_eq_of_lt hi,
    Nat.mod_eq_of_lt hj] at h4
  exact Option.some.inj h4

theorem im_set_length {V : Type} (cv : VCodec V) (m : IndexMap V) (i : Nat)
    (v : V) : (IndexMap.set cv m i v).length = m.length := by
  simp only [IndexMap.length, IndexMap.set]
  rw [aGet_aPut, if_neg (fun hx => imLenKey_ne_iv m.domain i hx.symm),
    aGet_aPut, if_neg (fun hx => imLenKey_ne_ki m.domain (cv.key v) hx.symm)]

theorem im_set_get_self {V : Type} (cv : VCodec V) (m : IndexMap V) (i : Nat)
    (v : V) (hi : i < m.capacity) :
    (IndexMap.set cv m i v).get cv i = some (cv.dec (cv.enc v)) := by
  simp only [IndexMap.get, IndexMap.set]
  rw [if_neg (Nat.not_le_of_lt hi)]
  rw [aGet_aPut, if_pos rfl]
  rfl

theorem im_set_get_other {V : Type} (cv : VCodec V) (m : IndexMap V)
    (i j : Nat) (v : V) (hii : i < 256 ^ 4) (hjj : j < 256 ^ 4) (hne : j ≠ i) :
    (IndexMap.set cv m i v).get cv j = m.get cv j := by
  simp only [IndexMap.get, IndexMap.set]
  by_cases hcap : m.capacity ≤ j
  · rw [if_pos hcap, if_pos hcap]
  · rw [if_neg hcap, if_neg hcap]
    rw [aGet_aPut, if_neg (fun hx => hne (imIVKey_inj hii hjj hx).symm),
      aGet_aPut, if_neg (imKIKey_ne_iv m.domain (cv.key v) j)]

theorem im_set_ki_self {V : Type} (cv : VCodec V) (m : IndexMap V) (i : Nat)
    (v : V) (hi : i < 256 ^ 4) :
    (IndexMap.set cv m i v).index_of_key (cv.key v) = some i := by
  simp only [IndexMap.index_of_key, IndexMap.set]
  rw [aGet_aPut, if_neg (fun hx => imKIKey_ne_iv m.domain (cv.key v) i hx.symm),
    aGet_aPut, if_pos rfl]
  show some ((leDecode 4 (leBytes 4 i)).getD 0) = some i
  rw [leDecode_leBytes, Nat.mod_eq_of_lt hi]
  rfl

theorem im_set_ki_other {V : Type} (cv : VCodec V) (m : IndexMap V) (i : Nat)
    (v : V) (k : Bytes) (hk : k ≠ cv.key v) :
    (IndexMap.set cv m i v).index_of_key k = m.index_of_key k := by
  simp only [IndexMap.index_of_key, IndexMap.set]
  rw [aGet_aPut, if_neg (fun hx => imKIKey_ne_iv m.domain k i hx.symm),
    aGet_aPut, if_neg (fun hx => hk (imKIKey_inj hx).symm)]

theorem im_setlen_length {V : Type} (m : IndexMap V) (len : Nat)
    (h : len < 256 ^ 4) : (IndexMap.set_length m len).length = len := by
  simp only [IndexMap.length, IndexMap.set_length]
  rw [aGet_aPut, if_pos rfl]
  show (leDecode 4 (leBytes 4 len)).getD 0 = len
  rw [leDecode_leBytes, Nat.mod_eq_of_lt h]
  rfl

theorem im_setlen_get {V : Type} (cv : VCodec V) (m : IndexMap V) (n i : Nat) :
    (IndexMap.set_length m n).get cv i = m.get cv i := by
  simp only [IndexMap.get, IndexMap.set_length]
  by_cases hcap : m.capacity ≤ i
  · rw [if_pos hcap, if_pos hcap]
  · rw [if_neg hcap, if_neg hcap,
      aGet_aPut, if_neg (imLenKey_ne_iv m.domain i)]

theorem im_setlen_ki {V : Type} (m : IndexMap V) (n : Nat) (k : Bytes) :
    (IndexMap.set_length m n).index_of_key k = m.index_of_key k := by
  simp only [IndexMap.index_of_key, IndexMap.set_length]
  rw [aGet_aPut, if_neg (imLenKey_ne_ki m.domain k)]

theorem im_del_length {V : Type} (m : IndexMap V) (i : Nat) (k : Bytes) :
    (IndexMap.delete m i k).length = m.length := by
  simp only [IndexMap.length, IndexMap.delete]
  rw [aGet_aDel, if_neg (fun hx => imLenKey_ne_iv m.domain i hx.symm),
    aGet_aDel, if_neg (fun hx => imLenKey_ne_ki m.domain k hx.symm)]

theorem im_del_get_self {V : Type} (cv : VCodec V) (m : IndexMap V) (i : Nat)
    (k : Bytes) : (IndexMap.delete m i k).get cv i = none := by
  simp only [IndexMap.get, IndexMap.delete]
  by_cases hcap : m.capacity ≤ i
  · rw [if_pos hcap]
  · rw [if_neg hcap, aGet_aDel, if_pos rfl]
    rfl

theorem im_del_get_other {V : Type} (cv : VCodec V) (m : IndexMap V)
    (i j : Nat) (k : Bytes) (hii : i < 256 ^ 4) (hjj : j < 256 ^ 4)
    (hne : j ≠ i) : (IndexMap.delete m i k).get cv j = m.get cv j := by
  simp only [IndexMap.get, IndexMap.delete]
  by_cases hcap : m.capacity ≤ j
  · rw [if_pos hcap, if_pos hcap]
  · rw [if_neg hcap, if_neg hcap,
      aGet_aDel, if_neg (fun hx => hne (imIVKey_inj hii hjj hx).symm),
      aGet_aDel, if_neg (imKIKey_ne_iv m.domain k j)]

theorem im_del_ki_self {V : Type} (m : IndexMap V) (i : Nat) (k : Bytes) :
    (IndexMap.delete m i k).index_of_key k = none := by
  simp only [IndexMap.index_of_key, IndexMap.delete]
  rw [aGet_aDel, if_neg (fun hx => imKIKey_ne_iv m.domain k i hx.symm),
    aGet_aDel, if_pos rfl]
  rfl

theorem im_del_ki_other {V : Type} (m : IndexMap V) (i : Nat) (k k' : Bytes)
    (hk : k' ≠ k) :
    (IndexMap.delete m i k).index_of_key k' = m.index_of_key k' := by
  simp only [IndexMap.index_of_key, IndexMap.delete]
  rw [aGet_aDel, if_neg (fun hx => imKIKey_ne_iv m.domain k' i hx.symm),
    aGet_aDel, if_neg (fun hx => hk (imKIKey_inj hx).symm)]

theorem im_get_big {V : Type} (cv : VCodec V) (m : IndexMap V) (i : Nat)
    (h : m.capacity ≤ i) : m.get cv i = none := by
  unfold IndexMap.get
  rw [if_pos h]

theorem aDel_comm {κ α : Type} [DecidableEq κ] (m : List (κ × α)) (k k' : κ) :
    aDel (aDel m k) k' = aDel (aDel m k') k := by
  unfold aDel
  rw [List.filter_filter, List.filter_filter]
  congr 1
  funext p
  exact Bool.and_comm _ _

theorem replace_eq_set_del {V : Type} (cv : VCodec V) (h : IndexMap V)
    (i : Nat) (a : V) (fi : Nat) (b : V) :
    IndexHeap.replace cv h i a fi b
      = IndexMap.set cv (IndexMap.delete h fi (cv.key a)) i b := by
  unfold IndexHeap.replace IndexMap.set IndexMap.delete
  rw [aDel_comm]

theorem mrepr_keys_ne {V : Type} {cv : VCodec V} {h : IndexMap V} {l : List V}
    (hm : MRepr cv h l) {i j : Nat} {v w : V} (hne : i ≠ j)
    (hi : l.get? i = some v) (hj : l.get? j = some w) :
    cv.key v ≠ cv.key w := by
  intro hx
  have h1 := hm.hki i v hi
  have h2 := hm.hki j w hj
  rw [hx] at h1
  rw [h1] at h2
  exact hne (Option.some.inj h2)

theorem swap_mrepr {V : Type} (cv : VCodec V)
    (hcv : ∀ v, cv.dec (cv.enc v) = v) {h : IndexMap V} {l : List V}
    (hm : MRepr cv h l) {i j : Nat} {a b : V} (hne : i ≠ j)
    (hi : l.get? i = some a) (hj : l.get? j = some b) :
    MRepr cv (IndexHeap.swap cv h i a j b) ((l.set i b).set j a) := by
  have hil : i < l.length := lget_length hi
  have hjl : j < l.length := lget_length hj
  have hi4 : i < 256 ^ 4 := lt_of_lt_of_le hil (le_trans hm.hle hm.hcap.le)
  have hj4 : j < 256 ^ 4 := lt_of_lt_of_le hjl (le_trans hm.hle hm.hcap.le)
  have hicap : i < h.capacity := lt_of_lt_of_le hil hm.hle
  have hjcap : j < h.capacity := lt_of_lt_of_le hjl hm.hle
  have hkab : cv.key a ≠ cv.key b := mrepr_keys_ne hm hne hi hj
  refine ⟨hm.hcap, ?_, ?_, ?_, ?_, ?_⟩
  · show ((h.set cv i b).set cv j a).length = _
    rw [im_set_length, im_set_length, hm.hlen]
    simp only [List.length_set]
  · show ((l.set i b).set j a).length ≤ _
    simp only [List.length_set]
    exact hm.hle
  · intro q
    show ((h.set cv i b).set cv j a).get cv q = _
    by_cases hq : q = j
    · rw [hq]
      rw [im_set_get_self cv (h.set cv i b) j a hjcap, hcv,
        lset_get_self _ j a (by simpa using hjl)]
    · by_cases hq2 : q = i
      · rw [hq2]
        rw [im_set_get_other cv (h.set cv i b) j i a hj4 hi4 hne,
          im_set_get_self cv h i b hicap, hcv,
          lset_get_other _ j i a hne, lset_get_self _ i b hil]
      · by_cases hbig : h.capacity ≤ q
        · rw [im_get_big cv ((h.set cv i b).set cv j a) q hbig,
            lset_get_other _ j q a hq,
            lset_get_other _ i q b hq2,
            lget_ge l q (le_trans hm.hle hbig)]
        · have hq4 : q < 256 ^ 4 := lt_of_lt_of_le (Nat.lt_of_not_le hbig)
            hm.hcap.le
          rw [im_set_get_other cv (h.set cv i b) j q a hj4 hq4 hq,
            im_set_get_other cv h i q b hi4 hq4 hq2, hm.hget q,
            lset_get_other _ j q a hq, lset_get_other _ i q b hq2]
  · intro q v hv
    show ((h.set cv i b).set cv j a).index_of_key (cv.key v) = some q
    by_cases hq : q = j
    · rw [hq] at hv ⊢
      rw [lset_get_self _ j a (by simpa using hjl)] at hv
      have hva : v = a := (Option.some.inj hv).symm
      rw [hva]
      exact im_set_ki_self cv (h.set cv i b) j a hj4
    · by_cases hq2 : q = i
      · rw [hq2] at hv ⊢
        rw [lset_get_other _ j i a hne, lset_get_self _ i b hil] at hv
        have hvb : v = b := (Option.some.inj hv).symm
        rw [hvb]
        rw [im_set_ki_other cv (h.set cv i b) j a (cv.key b) hkab.symm]
        exact im_set_ki_self cv h i b hi4
      · rw [lset_get_other _ j q a hq, lset_get_other _ i q b hq2] at hv
        have hka : cv.key v ≠ cv.key a := mrepr_keys_ne hm hq2 hv hi
        have hkb : cv.key v ≠ cv.key b := mrepr_keys_ne hm hq hv hj
        rw [im_set_ki_other cv (h.set cv i b) j a (cv.key v) hka,
          im_set_ki_other cv h i b (cv.key v) hkb]
        exact hm.hki q v hv
  · intro k q hk
    have hk2 : ((h.set cv i b).set cv j a).index_of_key k = some q := hk
    by_cases hka : k = cv.key a
    · rw [hka] at hk2 ⊢
      rw [im_set_ki_self cv (h.set cv i b) j a hj4] at hk2
      obtain rfl : q = j := (Option.some.inj hk2).symm
      exact ⟨a, lset_get_self _ q a (by simpa using hjl), rfl⟩
    · rw [im_set_ki_other cv (h.set cv i b) j a k hka] at hk2
      by_cases hkb : k = cv.key b
      · rw [hkb] at hk2 ⊢
        rw [im_set_ki_self cv h i b hi4] at hk2
        obtain rfl : q = i := (Option.some.inj hk2).symm
        refine ⟨b, ?_, rfl⟩
        rw [lset_get_other _ j q a (fun hx => hne (hx ▸ rfl)),
          lset_get_self _ q b hil]
      · rw [im_set_ki_other cv h i b k hkb] at hk2
        rcases hm.hki_inv k q hk2 with ⟨v, hvq, hkv⟩
        have hqi : q ≠ i := by
          intro hx
          rw [hx, hi] at hvq
          exact hka (by rw [← hkv, Option.some.inj hvq])
        have hqj : q ≠ j := by
          intro hx
          rw [hx, hj] at hvq
          exact hkb (by rw [← hkv, Option.some.inj hvq])
        refine ⟨v, ?_, hkv⟩
        rw [lset_get_other _ j q a hqj, lset_get_other _ i q b hqi]
        exact hvq

theorem replace_shrink_mrepr {V : Type} (cv : VCodec V)
    (hcv : ∀ v, cv.dec (cv.enc v) = v) {h : IndexMap V} {l : List V}
    (hm : MRepr cv h l) {i : Nat} (hi : i < l.length - 1) {a b : V}
    (ha : l.get? i = some a) (hb : l.get? (l.length - 1) = some b) :
    MRepr cv ((IndexHeap.replace cv h i a (l.length - 1) b).set_length
      (l.length - 1)) ((l.set i b).take (l.length - 1)) := by
  have hil : i < l.length := lt_of_lt_of_le hi (Nat.sub_le _ _)
  have hlpos : 0 < l.length := lt_of_le_of_lt (Nat.zero_le i) hil
  have hl1 : l.length - 1 < l.length := Nat.sub_lt hlpos Nat.one_pos
  have hi4 : i < 256 ^ 4 := lt_of_lt_of_le hil (le_trans hm.hle hm.hcap.le)
  have hl14 : l.length - 1 < 256 ^ 4 :=
    lt_of_lt_of_le hl1 (le_trans hm.hle hm.hcap.le)
  have hlen4 : l.length - 1 < 256 ^ 4 := hl14
  have hicap : i < h.capacity := lt_of_lt_of_le hil hm.hle
  have hine : i ≠ l.length - 1 := Nat.ne_of_lt hi
  have hkab : cv.key a ≠ cv.key b := mrepr_keys_ne hm hine ha hb
  have hrep : IndexHeap.replace cv h i a (l.length - 1) b
      = IndexMap.set cv (IndexMap.delete h (l.length - 1) (cv.key a)) i b :=
    replace_eq_set_del cv h i a (l.length - 1) b
  have hl2len : ((l.set i b).take (l.length - 1)).length = l.length - 1 := by
    rw [List.length_take, List.length_set]
    exact min_eq_left (Nat.sub_le _ _)
  refine ⟨hm.hcap, ?_, ?_, ?_, ?_, ?_⟩
  · rw [im_setlen_length _ _ hlen4, hl2len]
  · rw [hl2len]
    exact le_trans (Nat.sub_le _ _) hm.hle
  · intro q
    rw [im_setlen_get, hrep]
    by_cases hq : q = i
    · rw [hq]
      rw [im_set_get_self cv (IndexMap.delete h (l.length - 1) (cv.key a))
          i b hicap, hcv,
        ltake_get_lt _ _ _ hi, lset_get_self _ i b hil]
    · by_cases hbig : h.capacity ≤ q
      · rw [im_get_big cv (IndexMap.set cv
            (IndexMap.delete h (l.length - 1) (cv.key a)) i b) q hbig,
          ltake_get_ge _ _ _ (le_trans (Nat.sub_le _ _) (le_trans hm.hle hbig))]
      · have hq4 : q < 256 ^ 4 := lt_of_lt_of_le (Nat.lt_of_not_le hbig)
          hm.hcap.le
        rw [im_set_get_other cv _ i q b hi4 hq4 hq]
        by_cases hq2 : q = l.length - 1
        · rw [hq2]
          rw [im_del_get_self, ltake_get_ge _ _ _ (le_refl _)]
        · rw [im_del_get_other cv _ _ _ _ hl14 hq4 hq2, hm.hget q]
          by_cases hqlt : q < l.length - 1
          · rw [ltake_get_lt _ _ _ hqlt, lset_get_other _ i q b hq]
          · rw [ltake_get_ge _ _ _ (Nat.le_of_not_lt hqlt),
              lget_ge l q (by omega)]
  · intro q v hv
    have hql : q < l.length - 1 := by
      have := lget_length hv
      rw [hl2len] at this
      exact this
    rw [ltake_get_lt _ _ _ hql] at hv
    rw [im_setlen_ki, hrep]
    by_cases hq : q = i
    · rw [hq] at hv ⊢
      rw [lset_get_self _ i b hil] at hv
      have hvb : v = b := (Option.some.inj hv).symm
      rw [hvb]
      exact im_set_ki_self cv _ i b hi4
    · rw [lset_get_other _ i q b hq] at hv
      have hkvb : cv.key v ≠ cv.key b :=
        mrepr_keys_ne hm (Nat.ne_of_lt hql) hv hb
      have hkva : cv.key v ≠ cv.key a := mrepr_keys_ne hm hq hv ha
      rw [im_set_ki_other cv _ i b (cv.key v) hkvb,
        im_del_ki_other _ _ _ _ hkva]
      exact hm.hki q v hv
  · intro k q hk
    rw [im_setlen_ki, hrep] at hk
    by_cases hkb : k = cv.key b
    · rw [hkb] at hk ⊢
      rw [im_set_ki_self cv _ i b hi4] at hk
      obtain rfl : q = i := (Option.some.inj hk).symm
      exact ⟨b, by rw [ltake_get_lt _ _ _ hi, lset_get_self _ q b hil], rfl⟩
    · rw [im_set_ki_other cv _ i b k hkb] at hk
      by_cases hka : k = cv.key a
      · rw [hka] at hk
        rw [im_del_ki_self] at hk
        exact Option.noConfusion hk
      · rw [im_del_ki_other _ _ _ _ hka] at hk
        rcases hm.hki_inv k q hk with ⟨v, hvq, hkv⟩
        have hqi : q ≠ i := by
          intro hx
          rw [hx, ha] at hvq
          exact hka (by rw [← hkv, Option.some.inj hvq])
        have hql1 : q ≠ l.length - 1 := by
          intro hx
          rw [hx, hb] at hvq
          exact hkb (by rw [← hkv, Option.some.inj hvq])
        have hqlt : q < l.length - 1 := by
          have := lget_length hvq
          omega
        refine ⟨v, ?_, hkv⟩
        rw [ltake_get_lt _ _ _ hqlt, lset_get_other _ i q b hqi]
        exact hvq

theorem del_last_mrepr {V : Type} (cv : VCodec V) {h : IndexMap V}
    {l : List V} (hm : MRepr cv h l) {m : V}
    (hlast : l.get? (l.length - 1) = some m) :
    MRepr cv ((IndexMap.delete h (l.length - 1) (cv.key m)).set_length
      (l.length - 1)) (l.take (l.length - 1)) := by
  have hl1 : l.length - 1 < l.length := by
    have := lget_length hlast
    omega
  have hl14 : l.length - 1 < 256 ^ 4 :=
    lt_of_lt_of_le hl1 (le_trans hm.hle hm.hcap.le)
  have htlen : (l.take (l.length - 1)).length = l.length - 1 := by
    rw [List.length_take]
    exact min_eq_left (Nat.sub_le _ _)
  refine ⟨hm.hcap, ?_, ?_, ?_, ?_, ?_⟩
  · rw [im_setlen_length _ _ hl14, htlen]
  · rw [htlen]
    exact le_trans (Nat.sub_le _ _) hm.hle
  · intro q
    rw [im_setlen_get]
    by_cases hq : q = l.length - 1
    · rw [hq]
      rw [im_del_get_self, ltake_get_ge _ _ _ (le_refl _)]
    · by_cases hbig : h.capacity ≤ q
      · rw [im_get_big cv (IndexMap.delete h (l.length - 1) (cv.key m)) q hbig,
          ltake_get_ge _ _ _ (le_trans (Nat.sub_le _ _) (le_trans hm.hle hbig))]
      · have hq4 : q < 256 ^ 4 := lt_of_lt_of_le (Nat.lt_of_not_le hbig)
          hm.hcap.le
        rw [im_del_get_other cv _ _ _ _ hl14 hq4 hq, hm.hget q]
        by_cases hqlt : q < l.length - 1
        · rw [ltake_get_lt _ _ _ hqlt]
        · rw [ltake_get_ge _ _ _ (Nat.le_of_not_lt hqlt),
            lget_ge l q (by omega)]
  · intro q v hv
    have hql : q < l.length - 1 := by
      have := lget_length hv
      rw [htlen] at this
      exact this
    rw [ltake_get_lt _ _ _ hql] at hv
    have hkvm : cv.key v ≠ cv.key m :=
      mrepr_keys_ne hm (Nat.ne_of_lt hql) hv hlast
    rw [im_setlen_ki, im_del_ki_other _ _ _ _ hkvm]
    exact hm.hki q v hv
  · intro k q hk
    rw [im_setlen_ki] at hk
    by_cases hkm : k = cv.key m
    · rw [hkm] at hk
      rw [im_del_ki_self] at hk
      exact Option.noConfusion hk
    · rw [im_del_ki_other _ _ _ _ hkm] at hk
      rcases hm.hki_inv k q hk with ⟨v, hvq, hkv⟩
      have hql1 : q ≠ l.length - 1 := by
        intro hx
        rw [hx, hlast] at hvq
        exact hkm (by rw [← hkv, Option.some.inj hvq])
      have hqlt : q < l.length - 1 := by
        have := lget_length hvq
        omega
      exact ⟨v, by rw [ltake_get_lt _ _ _ hqlt]; exact hvq, hkv⟩

theorem extract_one_mrepr {V : Type} (cv : VCodec V) {h : IndexMap V}
    {l : List V} (hm : MRepr cv h l) {m : V} (hl : l.length = 1)
    (hm0 : l.get? 0 = some m) :
    MRepr cv (IndexMap.delete (h.set_length 0) 0 (cv.key m)) [] := by
  have h04 : (0 : Nat) < 256 ^ 4 := by norm_num
  refine ⟨hm.hcap, ?_, ?_, ?_, ?_, ?_⟩
  · rw [im_del_length, im_setlen_length _ _ h04]
    rfl
  · exact Nat.zero_le _
  · intro q
    rw [show (([] : List V).get? q) = none from lget_ge [] q (Nat.zero_le q)]
    by_cases hq : q = 0
    · rw [hq]
      exact im_del_get_self cv _ 0 (cv.key m)
    · by_cases hbig : h.capacity ≤ q
      · exact im_get_big cv _ q hbig
      · have hq4 : q < 256 ^ 4 := lt_of_lt_of_le (Nat.lt_of_not_le hbig)
          hm.hcap.le
        rw [im_del_get_other cv _ _ _ _ h04 hq4 hq, im_setlen_get, hm.hget q]
        exact lget_ge l q (by omega)
  · intro q v hv
    exact absurd hv (by rw [lget_ge [] q (Nat.zero_le q)]; exact
      fun hx => Option.noConfusion hx)
  · intro k q hk
    by_cases hkm : k = cv.key m
    · rw [hkm, im_del_ki_self] at hk
      exact Option.noConfusion hk
    · rw [im_del_ki_other _ _ _ _ hkm, im_setlen_ki] at hk
      rcases hm.hki_inv k q hk with ⟨v, hvq, hkv⟩
      have : q < 1 := by
        have := lget_length hvq
        omega
      have hq0 : q = 0 := by omega
      rw [hq0, hm0] at hvq
      exact absurd (by rw [← hkv, Option.some.inj hvq]) hkm

theorem append_mrepr {V : Type} (cv : VCodec V)
    (hcv : ∀ v, cv.dec (cv.enc v) = v) {h : IndexMap V} {l : List V}
    (hm : MRepr cv h l) {v : V}
    (hfresh : ∀ q w, l.get? q = some w → cv.key w ≠ cv.key v)
    (hcaplt : l.length < h.capacity) :
    MRepr cv ((h.set cv l.length v).set_length (l.length + 1)) (l ++ [v]) := by
  have hlen4 : l.length < 256 ^ 4 := lt_of_lt_of_le hcaplt hm.hcap.le
  have hlen14 : l.length + 1 < 256 ^ 4 :=
    lt_of_le_of_lt (Nat.succ_le_of_lt hcaplt) hm.hcap
  refine ⟨hm.hcap, ?_, ?_, ?_, ?_, ?_⟩
  · rw [im_setlen_length _ _ hlen14, List.length_append]
    rfl
  · rw [List.length_append]
    exact Nat.succ_le_of_lt hcaplt
  · intro q
    rw [im_setlen_get]
    by_cases hq : q = l.length
    · rw [hq]
      rw [im_set_get_self cv h l.length v hcaplt, hcv, lappend_get_self]
    · by_cases hbig : h.capacity ≤ q
      · rw [im_get_big cv (h.set cv l.length v) q hbig,
          lget_ge (l ++ [v]) q (by
            rw [List.length_append]
            simp only [List.length_singleton]
            omega)]
      · have hq4 : q < 256 ^ 4 := lt_of_lt_of_le (Nat.lt_of_not_le hbig)
          hm.hcap.le
        rw [im_set_get_other cv h l.length q v hlen4 hq4 hq, hm.hget q]
        by_cases hqlt : q < l.length
        · rw [lappend_get_lt l v q hqlt]
        · rw [lget_ge l q (Nat.le_of_not_lt hqlt),
            lget_ge (l ++ [v]) q (by
            rw [List.length_append]
            simp only [List.length_singleton]
            omega)]
  · intro q w hw
    rw [im_setlen_ki]
    by_cases hq : q = l.length
    · rw [hq] at hw ⊢
      rw [lappend_get_self] at hw
      have hwv : w = v := (Option.some.inj hw).symm
      rw [hwv]
      exact im_set_ki_self cv h l.length v hlen4
    · have hql : q < l.length := by
        have := lget_length hw
        rw [List.length_append] at this
        simp only [List.length_singleton] at this
        omega
      rw [lappend_get_lt l v q hql] at hw
      rw [im_set_ki_other cv h l.length v (cv.key w) (hfresh q w hw)]
      exact hm.hki q w hw
  · intro k q hk
    rw [im_setlen_ki] at hk
    by_cases hkv : k = cv.key v
    · rw [hkv] at hk ⊢
      rw [im_set_ki_self cv h l.length v hlen4] at hk
      obtain rfl : q = l.length := (Option.some.inj hk).symm
      exact ⟨v, lappend_get_self l v, rfl⟩
    · rw [im_set_ki_other cv h l.length v k hkv] at hk
      rcases hm.hki_inv k q hk with ⟨w, hwq, hkw⟩
      exact ⟨w, by rw [lappend_get_lt l v q (lget_length hwq)]; exact hwq, hkw⟩

theorem set_same_key_mrepr {V : Type} (cv : VCodec V)
    (hcv : ∀ v, cv.dec (cv.enc v) = v) {h : IndexMap V} {l : List V}
    (hm : MRepr cv h l) {i : Nat} {o v : V} (ho : l.get? i = some o)
    (hkey : cv.key v = cv.key o) :
    MRepr cv (h.set cv i v) (l.set i v) := by
  have hil : i < l.length := lget_length ho
  have hi4 : i < 256 ^ 4 := lt_of_lt_of_le hil (le_trans hm.hle hm.hcap.le)
  have hicap : i < h.capacity := lt_of_lt_of_le hil hm.hle
  refine ⟨hm.hcap, ?_, ?_, ?_, ?_, ?_⟩
  · rw [im_set_length, hm.hlen, List.length_set]
  · rw [List.length_set]
    exact hm.hle
  · intro q
    by_cases hq : q = i
    · rw [hq]
      rw [im_set_get_self cv h i v hicap, hcv, lset_get_self _ i v hil]
    · by_cases hbig : h.capacity ≤ q
      · rw [im_get_big cv (h.set cv i v) q hbig,
          lset_get_other _ i q v hq,
          lget_ge l q (le_trans hm.hle hbig)]
      · have hq4 : q < 256 ^ 4 := lt_of_lt_of_le (Nat.lt_of_not_le hbig)
          hm.hcap.le
        rw [im_set_get_other cv h i q v hi4 hq4 hq, hm.hget q,
          lset_get_other _ i q v hq]
  · intro q w hw
    by_cases hq : q = i
    · rw [hq] at hw ⊢
      rw [lset_get_self _ i v hil] at hw
      have hwv : w = v := (Option.some.inj hw).symm
      rw [hwv]
      exact im_set_ki_self cv h i v hi4
    · rw [lset_get_other _ i q v hq] at hw
      have hkw : cv.key w ≠ cv.key v := by
        rw [hkey]
        exact mrepr_keys_ne hm hq hw ho
      rw [im_set_ki_other cv h i v (cv.key w) hkw]
      exact hm.hki q w hw
  · intro k q hk
    by_cases hkv : k = cv.key v
    · rw [hkv] at hk ⊢
      rw [im_set_ki_self cv h i v hi4] at hk
      obtain rfl : q = i := (Option.some.inj hk).symm
      exact ⟨v, lset_get_self _ q v hil, rfl⟩
    · rw [im_set_ki_other cv h i v k hkv] at hk
      rcases hm.hki_inv k q hk with ⟨w, hwq, hkw⟩
      have hqi : q ≠ i := by
        intro hx
        rw [hx, ho] at hwq
        apply hkv
        rw [← hkw, ← Option.some.inj hwq]
        exact hkey.symm
      exact ⟨w, by rw [lset_get_other _ i q v hqi]; exact hwq, hkw⟩

theorem lperm_swap {V : Type} : ∀ (l : List V) (i j : Nat) (a b : V),
    l.get? i = some a → l.get? j = some b → ((l.set i b).set j a).Perm l
  | [], _, _, _, _, hi, _ => Option.noConfusion hi
  | x :: t, 0, 0, a, b, hi, hj => by
    have hxa : x = a := Option.some.inj hi
    show (a :: t).Perm (x :: t)
    rw [hxa]
  | x :: t, 0, j + 1, a, b, hi, hj => by
    have hxa : x = a := Option.some.inj hi
    show (b :: t.set j a).Perm (x :: t)
    rw [hxa]
    exact lperm_cons_set t j a b hj
  | x :: t, i + 1, 0, a, b, hi, hj => by
    have hxb : x = b := Option.some.inj hj
    show (a :: t.set i b).Perm (x :: t)
    rw [hxb]
    exact lperm_cons_set t i b a hi
  | x :: t, i + 1, j + 1, a, b, hi, hj =>
    List.Perm.cons x (lperm_swap t i j a b hi hj)

theorem childOf_lt {p j : Nat} (h : childOf p j) : p < j := by
  unfold childOf at h
  omega

theorem childOf_ne_zero {p j : Nat} (h : childOf p j) : j ≠ 0 := by
  unfold childOf at h
  omega

theorem childOf_parent_eq {p j : Nat} (h : childOf p j) : (j - 1) / 2 = p := by
  rcases h with h | h
  · rw [h]
    show 2 * p / 2 = p
    exact Nat.mul_div_cancel_left p (by norm_num)
  · rw [h]
    show (2 * p + 1) / 2 = p
    rw [Nat.mul_add_div (by norm_num)]
    rfl

theorem childOf_parent {j : Nat} (hj : j ≠ 0) : childOf ((j - 1) / 2) j := by
  have h2 := Nat.div_add_mod (j - 1) 2
  have hm2 : (j - 1) % 2 < 2 := Nat.mod_lt _ (by norm_num)
  unfold childOf
  omega

theorem down_heapify_inv_step {V : Type} [LinearOrder V] (cv : VCodec V)
    {l : List V} {index c : Nat} {a cVal : V}
    (hidx : l.get? index = some a) (hcval : l.get? c = some cVal)
    (hc : childOf index c) (hlt : cVal < a)
    (hmin : ∀ j w, childOf index j → l.get? j = some w → ¬ w < cVal)
    (hyp1 : ∀ p j v w, childOf p j → p ≠ index → l.get? p = some v →
      l.get? j = some w → ¬ w < v)
    (hyp3 : index ≠ 0 → ∀ j v w, childOf index j →
      l.get? ((index - 1) / 2) = some v → l.get? j = some w → ¬ w < v) :
    (∀ p j v w, childOf p j → p ≠ c →
      ((l.set index cVal).set c a).get? p = some v →
      ((l.set index cVal).set c a).get? j = some w → ¬ w < v) ∧
    (c ≠ 0 → ∀ v w, ((l.set index cVal).set c a).get? ((c - 1) / 2) = some v →
      ((l.set index cVal).set c a).get? c = some w → ¬ w < v) ∧
    (c ≠ 0 → ∀ j v w, childOf c j →
      ((l.set index cVal).set c a).get? ((c - 1) / 2) = some v →
      ((l.set index cVal).set c a).get? j = some w → ¬ w < v) := by
  have hcl : c < l.length := lget_length hcval
  have hidxl : index < l.length := lget_length hidx
  have hne : index ≠ c := Nat.ne_of_lt (childOf_lt hc)
  have hgc : ((l.set index cVal).set c a).get? c = some a :=
    lset_get_self _ c a (by simpa using hcl)
  have hgidx : ((l.set index cVal).set c a).get? index = some cVal := by
    rw [lset_get_other _ c index a hne, lset_get_self _ index cVal hidxl]
  have hgother : ∀ q, q ≠ index → q ≠ c →
      ((l.set index cVal).set c a).get? q = l.get? q := by
    intro q hqi hqc
    rw [lset_get_other _ c q a hqc, lset_get_other _ index q cVal hqi]
  have hparc : (c - 1) / 2 = index := childOf_parent_eq hc
  refine ⟨?_, ?_, ?_⟩
  · intro p j v w hcj hpc hpv hjw
    by_cases hpi : p = index
    · rw [hpi] at hpv hcj
      rw [hgidx] at hpv
      have hv : v = cVal := (Option.some.inj hpv).symm
      by_cases hjc : j = c
      · rw [hjc, hgc] at hjw
        have hw : w = a := (Option.some.inj hjw).symm
        rw [hv, hw]
        exact lt_asymm hlt
      · have hji : j ≠ index := (Nat.ne_of_lt (childOf_lt hcj)).symm
        rw [hgother j hji hjc] at hjw
        rw [hv]
        exact hmin j w hcj hjw
    · have hp0 : ((l.set index cVal).set c a).get? p = l.get? p :=
        hgother p hpi hpc
      rw [hp0] at hpv
      by_cases hji : j = index
      · rw [hji] at hjw hcj
        rw [hgidx] at hjw
        have hw : w = cVal := (Option.some.inj hjw).symm
        have hpar : (index - 1) / 2 = p := childOf_parent_eq hcj
        have hi0 : index ≠ 0 := childOf_ne_zero hcj
        rw [hw]
        refine hyp3 hi0 c v cVal hc ?_ hcval
        rw [hpar]
        exact hpv
      · by_cases hjc : j = c
        · exfalso
          rw [hjc] at hcj
          have := childOf_parent_eq hcj
          rw [hparc] at this
          exact hpi this.symm
        · rw [hgother j hji hjc] at hjw
          exact hyp1 p j v w hcj hpi hpv hjw
  · intro _ v w hv hw
    rw [hparc, hgidx] at hv
    rw [hgc] at hw
    rw [← Option.some.inj hv, ← Option.some.inj hw]
    exact lt_asymm hlt
  · intro _ j v w hcj hv hw
    rw [hparc, hgidx] at hv
    have hjc : j ≠ c := (Nat.ne_of_lt (childOf_lt hcj)).symm
    have hji : j ≠ index := by
      have := childOf_lt hcj
      have := childOf_lt hc
      omega
    rw [hgother j hji hjc] at hw
    rw [← Option.some.inj hv]
    exact hyp1 c j cVal w hcj hne.symm hcval hw

theorem down_heapify_spec {V : Type} [LinearOrder V] [Inhabited V]
    (cv : VCodec V) (hcv : ∀ v, cv.dec (cv.enc v) = v) (fuel : Nat) :
    ∀ (l : List V) (h : IndexMap V) (index : Nat),
    MRepr cv h l →
    l.length ≤ fuel + index →
    (∀ p j v w, childOf p j → p ≠ index → l.get? p = some v →
      l.get? j = some w → ¬ w < v) →
    (index ≠ 0 → ∀ v w, l.get? ((index - 1) / 2) = some v →
      l.get? index = some w → ¬ w < v) →
    (index ≠ 0 → ∀ j v w, childOf index j → l.get? ((index - 1) / 2) = some v →
      l.get? j = some w → ¬ w < v) →
    ∃ l2, MRepr cv (IndexHeap.down_heapify cv fuel h index l.length) l2 ∧
      l2.Perm l ∧ IsHeap l2 := by
  induction fuel with
  | zero =>
    intro l h index hm hfuel hyp1 hyp2 hyp3
    refine ⟨l, hm, List.Perm.refl l, ?_⟩
    intro p j v w hcj hp hj
    by_cases hpi : p = index
    · exfalso
      have hjl := lget_length hj
      have := childOf_lt hcj
      omega
    · exact hyp1 p j v w hcj hpi hp hj
  | succ fuel ih =>
    intro l h index hm hfuel hyp1 hyp2 hyp3
    simp only [IndexHeap.down_heapify]
    by_cases hL : index < l.length
    · rcases lget_lt l index hL with ⟨a, ha⟩
      have hgidx : IndexMap.get cv h index = some a := by rw [hm.hget index, ha]
      by_cases hleft : 2 * index + 1 < l.length
      · rcases lget_lt l (2 * index + 1) hleft with ⟨lv, hlv⟩
        have hglv : IndexMap.get cv h (2 * index + 1) = some lv := by
          rw [hm.hget, hlv]
        rw [if_pos hleft]
        simp only [hgidx, hglv, Option.getD_some]
        by_cases hlt1 : lv < a
        · rw [if_pos hlt1]
          by_cases hright : 2 * index + 2 < l.length
          · rcases lget_lt l (2 * index + 2) hright with ⟨rv, hrv⟩
            have hgrv : IndexMap.get cv h (2 * index + 2) = some rv := by
              rw [hm.hget, hrv]
            rw [if_pos hright]
            simp only [hgrv, hglv, hgidx, Option.getD_some]
            by_cases hlt2 : rv < lv
            · rw [if_pos hlt2]
              simp only [hgrv, hglv, Option.getD_some]
              rw [if_pos (show 2 * index + 2 ≠ index by omega)]
              have hc : childOf index (2 * index + 2) := Or.inr rfl
              have hlt : rv < a := lt_trans hlt2 hlt1
              have hmin : ∀ j w, childOf index j → l.get? j = some w →
                  ¬ w < rv := by
                intro j w hcj hw
                rcases hcj with hj | hj
                · rw [hj, hlv] at hw
                  rw [← Option.some.inj hw]
                  exact fun hx => lt_asymm hlt2 hx
                · rw [hj, hrv] at hw
                  rw [← Option.some.inj hw]
                  exact lt_irrefl rv
              rcases down_heapify_inv_step cv ha hrv hc hlt hmin hyp1 hyp3 with
                ⟨s1, s2, s3⟩
              have hm2 := swap_mrepr cv hcv hm (show index ≠ 2 * index + 2 by
                omega) ha hrv
              have hlen2 : ((l.set index rv).set (2 * index + 2) a).length
                  = l.length := by simp only [List.length_set]
              have hfuel2 : ((l.set index rv).set (2 * index + 2) a).length
                  ≤ fuel + (2 * index + 2) := by
                rw [hlen2]
                omega
              rcases ih _ _ _ hm2 hfuel2 s1 s2 s3 with ⟨l2, hrepr2, hperm2, hheap2⟩
              rw [hlen2] at hrepr2
              exact ⟨l2, hrepr2,
                hperm2.trans (lperm_swap l index (2 * index + 2) a rv ha hrv),
                hheap2⟩
            · rw [if_neg hlt2]
              simp only [hglv, Option.getD_some]
              rw [if_pos (show 2 * index + 1 ≠ index by omega)]
              have hc : childOf index (2 * index + 1) := Or.inl rfl
              have hmin : ∀ j w, childOf index j → l.get? j = some w →
                  ¬ w < lv := by
                intro j w hcj hw
                rcases hcj with hj | hj
                · rw [hj, hlv] at hw
                  rw [← Option.some.inj hw]
                  exact lt_irrefl lv
                · rw [hj, hrv] at hw
                  rw [← Option.some.inj hw]
                  exact hlt2
              rcases down_heapify_inv_step cv ha hlv hc hlt1 hmin hyp1 hyp3 with
                ⟨s1, s2, s3⟩
              have hm2 := swap_mrepr cv hcv hm (show index ≠ 2 * index + 1 by
                omega) ha hlv
              have hlen2 : ((l.set index lv).set (2 * index + 1) a).length
                  = l.length := by simp only [List.length_set]
              have hfuel2 : ((l.set index lv).set (2 * index + 1) a).length
                  ≤ fuel + (2 * index + 1) := by
                rw [hlen2]
                omega
              rcases ih _ _ _ hm2 hfuel2 s1 s2 s3 with ⟨l2, hrepr2, hperm2, hheap2⟩
              rw [hlen2] at hrepr2
              exact ⟨l2, hrepr2,
                hperm2.trans (lperm_swap l index (2 * index + 1) a lv ha hlv),
                hheap2⟩
          · rw [if_neg hright]
            simp only [hglv, Option.getD_some]
            rw [if_pos (show 2 * index + 1 ≠ index by omega)]
            have hc : childOf index (2 * index + 1) := Or.inl rfl
            have hmin : ∀ j w, childOf index j → l.get? j = some w →
                ¬ w < lv := by
              intro j w hcj hw
              rcases hcj with hj | hj
              · rw [hj, hlv] at hw
                rw [← Option.some.inj hw]
                exact lt_irrefl lv
              · exfalso
                rw [hj] at hw
                have := lget_length hw
                omega
            rcases down_heapify_inv_step cv ha hlv hc hlt1 hmin hyp1 hyp3 with
              ⟨s1, s2, s3⟩
            have hm2 := swap_mrepr cv hcv hm (show index ≠ 2 * index + 1 by
              omega) ha hlv
            have hlen2 : ((l.set index lv).set (2 * index + 1) a).length
                = l.length := by simp only [List.length_set]
            have hfuel2 : ((l.set index lv).set (2 * index + 1) a).length
                ≤ fuel + (2 * index + 1) := by
              rw [hlen2]
              omega
            rcases ih _ _ _ hm2 hfuel2 s1 s2 s3 with ⟨l2, hrepr2, hperm2, hheap2⟩
            rw [hlen2] at hrepr2
            exact ⟨l2, hrepr2,
              hperm2.trans (lperm_swap l index (2 * index + 1) a lv ha hlv),
              hheap2⟩
        · rw [if_neg hlt1]
          by_cases hright : 2 * index + 2 < l.length
          · rcases lget_lt l (2 * index + 2) hright with ⟨rv, hrv⟩
            have hgrv : IndexMap.get cv h (2 * index + 2) = some rv := by
              rw [hm.hget, hrv]
            rw [if_pos hright]
            simp only [hgrv, hgidx, Option.getD_some]
            by_cases hlt3 : rv < a
            · rw [if_pos hlt3]
              simp only [hgrv, hgidx, Option.getD_some]
              rw [if_pos (show 2 * index + 2 ≠ index by omega)]
              have hc : childOf index (2 * index + 2) := Or.inr rfl
              have hmin : ∀ j w, childOf index j → l.get? j = some w →
                  ¬ w < rv := by
                intro j w hcj hw
                rcases hcj with hj | hj
                · rw [hj, hlv] at hw
                  rw [← Option.some.inj hw]
                  intro hx
                  exact hlt1 (lt_trans hx hlt3)
                · rw [hj, hrv] at hw
                  rw [← Option.some.inj hw]
                  exact lt_irrefl rv
              rcases down_heapify_inv_step cv ha hrv hc hlt3 hmin hyp1 hyp3 with
                ⟨s1, s2, s3⟩
              have hm2 := swap_mrepr cv hcv hm (show index ≠ 2 * index + 2 by
                omega) ha hrv
              have hlen2 : ((l.set index rv).set (2 * index + 2) a).length
                  = l.length := by simp only [List.length_set]
              have hfuel2 : ((l.set index rv).set (2 * index + 2) a).length
                  ≤ fuel + (2 * index + 2) := by
                rw [hlen2]
                omega
              rcases ih _ _ _ hm2 hfuel2 s1 s2 s3 with ⟨l2, hrepr2, hperm2, hheap2⟩
              rw [hlen2] at hrepr2
              exact ⟨l2, hrepr2,
                hperm2.trans (lperm_swap l index (2 * index + 2) a rv ha hrv),
                hheap2⟩
            · rw [if_neg hlt3, if_neg (fun hx : index ≠ index => hx rfl)]
              refine ⟨l, hm, List.Perm.refl l, ?_⟩
              intro p j v w hcj hp hj
              by_cases hpi : p = index
              · rw [hpi, ha] at hp
                rw [← Option.some.inj hp]
                rw [hpi] at hcj
                rcases hcj with hjx | hjx
                · rw [hjx, hlv] at hj
                  rw [← Option.some.inj hj]
                  exact hlt1
                · rw [hjx, hrv] at hj
                  rw [← Option.some.inj hj]
                  exact hlt3
              · exact hyp1 p j v w hcj hpi hp hj
          · rw [if_neg hright, if_neg (fun hx : index ≠ index => hx rfl)]
            refine ⟨l, hm, List.Perm.refl l, ?_⟩
            intro p j v w hcj hp hj
            by_cases hpi : p = index
            · rw [hpi, ha] at hp
              rw [← Option.some.inj hp]
              rw [hpi] at hcj
              rcases hcj with hjx | hjx
              · rw [hjx, hlv] at hj
                rw [← Option.some.inj hj]
                exact hlt1
              · exfalso
                rw [hjx] at hj
                have := lget_length hj
                omega
            · exact hyp1 p j v w hcj hpi hp hj
      · have hright : ¬ (2 * index + 2 < l.length) := by omega
        rw [if_neg hleft, if_neg hright, if_neg (fun hx : index ≠ index => hx rfl)]
        refine ⟨l, hm, List.Perm.refl l, ?_⟩
        intro p j v w hcj hp hj
        by_cases hpi : p = index
        · exfalso
          rw [hpi] at hcj
          have := lget_length hj
          rcases hcj with hjx | hjx <;> omega
        · exact hyp1 p j v w hcj hpi hp hj
    · have hleft : ¬ (2 * index + 1 < l.length) := by omega
      have hright : ¬ (2 * index + 2 < l.length) := by omega
      rw [if_neg hleft, if_neg hright, if_neg (fun hx : index ≠ index => hx rfl)]
      refine ⟨l, hm, List.Perm.refl l, ?_⟩
      intro p j v w hcj hp hj
      by_cases hpi : p = index
      · exfalso
        rw [hpi] at hcj
        have := lget_length hj
        rcases hcj with hjx | hjx <;> omega
      · exact hyp1 p j v w hcj hpi hp hj

theorem up_heapify_spec {V : Type} [LinearOrder V] [Inhabited V]
    (cv : VCodec V) (hcv : ∀ v, cv.dec (cv.enc v) = v) (fuel : Nat) :
    ∀ (l : List V) (h : IndexMap V) (index : Nat),
    MRepr cv h l →
    index < fuel →
    index < l.length →
    (∀ p j v w, childOf p j → ¬ (p = (index - 1) / 2 ∧ j = index) →
      l.get? p = some v → l.get? j = some w → ¬ w < v) →
    (index ≠ 0 → ∀ j v w, childOf index j → l.get? ((index - 1) / 2) = some v →
      l.get? j = some w → ¬ w < v) →
    ∃ l2, MRepr cv (IndexHeap.up_heapify cv fuel h index) l2 ∧
      l2.Perm l ∧ IsHeap l2 := by
  induction fuel with
  | zero =>
    intro l h index _ hfuel _ _ _
    exact absurd hfuel (by omega)
  | succ fuel ih =>
    intro l h index hm hfuel hL hyp1 hyp3
    simp only [IndexHeap.up_heapify]
    by_cases hi0 : index = 0
    · rw [if_pos hi0]
      refine ⟨l, hm, List.Perm.refl l, ?_⟩
      intro p j v w hcj hp hj
      refine hyp1 p j v w hcj ?_ hp hj
      intro hand
      rw [hi0] at hand
      have := childOf_ne_zero hcj
      exact this hand.2
    · rw [if_neg hi0]
      have hplt : (index - 1) / 2 < index := by
        have := Nat.div_le_self (index - 1) 2
        omega
      rcases lget_lt l index hL with ⟨b, hb⟩
      rcases lget_lt l ((index - 1) / 2) (lt_trans hplt hL) with ⟨pv, hpv⟩
      have hgb : IndexMap.get cv h index = some b := by rw [hm.hget, hb]
      have hgpv : IndexMap.get cv h ((index - 1) / 2) = some pv := by
        rw [hm.hget, hpv]
      simp only [hgb, hgpv, Option.getD_some]
      have hchild : childOf ((index - 1) / 2) index := childOf_parent hi0
      by_cases hlt : b < pv
      · rw [if_pos hlt]
        have hne : index ≠ (index - 1) / 2 := (Nat.ne_of_lt hplt).symm
        have hm2 := swap_mrepr cv hcv hm hne hb hpv
        have hlen2 : ((l.set index pv).set ((index - 1) / 2) b).length
            = l.length := by simp only [List.length_set]
        have hyp1' : ∀ p j v w, childOf p j →
            ¬ (p = ((index - 1) / 2 - 1) / 2 ∧ j = (index - 1) / 2) →
            ((l.set index pv).set ((index - 1) / 2) b).get? p = some v →
            ((l.set index pv).set ((index - 1) / 2) b).get? j = some w →
            ¬ w < v := by
          intro p j v w hcj hexc hp hj
          have hgp2 : ((l.set index pv).set ((index - 1) / 2) b).get?
              ((index - 1) / 2) = some b :=
            lset_get_self _ _ b (by simpa using lt_trans hplt hL)
          have hgi2 : ((l.set index pv).set ((index - 1) / 2) b).get? index
              = some pv := by
            rw [lset_get_other _ _ index b hne, lset_get_self _ index pv hL]
          have hgo2 : ∀ q, q ≠ index → q ≠ (index - 1) / 2 →
              ((l.set index pv).set ((index - 1) / 2) b).get? q = l.get? q := by
            intro q h1 h2
            rw [lset_get_other _ _ q b h2, lset_get_other _ index q pv h1]
          by_cases hpp : p = (index - 1) / 2
          · by_cases hji : j = index
            · rw [hpp, hgp2] at hp
              rw [hji, hgi2] at hj
              rw [← Option.some.inj hp, ← Option.some.inj hj]
              exact lt_asymm hlt
            · have hjp : j ≠ (index - 1) / 2 := by
                rw [hpp] at hcj
                exact (Nat.ne_of_lt (childOf_lt hcj)).symm
              rw [hpp, hgp2] at hp
              rw [hgo2 j hji hjp] at hj
              rw [← Option.some.inj hp]
              intro hx
              have hold : ¬ w < pv := by
                refine hyp1 ((index - 1) / 2) j pv w ?_ ?_ hpv hj
                · rw [← hpp]
                  exact hcj
                · intro hand
                  exact hji hand.2
              exact hold (lt_trans hx hlt)
          · by_cases hpi : p = index
            · rw [hpi, hgi2] at hp
              have hji : j ≠ index := by
                rw [hpi] at hcj
                exact (Nat.ne_of_lt (childOf_lt hcj)).symm
              have hjp : j ≠ (index - 1) / 2 := by
                rw [hpi] at hcj
                have h1 := childOf_lt hcj
                omega
              rw [hgo2 j hji hjp] at hj
              rw [← Option.some.inj hp]
              refine hyp3 hi0 j pv w ?_ hpv hj
              rw [← hpi]
              exact hcj
            · by_cases hji : j = index
              · exfalso
                rw [hji] at hcj
                have := childOf_parent_eq hcj
                exact hpp this.symm
              · by_cases hjp : j = (index - 1) / 2
                · exfalso
                  apply hexc
                  constructor
                  · rw [hjp] at hcj
                    exact (childOf_parent_eq hcj).symm
                  · exact hjp
                · rw [hgo2 p hpi hpp] at hp
                  rw [hgo2 j hji hjp] at hj
                  refine hyp1 p j v w hcj ?_ hp hj
                  intro hand
                  exact hji hand.2
        have hyp3' : (index - 1) / 2 ≠ 0 → ∀ j v w, childOf ((index - 1) / 2) j →
            ((l.set index pv).set ((index - 1) / 2) b).get?
              (((index - 1) / 2 - 1) / 2) = some v →
            ((l.set index pv).set ((index - 1) / 2) b).get? j = some w →
            ¬ w < v := by
          intro hp0 j v w hcj hv hw
          have hgplt : ((index - 1) / 2 - 1) / 2 < (index - 1) / 2 := by
            have := Nat.div_le_self ((index - 1) / 2 - 1) 2
            omega
          have hgpi : ((index - 1) / 2 - 1) / 2 ≠ index := by omega
          have hgpp : ((index - 1) / 2 - 1) / 2 ≠ (index - 1) / 2 :=
            Nat.ne_of_lt hgplt
          rw [lset_get_other _ _ _ b hgpp, lset_get_other _ index _ pv hgpi]
            at hv
          have hgpair : ¬ pv < v := by
            refine hyp1 (((index - 1) / 2 - 1) / 2) ((index - 1) / 2) v pv
              (childOf_parent hp0) ?_ hv hpv
            intro hand
            omega
          by_cases hji : j = index
          · rw [hji, lset_get_other _ _ index b hne,
              lset_get_self _ index pv hL] at hw
            rw [← Option.some.inj hw]
            exact hgpair
          · have hjp : j ≠ (index - 1) / 2 :=
              (Nat.ne_of_lt (childOf_lt hcj)).symm
            rw [lset_get_other _ _ j b hjp, lset_get_other _ index j pv hji]
              at hw
            have hold : ¬ w < pv := by
              refine hyp1 ((index - 1) / 2) j pv w hcj ?_ hpv hw
              intro hand
              exact hji hand.2
            intro hx
            exact hgpair (lt_of_le_of_lt (not_lt.mp hold) hx)
        have hfuel2 : (index - 1) / 2 < fuel := by omega
        have hL2 : (index - 1) / 2
            < ((l.set index pv).set ((index - 1) / 2) b).length := by
          rw [hlen2]
          exact lt_trans hplt hL
        rcases ih _ _ _ hm2 hfuel2 hL2 hyp1' hyp3' with
          ⟨l2, hrepr2, hperm2, hheap2⟩
        exact ⟨l2, hrepr2,
          hperm2.trans (lperm_swap l index ((index - 1) / 2) b pv hb hpv),
          hheap2⟩
      · rw [if_neg hlt]
        refine ⟨l, hm, List.Perm.refl l, ?_⟩
        intro p j v w hcj hp hj
        by_cases hexc : p = (index - 1) / 2 ∧ j = index
        · rw [hexc.1, hpv] at hp
          rw [hexc.2, hb] at hj
          rw [← Option.some.inj hp, ← Option.some.inj hj]
          exact hlt
        · exact hyp1 p j v w hcj hexc hp hj

theorem lmem_get {V : Type} : ∀ {l : List V} {a : V}, a ∈ l →
    ∃ i, l.get? i = some a := by
  intro l
  induction l with
  | nil => intro a ha; exact absurd ha (List.not_mem_nil a)
  | cons x t ih =>
    intro a ha
    rcases List.mem_cons.mp ha with ha | ha
    · exact ⟨0, by rw [ha]; rfl⟩
    · rcases ih ha with ⟨i, hi⟩
      exact ⟨i + 1, hi⟩

theorem heap_min {V : Type} [LinearOrder V] {l : List V} (hheap : IsHeap l)
    {m : V} (hm0 : l.get? 0 = some m) : ∀ x ∈ l, ¬ x < m := by
  have key : ∀ i x, l.get? i = some x → ¬ x < m := by
    intro i
    induction i using Nat.strong_induction_on with
    | _ i ih =>
      intro x hx
      cases i with
      | zero =>
        rw [hm0] at hx
        rw [← Option.some.inj hx]
        exact lt_irrefl m
      | succ n =>
        have hchild : childOf ((n + 1 - 1) / 2) (n + 1) :=
          childOf_parent (Nat.succ_ne_zero n)
        have hplt : (n + 1 - 1) / 2 < n + 1 := childOf_lt hchild
        have hpl : (n + 1 - 1) / 2 < l.length :=
          lt_trans hplt (lget_length hx)
        rcases lget_lt l _ hpl with ⟨w, hw⟩
        have h1 : ¬ x < w := hheap _ _ w x hchild hw hx
        have h2 : ¬ w < m := ih _ hplt w hw
        intro hxm
        exact h2 (lt_of_le_of_lt (not_lt.mp h1) hxm)
  intro x hx
  rcases lmem_get hx with ⟨i, hi⟩
  exact key i x hi

theorem isHeap_nil {V : Type} [LinearOrder V] : IsHeap ([] : List V) := by
  intro p j v w _ hp _
  rw [lget_ge [] p (Nat.zero_le p)] at hp
  exact Option.noConfusion hp

theorem isHeap_take {V : Type} [LinearOrder V] {l : List V} (hheap : IsHeap l)
    (n : Nat) : IsHeap (l.take n) := by
  intro p j v w hcj hp hj
  have hpn : p < n := by
    have := lget_length hp
    rw [List.length_take] at this
    omega
  have hjn : j < n := by
    have := lget_length hj
    rw [List.length_take] at this
    omega
  rw [ltake_get_lt _ _ _ hpn] at hp
  rw [ltake_get_lt _ _ _ hjn] at hj
  exact hheap p j v w hcj hp hj

theorem heap_extract_spec {V : Type} [LinearOrder V] [Inhabited V]
    (cv : VCodec V) (hcv : ∀ v, cv.dec (cv.enc v) = v) {h : IndexMap V}
    {l : List V} (hm : MRepr cv h l) (hheap : IsHeap l) (hne : l ≠ []) :
    ∃ m h2 l2, l.get? 0 = some m ∧ IndexHeap.extract cv h = (h2, some m) ∧
      MRepr cv h2 l2 ∧ IsHeap l2 ∧ (m :: l2).Perm l ∧ (∀ x ∈ l, ¬ x < m) := by
  have hlpos : 0 < l.length := List.length_pos.mpr hne
  rcases lget_lt l 0 hlpos with ⟨m, hm0⟩
  have hminl := heap_min hheap hm0
  have hg0 : IndexMap.get cv h 0 = some m := by rw [hm.hget, hm0]
  simp only [IndexHeap.extract, hm.hlen]
  rw [if_neg (show ¬ l.length = 0 by omega)]
  simp only [hg0, Option.getD_some]
  by_cases hone : l.length = 1
  · rw [if_pos hone]
    have hm2 := extract_one_mrepr cv hm hone hm0
    refine ⟨m, _, [], hm0, rfl, hm2, isHeap_nil, ?_, hminl⟩
    cases l with
    | nil => exact absurd rfl hne
    | cons x t =>
      cases t with
      | nil =>
        have : x = m := Option.some.inj hm0
        rw [this]
      | cons y t2 => simp at hone
  · rw [if_neg hone]
    have h2len : 2 ≤ l.length := by omega
    rcases lget_lt l (l.length - 1) (by omega) with ⟨b, hb⟩
    have hgb : IndexMap.get cv h (l.length - 1) = some b := by
      rw [hm.hget, hb]
    simp only [hgb, Option.getD_some]
    have h0lt : 0 < l.length - 1 := by omega
    have hm1 := replace_shrink_mrepr cv hcv hm h0lt hm0 hb
    have hl1len : ((l.set 0 b).take (l.length - 1)).length = l.length - 1 := by
      rw [List.length_take, List.length_set]
      exact min_eq_left (Nat.sub_le _ _)
    have hfuel : ((l.set 0 b).take (l.length - 1)).length ≤ l.length + 0 := by
      rw [hl1len]
      omega
    have hyp1 : ∀ p j v w, childOf p j → p ≠ 0 →
        ((l.set 0 b).take (l.length - 1)).get? p = some v →
        ((l.set 0 b).take (l.length - 1)).get? j = some w → ¬ w < v := by
      intro p j v w hcj hp0 hp hj
      have hplt : p < l.length - 1 := by
        have := lget_length hp
        rw [hl1len] at this
        exact this
      have hjlt : j < l.length - 1 := by
        have := lget_length hj
        rw [hl1len] at this
        exact this
      rw [ltake_get_lt _ _ _ hplt, lset_get_other _ 0 p b hp0] at hp
      have hj0 : j ≠ 0 := by
        have := childOf_lt hcj
        omega
      rw [ltake_get_lt _ _ _ hjlt, lset_get_other _ 0 j b hj0] at hj
      exact hheap p j v w hcj hp hj
    rcases down_heapify_spec cv hcv l.length ((l.set 0 b).take (l.length - 1))
        ((IndexHeap.replace cv h 0 m (l.length - 1) b).set_length
          (l.length - 1)) 0 hm1 hfuel hyp1
        (fun h0 => absurd rfl h0) (fun h0 => absurd rfl h0) with
      ⟨l2, hrepr2, hperm2, hheap2⟩
    rw [hl1len] at hrepr2
    refine ⟨m, _, l2, hm0, rfl, hrepr2, hheap2, ?_, hminl⟩
    exact (List.Perm.cons m hperm2).trans (lperm_set_take l 0 m b h0lt hm0 hb)

theorem heap_insert_spec {V : Type} [LinearOrder V] [Inhabited V]
    (cv : VCodec V) (hcv : ∀ v, cv.dec (cv.enc v) = v) {h : IndexMap V}
    {l : List V} (hm : MRepr cv h l) (hheap : IsHeap l) {v : V}
    (hfresh : ∀ q w, l.get? q = some w → cv.key w ≠ cv.key v)
    (hcaplt : l.length < h.capacity) :
    ∃ h2 l2, IndexHeap.insert cv h v = .ok h2 ∧ MRepr cv h2 l2 ∧
      IsHeap l2 ∧ l2.Perm (v :: l) := by
  simp only [IndexHeap.insert, hm.hlen]
  rw [if_neg (show ¬ h.capacity = l.length by omega)]
  have hm1 := append_mrepr cv hcv hm hfresh hcaplt
  have hlen1 : (l ++ [v]).length = l.length + 1 := by
    rw [List.length_append]
    rfl
  have hyp1 : ∀ p j vv ww, childOf p j →
      ¬ (p = (l.length - 1) / 2 ∧ j = l.length) →
      (l ++ [v]).get? p = some vv → (l ++ [v]).get? j = some ww →
      ¬ ww < vv := by
    intro p j vv ww hcj hexc hp hj
    have hjlen : j < l.length + 1 := by
      have := lget_length hj
      rw [hlen1] at this
      exact this
    by_cases hjl : j = l.length
    · exfalso
      apply hexc
      refine ⟨?_, hjl⟩
      rw [← hjl]
      exact (childOf_parent_eq hcj).symm
    · have hjlt : j < l.length := by omega
      have hplt : p < l.length := lt_trans (childOf_lt hcj) hjlt
      rw [lappend_get_lt l v p hplt] at hp
      rw [lappend_get_lt l v j hjlt] at hj
      exact hheap p j vv ww hcj hp hj
  have hyp3 : l.length ≠ 0 → ∀ j vv ww, childOf l.length j →
      (l ++ [v]).get? ((l.length - 1) / 2) = some vv →
      (l ++ [v]).get? j = some ww → ¬ ww < vv := by
    intro _ j vv ww hcj _ hj
    exfalso
    have h1 := childOf_lt hcj
    have h2 := lget_length hj
    rw [hlen1] at h2
    unfold childOf at hcj
    omega
  rcases up_heapify_spec cv hcv (l.length + 1) (l ++ [v])
      ((h.set cv l.length v).set_length (l.length + 1)) l.length hm1
      (by omega) (by rw [hlen1]; omega) hyp1 hyp3 with
    ⟨l2, hrepr2, hperm2, hheap2⟩
  refine ⟨_, l2, rfl, hrepr2, hheap2, ?_⟩
  exact hperm2.trans List.perm_append_comm

theorem heap_change_key_spec {V : Type} [LinearOrder V] [Inhabited V]
    (cv : VCodec V) (hcv : ∀ v, cv.dec (cv.enc v) = v) {h : IndexMap V}
    {l : List V} (hm : MRepr cv h l) (hheap : IsHeap l) (v : V) :
    ∃ l2, MRepr cv (IndexHeap.change_key cv h v) l2 ∧ IsHeap l2 ∧
      ((∃ i o, l.get? i = some o ∧ cv.key o = cv.key v ∧
        l2.Perm (l.set i v)) ∨
       (l2 = l ∧ ∀ o ∈ l, cv.key o ≠ cv.key v)) := by
  simp only [IndexHeap.change_key]
  cases hki : h.index_of_key (cv.key v) with
  | none =>
    refine ⟨l, hm, hheap, Or.inr ⟨rfl, ?_⟩⟩
    intro o ho hko
    rcases lmem_get ho with ⟨q, hq⟩
    have := hm.hki q o hq
    rw [hko, hki] at this
    exact Option.noConfusion this
  | some index =>
    rcases hm.hki_inv (cv.key v) index hki with ⟨o, ho, hko⟩
    have hidx : index < l.length := lget_length ho
    have hgo : IndexMap.get cv h index = some o := by rw [hm.hget, ho]
    simp only [hm.hlen]
    rw [if_pos hidx]
    simp only [hgo, Option.getD_some]
    have hm1 := set_same_key_mrepr cv hcv hm ho hko.symm
    have hlen1 : (l.set index v).length = l.length := by
      simp only [List.length_set]
    have hget1 : ∀ q, q ≠ index → (l.set index v).get? q = l.get? q :=
      fun q hq => lset_get_other _ index q v hq
    have hgetI : (l.set index v).get? index = some v :=
      lset_get_self _ index v hidx
    by_cases h1 : o < v
    · rw [if_pos h1]
      have hyp1 : ∀ p j vv ww, childOf p j → p ≠ index →
          (l.set index v).get? p = some vv →
          (l.set index v).get? j = some ww → ¬ ww < vv := by
        intro p j vv ww hcj hp0 hp hj
        rw [hget1 p hp0] at hp
        by_cases hji : j = index
        · rw [hji, hgetI] at hj
          have hw : ww = v := (Option.some.inj hj).symm
          have hold : ¬ o < vv := hheap p index vv o (hji ▸ hcj) hp ho
          rw [hw]
          intro hx
          exact lt_asymm h1 (lt_of_lt_of_le hx (not_lt.mp hold))
        · rw [hget1 j hji] at hj
          exact hheap p j vv ww hcj hp hj
      have hyp2 : index ≠ 0 → ∀ vv ww,
          (l.set index v).get? ((index - 1) / 2) = some vv →
          (l.set index v).get? index = some ww → ¬ ww < vv := by
        intro hi0 vv ww hv hw
        have hpne : (index - 1) / 2 ≠ index :=
          Nat.ne_of_lt (childOf_lt (childOf_parent hi0))
        rw [hget1 _ hpne] at hv
        rw [hgetI] at hw
        have hw2 : ww = v := (Option.some.inj hw).symm
        have hold : ¬ o < vv :=
          hheap _ index vv o (childOf_parent hi0) hv ho
        rw [hw2]
        intro hx
        exact lt_asymm h1 (lt_of_lt_of_le hx (not_lt.mp hold))
      have hyp3 : index ≠ 0 → ∀ j vv ww, childOf index j →
          (l.set index v).get? ((index - 1) / 2) = some vv →
          (l.set index v).get? j = some ww → ¬ ww < vv := by
        intro hi0 j vv ww hcj hv hw
        have hpne : (index - 1) / 2 ≠ index :=
          Nat.ne_of_lt (childOf_lt (childOf_parent hi0))
        have hjne : j ≠ index := (Nat.ne_of_lt (childOf_lt hcj)).symm
        rw [hget1 _ hpne] at hv
        rw [hget1 j hjne] at hw
        have hold1 : ¬ o < vv :=
          hheap _ index vv o (childOf_parent hi0) hv ho
        have hold2 : ¬ ww < o := hheap index j o ww hcj ho hw
        intro hx
        exact hold2 (lt_of_lt_of_le hx (not_lt.mp hold1))
      rcases down_heapify_spec cv hcv l.length (l.set index v)
          (h.set cv index v) index hm1 (by rw [hlen1]; omega)
          hyp1 hyp2 hyp3 with ⟨l2, hrepr2, hperm2, hheap2⟩
      rw [hlen1] at hrepr2
      exact ⟨l2, hrepr2, hheap2, Or.inl ⟨index, o, ho, hko, hperm2⟩⟩
    · by_cases h2 : v < o
      · rw [if_neg h1, if_pos h2]
        have hyp1 : ∀ p j vv ww, childOf p j →
            ¬ (p = (index - 1) / 2 ∧ j = index) →
            (l.set index v).get? p = some vv →
            (l.set index v).get? j = some ww → ¬ ww < vv := by
          intro p j vv ww hcj hexc hp hj
          by_cases hpi : p = index
          · rw [hpi, hgetI] at hp
            have hv2 : vv = v := (Option.some.inj hp).symm
            have hjne : j ≠ index := by
              rw [hpi] at hcj
              exact (Nat.ne_of_lt (childOf_lt hcj)).symm
            rw [hget1 j hjne] at hj
            have hold : ¬ ww < o := hheap index j o ww (hpi ▸ hcj) ho hj
            rw [hv2]
            intro hx
            exact hold (lt_trans hx h2)
          · by_cases hji : j = index
            · exfalso
              apply hexc
              refine ⟨?_, hji⟩
              rw [← hji]
              exact (childOf_parent_eq hcj).symm
            · rw [hget1 p hpi] at hp
              rw [hget1 j hji] at hj
              exact hheap p j vv ww hcj hp hj
        have hyp3 : index ≠ 0 → ∀ j vv ww, childOf index j →
            (l.set index v).get? ((index - 1) / 2) = some vv →
            (l.set index v).get? j = some ww → ¬ ww < vv := by
          intro hi0 j vv ww hcj hv hw
          have hpne : (index - 1) / 2 ≠ index :=
            Nat.ne_of_lt (childOf_lt (childOf_parent hi0))
          have hjne : j ≠ index := (Nat.ne_of_lt (childOf_lt hcj)).symm
          rw [hget1 _ hpne] at hv
          rw [hget1 j hjne] at hw
          have hold1 : ¬ o < vv :=
            hheap _ index vv o (childOf_parent hi0) hv ho
          have hold2 : ¬ ww < o := hheap index j o ww hcj ho hw
          intro hx
          exact hold2 (lt_of_lt_of_le hx (not_lt.mp hold1))
        rcases up_heapify_spec cv hcv (index + 1) (l.set index v)
            (h.set cv index v) index hm1 (by omega) (by rw [hlen1]; omega)
            hyp1 hyp3 with ⟨l2, hrepr2, hperm2, hheap2⟩
        exact ⟨l2, hrepr2, hheap2, Or.inl ⟨index, o, ho, hko, hperm2⟩⟩
      · rw [if_neg h1, if_neg h2]
        have hov : o = v := le_antisymm (not_lt.mp h2) (not_lt.mp h1)
        refine ⟨l, hm, hheap, Or.inl ⟨index, o, ho, hko, ?_⟩⟩
        rw [← hov, lset_self l index o ho]

theorem heap_remove_item_spec {V : Type} [LinearOrder V] [Inhabited V]
    (cv : VCodec V) (hcv : ∀ v, cv.dec (cv.enc v) = v) {h : IndexMap V}
    {l : List V} (hm : MRepr cv h l) (hheap : IsHeap l) (k : Bytes) :
    ∃ l2, MRepr cv (IndexHeap.remove_item cv h k) l2 ∧ IsHeap l2 ∧
      ((∃ m, cv.key m = k ∧ (m :: l2).Perm l) ∨
       (l2 = l ∧ ∀ o ∈ l, cv.key o ≠ k)) := by
  simp only [IndexHeap.remove_item]
  cases hki : h.index_of_key k with
  | none =>
    refine ⟨l, hm, hheap, Or.inr ⟨rfl, ?_⟩⟩
    intro o ho hko
    rcases lmem_get ho with ⟨q, hq⟩
    have := hm.hki q o hq
    rw [hko, hki] at this
    exact Option.noConfusion this
  | some index =>
    rcases hm.hki_inv k index hki with ⟨m, hmidx, hkm⟩
    have hidx : index < l.length := lget_length hmidx
    simp only [hm.hlen]
    rw [if_pos hidx]
    by_cases hidx0 : index = 0
    · rw [if_pos hidx0]
      have hlne : l ≠ [] := by
        intro hx
        rw [hx] at hidx
        exact absurd hidx (by simp)
      rcases heap_extract_spec cv hcv hm hheap hlne with
        ⟨m0, h2, l2, hm0, hex, hrepr2, hheap2, hperm2, _⟩
      rw [hex]
      have hm0m : m0 = m := by
        rw [hidx0, hm0] at hmidx
        exact Option.some.inj hmidx
      refine ⟨l2, hrepr2, hheap2, Or.inl ⟨m, hkm, ?_⟩⟩
      rw [← hm0m]
      exact hperm2
    · by_cases hlast : index = l.length - 1
      · rw [if_neg hidx0, if_pos hlast]
        have hmlast : l.get? (l.length - 1) = some m := by
          rw [← hlast]
          exact hmidx
        have hdel := del_last_mrepr cv hm hmlast
        rw [hlast, ← hkm]
        refine ⟨l.take (l.length - 1), hdel, isHeap_take hheap _,
          Or.inl ⟨m, rfl, ?_⟩⟩
        exact lperm_last l m hmlast
      · rw [if_neg hidx0, if_neg hlast]
        have hmid : index < l.length - 1 := by omega
        have hgm : IndexMap.get cv h index = some m := by rw [hm.hget, hmidx]
        rcases lget_lt l (l.length - 1) (by omega) with ⟨b, hb⟩
        have hgb : IndexMap.get cv h (l.length - 1) = some b := by
          rw [hm.hget, hb]
        simp only [hgm, hgb, Option.getD_some]
        have hm1 := replace_shrink_mrepr cv hcv hm hmid hmidx hb
        have hl1len : ((l.set index b).take (l.length - 1)).length
            = l.length - 1 := by
          rw [List.length_take, List.length_set]
          exact min_eq_left (Nat.sub_le _ _)
        have hget1 : ∀ q, q < l.length - 1 → q ≠ index →
            ((l.set index b).take (l.length - 1)).get? q = l.get? q := by
          intro q hq hqi
          rw [ltake_get_lt _ _ _ hq, lset_get_other _ index q b hqi]
        have hgetI : ((l.set index b).take (l.length - 1)).get? index
            = some b := by
          rw [ltake_get_lt _ _ _ hmid, lset_get_self _ index b hidx]
        have hperm0 : (m :: (l.set index b).take (l.length - 1)).Perm l :=
          lperm_set_take l index m b hmid hmidx hb
        by_cases hcmp1 : m < b
        · rw [if_pos hcmp1]
          have hyp1 : ∀ p j vv ww, childOf p j → p ≠ index →
              ((l.set index b).take (l.length - 1)).get? p = some vv →
              ((l.set index b).take (l.length - 1)).get? j = some ww →
              ¬ ww < vv := by
            intro p j vv ww hcj hp0 hp hj
            have hplt : p < l.length - 1 := by
              have := lget_length hp
              rw [hl1len] at this
              exact this
            have hjlt : j < l.length - 1 := by
              have := lget_length hj
              rw [hl1len] at this
              exact this
            rw [hget1 p hplt hp0] at hp
            by_cases hji : j = index
            · rw [hji, hgetI] at hj
              have hw : ww = b := (Option.some.inj hj).symm
              have hold : ¬ m < vv := hheap p index vv m (hji ▸ hcj) hp hmidx
              rw [hw]
              intro hx
              exact lt_asymm hcmp1 (lt_of_lt_of_le hx (not_lt.mp hold))
            · rw [hget1 j hjlt hji] at hj
              exact hheap p j vv ww hcj hp hj
          have hyp2 : index ≠ 0 → ∀ vv ww,
              ((l.set index b).take (l.length - 1)).get? ((index - 1) / 2)
                = some vv →
              ((l.set index b).take (l.length - 1)).get? index = some ww →
              ¬ ww < vv := by
            intro hi0 vv ww hv hw
            have hpne : (index - 1) / 2 ≠ index :=
              Nat.ne_of_lt (childOf_lt (childOf_parent hi0))
            have hplt : (index - 1) / 2 < l.length - 1 :=
              lt_trans (childOf_lt (childOf_parent hi0)) hmid
            rw [hget1 _ hplt hpne] at hv
            rw [hgetI] at hw
            have hw2 : ww = b := (Option.some.inj hw).symm
            have hold : ¬ m < vv :=
              hheap _ index vv m (childOf_parent hi0) hv hmidx
            rw [hw2]
            intro hx
            exact lt_asymm hcmp1 (lt_of_lt_of_le hx (not_lt.mp hold))
          have hyp3 : index ≠ 0 → ∀ j vv ww, childOf index j →
              ((l.set index b).take (l.length - 1)).get? ((index - 1) / 2)
                = some vv →
              ((l.set index b).take (l.length - 1)).get? j = some ww →
              ¬ ww < vv := by
            intro hi0 j vv ww hcj hv hw
            have hpne : (index - 1) / 2 ≠ index :=
              Nat.ne_of_lt (childOf_lt (childOf_parent hi0))
            have hplt : (index - 1) / 2 < l.length - 1 :=
              lt_trans (childOf_lt (childOf_parent hi0)) hmid
            have hjlt : j < l.length - 1 := by
              have := lget_length hw
              rw [hl1len] at this
              exact this
            have hjne : j ≠ index := (Nat.ne_of_lt (childOf_lt hcj)).symm
            rw [hget1 _ hplt hpne] at hv
            rw [hget1 j hjlt hjne] at hw
            have hold1 : ¬ m < vv :=
              hheap _ index vv m (childOf_parent hi0) hv hmidx
            have hold2 : ¬ ww < m := hheap index j m ww hcj hmidx hw
            intro hx
            exact hold2 (lt_of_lt_of_le hx (not_lt.mp hold1))
          rcases down_heapify_spec cv hcv l.length
              ((l.set index b).take (l.length - 1))
              ((IndexHeap.replace cv h index m (l.length - 1) b).set_length
                (l.length - 1)) index hm1 (by rw [hl1len]; omega)
              hyp1 hyp2 hyp3 with ⟨l2, hrepr2, hperm2, hheap2⟩
          rw [hl1len] at hrepr2
          refine ⟨l2, hrepr2, hheap2, Or.inl ⟨m, hkm, ?_⟩⟩
          exact (List.Perm.cons m hperm2).trans hperm0
        · by_cases hcmp2 : b < m
          · rw [if_neg hcmp1, if_pos hcmp2]
            have hyp1 : ∀ p j vv ww, childOf p j →
                ¬ (p = (index - 1) / 2 ∧ j = index) →
                ((l.set index b).take (l.length - 1)).get? p = some vv →
                ((l.set index b).take (l.length - 1)).get? j = some ww →
                ¬ ww < vv := by
              intro p j vv ww hcj hexc hp hj
              have hplt : p < l.length - 1 := by
                have := lget_length hp
                rw [hl1len] at this
                exact this
              have hjlt : j < l.length - 1 := by
                have := lget_length hj
                rw [hl1len] at this
                exact this
              by_cases hpi : p = index
              · rw [hpi, hgetI] at hp
                have hv2 : vv = b := (Option.some.inj hp).symm
                have hjne : j ≠ index := by
                  rw [hpi] at hcj
                  exact (Nat.ne_of_lt (childOf_lt hcj)).symm
                rw [hget1 j hjlt hjne] at hj
                have hold : ¬ ww < m := hheap index j m ww (hpi ▸ hcj) hmidx hj
                rw [hv2]
                intro hx
                exact hold (lt_trans hx hcmp2)
              · by_cases hji : j = index
                · exfalso
                  apply hexc
                  refine ⟨?_, hji⟩
                  rw [← hji]
                  exact (childOf_parent_eq hcj).symm
                · rw [hget1 p hplt hpi] at hp
                  rw [hget1 j hjlt hji] at hj
                  exact hheap p j vv ww hcj hp hj
            have hyp3 : index ≠ 0 → ∀ j vv ww, childOf index j →
                ((l.set index b).take (l.length - 1)).get? ((index - 1) / 2)
                  = some vv →
                ((l.set index b).take (l.length - 1)).get? j = some ww →
                ¬ ww < vv := by
              intro hi0 j vv ww hcj hv hw
              have hpne : (index - 1) / 2 ≠ index :=
                Nat.ne_of_lt (childOf_lt (childOf_parent hi0))
              have hplt : (index - 1) / 2 < l.length - 1 :=
                lt_trans (childOf_lt (childOf_parent hi0)) hmid
              have hjlt : j < l.length - 1 := by
                have := lget_length hw
                rw [hl1len] at this
                exact this
              have hjne : j ≠ index := (Nat.ne_of_lt (childOf_lt hcj)).symm
              rw [hget1 _ hplt hpne] at hv
              rw [hget1 j hjlt hjne] at hw
              have hold1 : ¬ m < vv :=
                hheap _ index vv m (childOf_parent hi0) hv hmidx
              have hold2 : ¬ ww < m := hheap index j m ww hcj hmidx hw
              intro hx
              exact hold2 (lt_of_lt_of_le hx (not_lt.mp hold1))
            rcases up_heapify_spec cv hcv (index + 1)
                ((l.set index b).take (l.length - 1))
                ((IndexHeap.replace cv h index m (l.length - 1) b).set_length
                  (l.length - 1)) index hm1 (by omega)
                (by rw [hl1len]; omega) hyp1 hyp3 with
              ⟨l2, hrepr2, hperm2, hheap2⟩
            refine ⟨l2, hrepr2, hheap2, Or.inl ⟨m, hkm, ?_⟩⟩
            exact (List.Perm.cons m hperm2).trans hperm0
          · rw [if_neg hcmp1, if_neg hcmp2]
            have hbm : b = m := le_antisymm (not_lt.mp hcmp1) (not_lt.mp hcmp2)
            refine ⟨(l.set index b).take (l.length - 1), hm1, ?_,
              Or.inl ⟨m, hkm, hperm0⟩⟩
            intro p j vv ww hcj hp hj
            have hplt : p < l.length - 1 := by
              have := lget_length hp
              rw [hl1len] at this
              exact this
            have hjlt : j < l.length - 1 := by
              have := lget_length hj
              rw [hl1len] at this
              exact this
            by_cases hpi : p = index
            · rw [hpi, hgetI] at hp
              have hv2 : vv = b := (Option.some.inj hp).symm
              have hjne : j ≠ index := by
                rw [hpi] at hcj
                exact (Nat.ne_of_lt (childOf_lt hcj)).symm
              rw [hget1 j hjlt hjne] at hj
              rw [hv2, hbm]
              exact hheap index j m ww (hpi ▸ hcj) hmidx hj
            · rw [hget1 p hplt hpi] at hp
              by_cases hji : j = index
              · rw [hji, hgetI] at hj
                have hw2 : ww = b := (Option.some.inj hj).symm
                rw [hw2, hbm]
                exact hheap p index vv m (hji ▸ hcj) hp hmidx
              · rw [hget1 j hjlt hji] at hj
                exact hheap p j vv ww hcj hp hj

theorem runHeap_spec {V : Type} [LinearOrder V] [Inhabited V] (cv : VCodec V)
    (hcv : ∀ v, cv.dec (cv.enc v) = v) (ops : List (HeapOp V)) :
    ∀ (h : IndexMap V) (l : List V), MRepr cv h l → IsHeap l →
    goodRun cv h ops = true →
    ∃ l2, MRepr cv (runHeap cv h ops) l2 ∧ IsHeap l2 := by
  induction ops with
  | nil =>
    intro h l hm hheap _
    exact ⟨l, hm, hheap⟩
  | cons op rest ih =>
    intro h l hm hheap hgood
    simp only [goodRun, Bool.and_eq_true] at hgood
    rcases hgood with ⟨hop, hrest⟩
    cases op with
    | insert v =>
      simp only [Bool.and_eq_true, decide_eq_true_eq] at hop
      rcases hop with ⟨hkinone, hlencap⟩
      have hfresh : ∀ q w, l.get? q = some w → cv.key w ≠ cv.key v := by
        intro q w hq hx
        have := hm.hki q w hq
        rw [hx, hkinone] at this
        exact Option.noConfusion this
      have hcaplt : l.length < h.capacity := by
        rw [← hm.hlen]
        exact hlencap
      rcases heap_insert_spec cv hcv hm hheap hfresh hcaplt with
        ⟨h2, l2, hok, hm2, hheap2, _⟩
      show ∃ l3, MRepr cv (runHeap cv (stepHeap cv h (.insert v)) rest) l3 ∧ _
      simp only [stepHeap, hok] at hrest ⊢
      exact ih h2 l2 hm2 hheap2 hrest
    | remove_item k =>
      rcases heap_remove_item_spec cv hcv hm hheap k with ⟨l2, hm2, hheap2, _⟩
      simp only [stepHeap] at hrest ⊢
      exact ih _ l2 hm2 hheap2 hrest
    | change_key v =>
      rcases heap_change_key_spec cv hcv hm hheap v with ⟨l2, hm2, hheap2, _⟩
      simp only [stepHeap] at hrest ⊢
      exact ih _ l2 hm2 hheap2 hrest

theorem extractAll_spec {V : Type} [LinearOrder V] [Inhabited V]
    (cv : VCodec V) (hcv : ∀ v, cv.dec (cv.enc v) = v) :
    ∀ (n : Nat) (l : List V) (h : IndexMap V), l.length = n →
    MRepr cv h l → IsHeap l →
    (extractAll cv n h).Perm l ∧ List.Sorted (· ≤ ·) (extractAll cv n h) := by
  intro n
  induction n with
  | zero =>
    intro l h hl _ _
    have hnil : l = [] := List.length_eq_zero.mp hl
    rw [hnil]
    exact ⟨List.Perm.refl _, List.sorted_nil⟩
  | succ n ih =>
    intro l h hl hm hheap
    have hne : l ≠ [] := by
      intro hx
      rw [hx] at hl
      exact absurd hl (by simp)
    rcases heap_extract_spec cv hcv hm hheap hne with
      ⟨m, h2, l2, _, hex, hm2, hheap2, hperm, hmin⟩
    have hl2 : l2.length = n := by
      have := hperm.length_eq
      rw [hl] at this
      simpa using this
    rcases ih l2 h2 hl2 hm2 hheap2 with ⟨hpermAll, hsorted⟩
    simp only [extractAll, hex]
    constructor
    · exact (List.Perm.cons m hpermAll).trans hperm
    · refine List.sorted_cons.mpr ⟨?_, hsorted⟩
      intro x hx
      have hx2 : x ∈ l2 := hpermAll.mem_iff.mp hx
      have hx3 : x ∈ l := hperm.mem_iff.mp (List.mem_cons_of_mem m hx2)
      exact not_lt.mp (hmin x hx3)

/-- C9 (amended).  For every sequence of `insert`, `remove_item` and
`change_key` operations on an `IndexHeap` that keeps the element count at or
below capacity **and only inserts values whose key is not currently live**
(the `goodRun` proviso), the final state represents a list of elements that is
a min-heap: repeatedly calling `extract` yields exactly those elements in
non-decreasing order, and the `IndexMap`'s bidirectional index is consistent —
every live value's `index_of_key` names the index `get` returns it at, and
every key the index resolves names a stored value with that key.  The claim's
unconditional form is amended by the freshness proviso: inserting a second
value with an already-live key silently overwrites the key-to-index entry and
breaks the bidirectional index (see the counterexample). -/
theorem c9_heap_order_and_index {V : Type} [LinearOrder V] [Inhabited V]
    (cv : VCodec V) (hcv : ∀ v, cv.dec (cv.enc v) = v) (dom : Bytes)
    (cap : Nat) (hcap : cap < 256 ^ 4) (ops : List (HeapOp V))
    (hgood : goodRun cv (IndexMap.mk [] dom cap) ops = true) :
    ∃ l, MRepr cv (runHeap cv (IndexMap.mk [] dom cap) ops) l ∧ IsHeap l ∧
      (extractAll cv l.length
        (runHeap cv (IndexMap.mk [] dom cap) ops)).Perm l ∧
      List.Sorted (· ≤ ·) (extractAll cv l.length
        (runHeap cv (IndexMap.mk [] dom cap) ops)) ∧
      (∀ i v, IndexMap.get cv (runHeap cv (IndexMap.mk [] dom cap) ops) i
          = some v →
        (runHeap cv (IndexMap.mk [] dom cap) ops).index_of_key (cv.key v)
          = some i) ∧
      (∀ k i, (runHeap cv (IndexMap.mk [] dom cap) ops).index_of_key k
          = some i →
        ∃ v, IndexMap.get cv (runHeap cv (IndexMap.mk [] dom cap) ops) i
          = some v ∧ cv.key v = k) := by
  have hm0 : MRepr cv (IndexMap.mk [] dom cap) ([] : List V) := by
    refine ⟨hcap, rfl, Nat.zero_le _, ?_, ?_, ?_⟩
    · intro i
      rw [lget_ge [] i (Nat.zero_le i)]
      unfold IndexMap.get
      split
      · rfl
      · rfl
    · intro q v hv
      rw [lget_ge [] q (Nat.zero_le q)] at hv
      exact Option.noConfusion hv
    · intro k i hk
      exact Option.noConfusion hk
  rcases runHeap_spec cv hcv ops (IndexMap.mk [] dom cap) [] hm0 isHeap_nil
    hgood with ⟨l, hm, hheap⟩
  rcases extractAll_spec cv hcv l.length l _ rfl hm hheap with ⟨hperm, hsorted⟩
  refine ⟨l, hm, hheap, hperm, hsorted, ?_, ?_⟩
  · intro i v hv
    rw [hm.hget i] at hv
    exact hm.hki i v hv
  · intro k i hk
    rcases hm.hki_inv k i hk with ⟨v, hvq, hkv⟩
    exact ⟨v, by rw [hm.hget i]; exact hvq, hkv⟩

/-- Auxiliary: the value interface of the C9 counterexample — every value has
the same key. -/
def c9xCv : VCodec Nat :=
  ⟨fun _ => [0], fun n => [n], fun bs => bs.headD 0⟩

/-- Auxiliary: the heap of the C9 counterexample after inserting two values
that share a key. -/
def c9xH : IndexMap Nat :=
  runHeap c9xCv (IndexMap.mk [] [] 8) [.insert 5, .insert 7]

/-- C9, counterexample to the claim as stated: two inserts under or at
capacity whose values share a key leave the bidirectional index broken —
the value 5 is live at index 0, yet `index_of_key` of its key answers
index 1, because the second insert silently overwrote the key-to-index
cell.  So index consistency does not hold for *every* operation sequence
that stays within capacity. -/
theorem c9_duplicate_key_breaks_index_counterexample :
    IndexMap.get c9xCv c9xH 0 = some 5 ∧
    IndexMap.get c9xCv c9xH 1 = some 7 ∧
    c9xH.length = 2 ∧
    c9xH.index_of_key (c9xCv.key 5) = some 1 ∧
    some (1 : Nat) ≠ some 0 := by
  refine ⟨rfl, rfl, rfl, rfl, ?_⟩
  decide

/-- Auxiliary: the value interface of the C9 witness — the value is its own
key byte. -/
def c9wCv : VCodec Nat :=
  ⟨fun n => [n], fun n => [n], fun bs => bs.headD 0⟩

/-- Auxiliary: the operation sequence of the C9 witness. -/
def c9wOps : List (HeapOp Nat) :=
  [.insert 2, .insert 1, .insert 3, .remove_item [2], .change_key 1]

/-- C9 witness: a concrete fresh-key run — three inserts, a removal and a
change_key — satisfies the amended heap-order and index-consistency
property. -/
theorem c9_heap_order_and_index_witness :
    ∃ l, MRepr c9wCv (runHeap c9wCv (IndexMap.mk [] [] 4) c9wOps) l ∧
      IsHeap l ∧
      (extractAll c9wCv l.length
        (runHeap c9wCv (IndexMap.mk [] [] 4) c9wOps)).Perm l ∧
      List.Sorted (· ≤ ·) (extractAll c9wCv l.length
        (runHeap c9wCv (IndexMap.mk [] [] 4) c9wOps)) ∧
      (∀ i v, IndexMap.get c9wCv (runHeap c9wCv (IndexMap.mk [] [] 4) c9wOps) i
          = some v →
        (runHeap c9wCv (IndexMap.mk [] [] 4) c9wOps).index_of_key (c9wCv.key v)
          = some i) ∧
      (∀ k i, (runHeap c9wCv (IndexMap.mk [] [] 4) c9wOps).index_of_key k
          = some i →
        ∃ v, IndexMap.get c9wCv (runHeap c9wCv (IndexMap.mk [] [] 4) c9wOps) i
          = some v ∧ c9wCv.key v = k) :=
  c9_heap_order_and_index c9wCv (fun _ => rfl) [] 4 (by norm_num) c9wOps rfl
